import Mathlib

/-!
Verification development for the FileFinder incremental tree synchronizer
(`filefinder.py`).  The database table `files(name, path, size, mtime)` is
modelled as a list of rows; the filesystem as a list of entries; the worker
functions `Worker.update_db_subdir` and `Worker.update_db` are embedded as
executable Lean functions producing an event trace (inserts, deletes, mtime
updates, commits, read-cursor seeks and directory listings).

Paths and names are modelled as `List Char`; SQLite's TEXT ordering and
Python's `cmp` on strings are both the same lexicographic order on the
character sequence, modelled by `strLt`.
-/

/-- Lexicographic strict order on character lists: Python `cmp(a, b) < 0`
and SQLite TEXT `<`. -/
def strLt : List Char → List Char → Bool
  | [], [] => false
  | [], _ :: _ => true
  | _ :: _, [] => false
  | a :: as, b :: bs => if a < b then true else if b < a then false else strLt as bs

/-- Python `p.startswith(d)`: `d` is a prefix of `p`. -/
def startswith (p d : List Char) : Bool :=
  d.isPrefixOf p

theorem strLt_irrefl (a : List Char) : strLt a a = false := by
  induction a with
  | nil => rfl
  | cons c t ih => simp [strLt, ih]

theorem strLt_cons_iff {x y : Char} {xs ys : List Char} :
    strLt (x :: xs) (y :: ys) = true ↔ x < y ∨ (x = y ∧ strLt xs ys = true) := by
  simp only [strLt]
  rcases lt_trichotomy x y with h | h | h
  · simp [h]
  · subst h; simp [lt_irrefl]
  · simp [h, not_lt_of_gt h, ne_of_gt h]

theorem strLt_trans {a b c : List Char} (h1 : strLt a b = true)
    (h2 : strLt b c = true) : strLt a c = true := by
  induction a generalizing b c with
  | nil =>
    cases b with
    | nil => simp [strLt] at h1
    | cons y ys =>
      cases c with
      | nil => simp [strLt] at h2
      | cons z zs => simp [strLt]
  | cons x xs ih =>
    cases b with
    | nil => simp [strLt] at h1
    | cons y ys =>
      cases c with
      | nil => simp [strLt] at h2
      | cons z zs =>
        rcases strLt_cons_iff.mp h1 with hxy | ⟨rfl, h1'⟩
        · rcases strLt_cons_iff.mp h2 with hyz | ⟨rfl, h2'⟩
          · exact strLt_cons_iff.mpr (Or.inl (lt_trans hxy hyz))
          · exact strLt_cons_iff.mpr (Or.inl hxy)
        · rcases strLt_cons_iff.mp h2 with hyz | ⟨rfl, h2'⟩
          · exact strLt_cons_iff.mpr (Or.inl hyz)
          · exact strLt_cons_iff.mpr (Or.inr ⟨rfl, ih h1' h2'⟩)

theorem strLt_asymm {a b : List Char} (h : strLt a b = true) :
    strLt b a = false := by
  by_contra hc
  have hba : strLt b a = true := by
    cases hq : strLt b a with
    | false => exact absurd hq hc
    | true => rfl
  have := strLt_trans h hba
  rw [strLt_irrefl] at this
  simp at this

theorem strLt_or_eq_or_gt (a b : List Char) :
    strLt a b = true ∨ a = b ∨ strLt b a = true := by
  induction a generalizing b with
  | nil =>
    cases b with
    | nil => exact Or.inr (Or.inl rfl)
    | cons y ys => exact Or.inl (by simp [strLt])
  | cons x xs ih =>
    cases b with
    | nil => exact Or.inr (Or.inr (by simp [strLt]))
    | cons y ys =>
      rcases lt_trichotomy x y with hxy | hxy | hxy
      · exact Or.inl (by simp [strLt, hxy])
      · subst hxy
        rcases ih ys with h | h | h
        · exact Or.inl (by simp [strLt, lt_irrefl, h])
        · exact Or.inr (Or.inl (by rw [h]))
        · exact Or.inr (Or.inr (by simp [strLt, lt_irrefl, h]))
      · exact Or.inr (Or.inr (by simp [strLt, hxy]))

theorem strLt_of_ne_of_not_lt {a b : List Char} (hne : a ≠ b)
    (h : strLt a b = false) : strLt b a = true := by
  rcases strLt_or_eq_or_gt a b with h1 | h1 | h1
  · rw [h1] at h; exact absurd h (by simp)
  · exact absurd h1 hne
  · exact h1

theorem strLt_append {a c : List Char} (hc : c ≠ []) :
    strLt a (a ++ c) = true := by
  induction a with
  | nil =>
    cases c with
    | nil => exact absurd rfl hc
    | cons z zs => simp [strLt]
  | cons x xs ih => simpa [strLt] using ih

theorem strLt_ne {a b : List Char} (h : strLt a b = true) : a ≠ b := by
  intro he
  subst he
  rw [strLt_irrefl] at h
  simp at h

theorem startswith_iff {p d : List Char} :
    startswith p d = true ↔ d <+: p := by
  constructor
  · intro h; exact List.isPrefixOf_iff_prefix.mp h
  · intro h; exact List.isPrefixOf_iff_prefix.mpr h

theorem startswith_refl (p : List Char) : startswith p p = true :=
  startswith_iff.mpr (List.prefix_refl p)

theorem startswith_trans {p d e : List Char} (h1 : startswith p d = true)
    (h2 : startswith d e = true) : startswith p e = true :=
  startswith_iff.mpr (List.IsPrefix.trans (startswith_iff.mp h2) (startswith_iff.mp h1))

theorem strLt_append_self (a c : List Char) : strLt (a ++ c) a = false := by
  induction a with
  | nil =>
    cases c with
    | nil => rfl
    | cons z zs => simp [strLt]
  | cons x xs ih => simpa [strLt] using ih

/-- A prefix is `≤` in the lexicographic order. -/
theorem not_strLt_of_startswith {p d : List Char} (h : startswith p d = true) :
    strLt p d = false := by
  rcases startswith_iff.mp h with ⟨c, rfl⟩
  exact strLt_append_self d c

/-- A strict extension is lexicographically greater. -/
theorem strLt_of_startswith_ne {p d : List Char} (h : startswith p d = true)
    (hne : p ≠ d) : strLt d p = true := by
  rcases startswith_iff.mp h with ⟨c, rfl⟩
  cases c with
  | nil => exact absurd (by simp) hne
  | cons z zs => exact strLt_append (by simp)

/-- Once the sorted read cursor reaches a row outside the root subtree, every
remaining row is outside it: a path inside the subtree is strictly below any
path that is `≥` the root but not inside the subtree. -/
theorem inside_lt_outside {dp q p : List Char} (hq : strLt q dp = false)
    (hqo : startswith q dp = false) (hp : startswith p dp = true) :
    strLt p q = true := by
  induction dp generalizing q p with
  | nil =>
    exfalso
    have : startswith q [] = true := startswith_iff.mpr (by simp)
    rw [this] at hqo
    simp at hqo
  | cons c dt ih =>
    cases q with
    | nil => simp [strLt] at hq
    | cons x xs =>
      rcases startswith_iff.mp hp with ⟨pc, hpc⟩
      cases hpc
      simp only [strLt] at hq ⊢
      rcases lt_trichotomy x c with hxc | hxc | hxc
      · simp [hxc] at hq
      · subst hxc
        simp only [lt_irrefl, if_false] at hq ⊢
        have hqo' : startswith xs dt = false := by
          cases hs : startswith xs dt with
          | false => rfl
          | true =>
            exfalso
            have : startswith (x :: xs) (x :: dt) = true := by
              rcases startswith_iff.mp hs with ⟨c2, hc2⟩
              exact startswith_iff.mpr ⟨c2, by simp [hc2]⟩
            rw [this] at hqo
            simp at hqo
        have hp' : startswith (dt ++ pc) dt = true :=
          startswith_iff.mpr ⟨pc, rfl⟩
        exact ih hq hqo' hp'
      · simp [hxc]

/-! ### Paths: `os.path.dirname` / `os.path.basename` / `os.path.join` (posix) -/

/-- Strip trailing slashes (`head.rstrip('/')` in `posixpath.split`). -/
def rstripSlash (l : List Char) : List Char :=
  ((l.reverse.dropWhile (fun c => c = '/')).reverse)

/-- Model of `posixpath.split`: split at the last `/`; the head keeps a
trailing slash only if it consists entirely of slashes. -/
def splitP (p : List Char) : List Char × List Char :=
  let tailRev := p.reverse.takeWhile (fun c => ¬ (c = '/'))
  let headPart := (p.reverse.drop tailRev.length).reverse
  let tailPart := tailRev.reverse
  if headPart = [] then ([], tailPart)
  else if headPart.all (fun c => c = '/') then (headPart, tailPart)
  else (rstripSlash headPart, tailPart)

def dirnameL (p : List Char) : List Char := (splitP p).1

def basenameL (p : List Char) : List Char := (splitP p).2

/-- Model of `os.path.join(d, n)` for a non-absolute `n`. -/
def joinL (d n : List Char) : List Char :=
  if d = [] then n
  else if d.getLast? = some '/' then d ++ n
  else d ++ '/' :: n

/-- Well-formed file/directory base name: non-empty, no separator, not the
sentinel name. -/
def wfName (n : List Char) : Prop :=
  n ≠ [] ∧ '/' ∉ n ∧ n ≠ ['.']

/-- A directory path that `os.path.join` and `os.path.split` round-trip on:
either all slashes (e.g. the root `/`) or non-empty without trailing slash. -/
def okDir (d : List Char) : Prop :=
  d ≠ [] ∧ (d.getLast? = some '/' → ∀ c ∈ d, c = '/')

instance (n : List Char) : Decidable (wfName n) := by
  unfold wfName; infer_instance

instance (d : List Char) : Decidable (okDir d) := by
  unfold okDir; infer_instance

theorem joinL_eq_of_last_slash {d n : List Char} (hd : d ≠ [])
    (hlast : d.getLast? = some '/') : joinL d n = d ++ n := by
  simp [joinL, hd, hlast]

theorem joinL_eq_of_last_ne_slash {d n : List Char} (hd : d ≠ [])
    (hlast : d.getLast? ≠ some '/') : joinL d n = d ++ '/' :: n := by
  simp [joinL, hd, hlast]

theorem splitP_joinL {d n : List Char} (hd : okDir d) (hn0 : n ≠ [])
    (hns : '/' ∉ n) : splitP (joinL d n) = (d, n) := by
  obtain ⟨hne, hsl⟩ := hd
  have hnrev : ∀ c ∈ n.reverse, (decide (¬ c = '/')) = true := by
    intro c hc
    simp only [decide_eq_true_eq]
    intro he
    subst he
    exact hns (List.mem_reverse.mp hc)
  by_cases hlast : d.getLast? = some '/'
  · -- all-slash directory head, e.g. the root "/"
    have hall : ∀ c ∈ d, c = '/' := hsl hlast
    rw [joinL_eq_of_last_slash hne hlast]
    have hdrev : ∃ c cs, d.reverse = c :: cs ∧ c = '/' := by
      cases hrd : d.reverse with
      | nil =>
        exfalso
        exact hne (by simpa using congrArg List.reverse hrd)
      | cons c cs =>
        refine ⟨c, cs, rfl, ?_⟩
        have : c ∈ d.reverse := by rw [hrd]; exact List.mem_cons_self c cs
        exact hall c (List.mem_reverse.mp this)
    obtain ⟨c, cs, hrd, hc⟩ := hdrev
    unfold splitP
    rw [List.reverse_append, List.takeWhile_append_of_pos hnrev, hrd]
    have hstop : (decide (¬ c = '/')) = false := by simp [hc]
    rw [List.takeWhile_cons_of_neg (by simp [hstop])]
    simp only [List.append_nil, List.length_reverse]
    have hdrop : (n.reverse ++ (c :: cs)).drop n.reverse.length = c :: cs := by
      have := List.drop_left n.reverse (c :: cs)
      simpa [List.length_reverse] using this
    rw [List.length_reverse] at hdrop
    rw [hdrop]
    have hback : (c :: cs).reverse = d := by
      rw [← hrd, List.reverse_reverse]
    rw [hback]
    have : d.all (fun c => decide (c = '/')) = true := by
      simp only [List.all_eq_true, decide_eq_true_eq]
      exact hall
    simp [hne, this]
  · -- ordinary directory head without trailing slash
    rw [joinL_eq_of_last_ne_slash hne hlast]
    have hlget : ∃ c, d.getLast? = some c ∧ c ≠ '/' := by
      cases hg : d.getLast? with
      | none => exact absurd (List.getLast?_eq_none_iff.mp hg) hne
      | some c =>
        refine ⟨c, rfl, ?_⟩
        intro he
        subst he
        exact hlast hg
    obtain ⟨c, hg, hcne⟩ := hlget
    have hdrev : d.reverse = c :: (d.dropLast.reverse) := by
      have h1 : d = d.dropLast ++ [c] := by
        conv_lhs => rw [← List.dropLast_append_getLast? c hg]
      conv_lhs => rw [h1]
      simp
    unfold splitP
    have hjr : (d ++ '/' :: n).reverse = n.reverse ++ '/' :: d.reverse := by
      simp
    rw [hjr, List.takeWhile_append_of_pos hnrev]
    rw [List.takeWhile_cons_of_neg (by simp)]
    simp only [List.append_nil, List.length_reverse]
    have hdrop : (n.reverse ++ '/' :: d.reverse).drop n.reverse.length = '/' :: d.reverse := by
      have := List.drop_left n.reverse ('/' :: d.reverse)
      simpa using this
    rw [List.length_reverse] at hdrop
    rw [hdrop]
    have hne2 : ('/' :: d.reverse).reverse ≠ [] := by simp
    have hnall : (('/' :: d.reverse).reverse).all (fun c => decide (c = '/')) = false := by
      rw [List.all_eq_false]
      refine ⟨c, ?_, by simp [hcne]⟩
      rw [List.mem_reverse, hdrev]
      exact List.mem_cons_of_mem _ (List.mem_cons_self c _)
    rw [if_neg hne2, if_neg (by rw [hnall]; simp)]
    have hrs : rstripSlash (('/' :: d.reverse).reverse) = d := by
      unfold rstripSlash
      rw [List.reverse_reverse]
      rw [List.dropWhile_cons_of_pos (by simp)]
      rw [hdrev]
      rw [List.dropWhile_cons_of_neg (by simp [hcne])]
      rw [← hdrev, List.reverse_reverse]
    rw [hrs]
    simp

theorem dirnameL_joinL {d n : List Char} (hd : okDir d) (hn0 : n ≠ [])
    (hns : '/' ∉ n) : dirnameL (joinL d n) = d := by
  unfold dirnameL
  rw [splitP_joinL hd hn0 hns]

theorem basenameL_joinL {d n : List Char} (hd : okDir d) (hn0 : n ≠ [])
    (hns : '/' ∉ n) : basenameL (joinL d n) = n := by
  unfold basenameL
  rw [splitP_joinL hd hn0 hns]

theorem strLt_joinL {d n : List Char} (hd : d ≠ []) (hn0 : n ≠ []) :
    strLt d (joinL d n) = true := by
  by_cases hlast : d.getLast? = some '/'
  · rw [joinL_eq_of_last_slash hd hlast]
    exact strLt_append hn0
  · rw [joinL_eq_of_last_ne_slash hd hlast]
    exact strLt_append (by simp)

theorem startswith_joinL {d n : List Char} (hd : d ≠ []) :
    startswith (joinL d n) d = true := by
  by_cases hlast : d.getLast? = some '/'
  · rw [joinL_eq_of_last_slash hd hlast]
    exact startswith_iff.mpr ⟨n, rfl⟩
  · rw [joinL_eq_of_last_ne_slash hd hlast]
    exact startswith_iff.mpr ⟨'/' :: n, rfl⟩

theorem joinL_ne_self {d n : List Char} (hd : d ≠ []) (hn0 : n ≠ []) :
    joinL d n ≠ d := by
  intro h
  have := strLt_joinL hd hn0
  rw [h, strLt_irrefl] at this
  simp at this

theorem joinL_inj {d n1 n2 : List Char} (h : joinL d n1 = joinL d n2) : n1 = n2 := by
  by_cases hd : d = []
  · simpa [joinL, hd] using h
  · by_cases hlast : d.getLast? = some '/'
    · rw [joinL_eq_of_last_slash hd hlast, joinL_eq_of_last_slash hd hlast] at h
      exact List.append_cancel_left h
    · rw [joinL_eq_of_last_ne_slash hd hlast, joinL_eq_of_last_ne_slash hd hlast] at h
      have := List.append_cancel_left h
      simpa using this

theorem okDir_joinL {d n : List Char} (hd : d ≠ []) (hn0 : n ≠ [])
    (hns : '/' ∉ n) : okDir (joinL d n) := by
  have hlastj : (joinL d n).getLast? = n.getLast? := by
    by_cases hlast : d.getLast? = some '/'
    · rw [joinL_eq_of_last_slash hd hlast]
      rw [List.getLast?_append]
      cases hg : n.getLast? with
      | none => exact absurd (List.getLast?_eq_none_iff.mp hg) hn0
      | some c => rfl
    · rw [joinL_eq_of_last_ne_slash hd hlast]
      rw [List.getLast?_append]
      cases hg : (('/' : Char) :: n).getLast? with
      | none =>
        exfalso
        have : (('/' : Char) :: n) = [] := List.getLast?_eq_none_iff.mp hg
        simp at this
      | some c =>
        have : (('/' : Char) :: n).getLast? = n.getLast? := by
          cases n with
          | nil => exact absurd rfl hn0
          | cons y ys => simp [List.getLast?_cons_cons]
        rw [← this, hg]
        rfl
  constructor
  · intro h
    rw [h] at hlastj
    cases hg : n.getLast? with
    | none => exact hn0 (List.getLast?_eq_none_iff.mp hg)
    | some c => simp [joinL] at h <;> simp_all
  · intro hsl
    exfalso
    rw [hlastj] at hsl
    cases n with
    | nil => exact hn0 rfl
    | cons y ys =>
      exact hns (List.mem_of_getLast?_eq_some hsl)

theorem length_joinL {d n : List Char} (hd : d ≠ []) :
    d.length + n.length ≤ (joinL d n).length := by
  by_cases hlast : d.getLast? = some '/'
  · rw [joinL_eq_of_last_slash hd hlast]; simp
  · rw [joinL_eq_of_last_ne_slash hd hlast]; simp

theorem not_startswith_short {p d : List Char} (h : p.length < d.length) :
    startswith p d = false := by
  cases hs : startswith p d with
  | false => rfl
  | true =>
    exfalso
    have := List.IsPrefix.length_le (startswith_iff.mp hs)
    omega

/-! ### Data model: the `files` table, OS errors, the filesystem -/

/-- One row of the `files` table: `(name, path, size, mtime)` with primary key
`(path, name)`.  `size` is overloaded: `>= 0` file size, `-1` directory,
`-2` root marker, `-3` dummy sentinel. -/
structure Row where
  name : List Char
  path : List Char
  size : Int
  mtime : Int
deriving DecidableEq

/-- An `OSError` as observed by `is_enoent`: its `errno`, the exception class
name, and (on Windows) its `winerror`. -/
structure OSErr where
  errno : Int
  className : List Char
  winerror : Int
deriving DecidableEq

def ENOENT : Int := 2

/-- Model of the module-level `is_enoent(e)` classifier (filefinder.py):
`(e.errno == errno.ENOENT) and ((e.__class__.__name__ != "WindowsError") or
(e.winerror != 53))`. -/
def is_enoent (e : OSErr) : Bool :=
  (e.errno == ENOENT) && ((!(e.className == "WindowsError".data)) || (!(e.winerror == 53)))

/-- The plain POSIX file-not-found error. -/
def enoentErr : OSErr := ⟨ENOENT, "OSError".data, 0⟩

/-- Observable store/cursor operations performed by the synchronizer. -/
inductive Event where
  | listing (path : List Char)
  | insert (r : Row)
  | delete (name path : List Char)
  | setMtime (name path : List Char) (mtime : Int)
  | commit
  | seek (path : List Char)
deriving DecidableEq

/-- One filesystem object.  `statErr` models a stat call on this entry
raising an `OSError` (e.g. unreadable/corrupt metadata). -/
structure FSEntry where
  path : List Char
  isDir : Bool
  size : Int
  mtime : Int
  statErr : Option OSErr
deriving DecidableEq

/-- The filesystem is a finite set of entries addressed by absolute path. -/
structure FS where
  entries : List FSEntry
deriving DecidableEq

def findEntry : List FSEntry → List Char → Option FSEntry
  | [], _ => none
  | e :: t, p => if e.path = p then some e else findEntry t p

def FS.find (fs : FS) (p : List Char) : Option FSEntry :=
  findEntry fs.entries p

/-- Model of `os.stat(p)`: `(S_ISDIR(st_mode), st_size, int(st_mtime*1000))`. -/
def FS.statE (fs : FS) (p : List Char) : Except OSErr (Bool × Int × Int) :=
  match fs.find p with
  | none => .error enoentErr
  | some e =>
    match e.statErr with
    | some er => .error er
    | none => .ok (e.isDir, e.size, e.mtime)

/-- Model of `int(os.path.getmtime(p) * 1000.0)`. -/
def FS.getmtimeMs (fs : FS) (p : List Char) : Except OSErr Int :=
  match fs.statE p with
  | .error e => .error e
  | .ok t => .ok t.2.2

/-- The base names of the entries whose parent directory is `p`. -/
def FS.childNames (fs : FS) (p : List Char) : List (List Char) :=
  fs.entries.filterMap (fun e => if dirnameL e.path = p then some (basenameL e.path) else none)

def enotdirErr : OSErr := ⟨20, "OSError".data, 0⟩

/-- Model of `os.listdir(p)` (unsorted; the worker sorts the result). -/
def FS.listdir (fs : FS) (p : List Char) : Except OSErr (List (List Char)) :=
  match fs.find p with
  | none => .error enoentErr
  | some e =>
    match e.statErr with
    | some er => .error er
    | none => if e.isDir then .ok (fs.childNames p) else .error enotdirErr

/-! ### Store primitives (SQL statements on the `files` table) -/

/-- `SELECT mtime FROM files WHERE path == ? AND name = ?` (first row). -/
def lookupMtime : List Row → List Char → List Char → Option Int
  | [], _, _ => none
  | r :: t, p, n => if r.path = p ∧ r.name = n then some r.mtime else lookupMtime t p n

/-- `SELECT * FROM files WHERE path = ? AND name = ?` (first row). -/
def lookupRow : List Row → List Char → List Char → Option Row
  | [], _, _ => none
  | r :: t, p, n => if r.path = p ∧ r.name = n then some r else lookupRow t p n

/-- `DELETE FROM files WHERE name = ? AND path = ?`. -/
def delRow : List Row → List Char → List Char → List Row
  | [], _, _ => []
  | r :: t, n, p =>
    if r.name = n ∧ r.path = p then delRow t n p else r :: delRow t n p

/-- `UPDATE files SET mtime = ? WHERE name = ? AND path = ?`. -/
def updMtime : List Row → List Char → List Char → Int → List Row
  | [], _, _, _ => []
  | r :: t, n, p, m =>
    (if r.name = n ∧ r.path = p then { r with mtime := m } else r) :: updMtime t n p m

/-- Row order used by `ORDER BY path ASC, name ASC`. -/
def rowLe (r s : Row) : Bool :=
  strLt r.path s.path || (r.path == s.path && !strLt s.name r.name)

def insRowSorted (r : Row) : List Row → List Row
  | [] => [r]
  | s :: t => if rowLe r s then r :: s :: t else s :: insRowSorted r t

/-- Sort rows by `(path, name)` ascending. -/
def sortRows : List Row → List Row
  | [] => []
  | r :: t => insRowSorted r (sortRows t)

/-- `SELECT * FROM files WHERE path > ? ORDER BY path ASC, name ASC`. -/
def queryGT (tab : List Row) (p : List Char) : List Row :=
  sortRows (tab.filter (fun r => strLt p r.path))

/-- `SELECT * FROM files WHERE path >= ? ORDER BY path ASC, name ASC`. -/
def queryGE (tab : List Row) (p : List Char) : List Row :=
  sortRows (tab.filter (fun r => !strLt r.path p))

/-- Name order used for `filenames.sort()`. -/
def insNameSorted (n : List Char) : List (List Char) → List (List Char)
  | [] => [n]
  | m :: t => if !strLt m n then n :: m :: t else m :: insNameSorted n t

def sortNames : List (List Char) → List (List Char)
  | [] => []
  | n :: t => insNameSorted n (sortNames t)

/-! ### The synchronizer (`Worker.update_db_subdir` / `Worker.update_db`) -/

/-- The two SQLite connections: `table` is what the write connection `conn`
sees (its own uncommitted writes included), `committed` is the durable state
that a freshly issued read-cursor query observes. -/
structure SyncState where
  table : List Row
  committed : List Row
deriving DecidableEq

/-- Result of the merge loop inside `update_db_subdir`. -/
structure MergeOut where
  table : List Row
  row : Option Row
  cursor : List Row
  refresh : Bool
  evs : List Event
deriving DecidableEq

def addEvs (es : List Event) : Except OSErr MergeOut → Except OSErr MergeOut
  | .error e => .error e
  | .ok mo => .ok { mo with evs := es ++ mo.evs }

/-- The `comp < 0` branch of the merge loop: `os.stat` the new on-disk entry
and insert it; a new directory is inserted with `mtime = 0` and additionally
gets a dummy sentinel child row (name `.`, size `-3`), forcing a read-cursor
refresh.  Returns the new table, whether a refresh is now required, and the
insert events. -/
def insertStep (fs : FS) (sp : List Char) (table : List Row) (n : List Char) :
    Except OSErr (List Row × Bool × List Event) :=
  let filepath := joinL sp n
  match fs.statE filepath with
  | .error e => .error e
  | .ok (isDir, sz, mt) =>
    let inserted_row : Row := ⟨n, sp, if isDir then -1 else sz, if isDir then 0 else mt⟩
    if isDir then
      let dummy_row : Row := ⟨".".data, filepath, -3, 0⟩
      .ok (table ++ [dummy_row, inserted_row], true,
           [Event.insert dummy_row, Event.insert inserted_row])
    else
      .ok (table ++ [inserted_row], false, [Event.insert inserted_row])

/-- The sorted merge-diff loop of `update_db_subdir` (the `while True` over
`filenames` and the read-cursor rows for `subdirpath`).  `fuel` is structural;
callers pass `names.length + cursor.length + 2`, which exceeds the loop's
iteration count, so the `0` case is never reached. -/
def mergeLoop (fs : FS) (sp : List Char) : Nat → List Row → List (List Char) →
    Option Row → List Row → Bool → Except OSErr MergeOut
  | 0, table, _, row, cursor, refresh => .ok ⟨table, row, cursor, refresh, []⟩
  | fuel + 1, table, names, row, cursor, refresh =>
    match names, row with
    | [], none => .ok ⟨table, none, cursor, refresh, []⟩
    | [], some r =>
      if r.path = sp then
        -- done with filenames: remaining rows for this subdirpath are deleted
        addEvs [Event.delete r.name r.path]
          (mergeLoop fs sp fuel (delRow table r.name r.path) [] cursor.head? cursor.tail refresh)
      else .ok ⟨table, some r, cursor, refresh, []⟩
    | n :: ns, none =>
      -- done with rows: the rest of the filenames are inserted
      match insertStep fs sp table n with
      | .error e => .error e
      | .ok (table2, dirIns, evs1) =>
        addEvs evs1 (mergeLoop fs sp fuel table2 ns none cursor (refresh || dirIns))
    | n :: ns, some r =>
      if r.path = sp then
        if n = r.name then
          -- same entry on both sides: advance both cursors, no write
          mergeLoop fs sp fuel table ns cursor.head? cursor.tail refresh
        else if strLt n r.name then
          match insertStep fs sp table n with
          | .error e => .error e
          | .ok (table2, dirIns, evs1) =>
            addEvs evs1 (mergeLoop fs sp fuel table2 ns (some r) cursor (refresh || dirIns))
        else
          addEvs [Event.delete r.name r.path]
            (mergeLoop fs sp fuel (delRow table r.name r.path) (n :: ns) cursor.head? cursor.tail refresh)
      else
        -- row belongs to another directory: insert the remaining filenames
        match insertStep fs sp table n with
        | .error e => .error e
        | .ok (table2, dirIns, evs1) =>
          addEvs evs1 (mergeLoop fs sp fuel table2 ns (some r) cursor (refresh || dirIns))

/-- Result of one `update_db_subdir` call: new connection states, the row the
caller continues with, the remaining cursor rows, and the event trace. -/
structure SubOut where
  st : SyncState
  row : Option Row
  cursor : List Row
  evs : List Event
deriving DecidableEq

/-- Model of `Worker.update_db_subdir(conn, read_cursor, subdirpath, row)`. -/
def update_db_subdir (fs : FS) (st : SyncState) (sp : List Char)
    (row : Option Row) (cursor : List Row) : Except OSErr SubOut :=
  -- SELECT mtime for this directory's own row (write connection's view)
  let m := (lookupMtime st.table (dirnameL sp) (basenameL sp)).getD 0
  let spM : Except OSErr Int :=
    match fs.getmtimeMs sp with
    | .error e => if is_enoent e then .ok (m + 1) else .error e
    | .ok t => .ok t
  match spM with
  | .error e => .error e
  | .ok spMtime =>
    if m < spMtime then
      -- the directory was modified: fetch and sort its listing, then merge
      let lsd : Except OSErr (List (List Char)) :=
        match fs.listdir sp with
        | .error e => if is_enoent e then .ok [] else .error e
        | .ok ns => .ok (sortNames ns)
      match lsd with
      | .error e => .error e
      | .ok names =>
        match mergeLoop fs sp (names.length + cursor.length + 2) st.table names row cursor false with
        | .error e => .error e
        | .ok mo =>
          let table2 := updMtime mo.table (basenameL sp) (dirnameL sp) spMtime
          let evs := Event.listing sp :: mo.evs ++ [Event.setMtime (basenameL sp) (dirnameL sp) spMtime]
          if mo.refresh then
            -- commit, then re-seek the read cursor past this directory
            let q := queryGT table2 sp
            .ok ⟨⟨table2, table2⟩, q.head?, q.tail, evs ++ [Event.commit, Event.seek sp]⟩
          else
            .ok ⟨⟨table2, st.committed⟩, mo.row, mo.cursor, evs⟩
    else
      -- not modified: skip, advancing the cursor by re-seeking past sp
      let q := queryGT st.committed sp
      .ok ⟨st, q.head?, q.tail, [Event.seek sp]⟩

/-- The scanning loop of `Worker.update_db`: fetch rows until none are left
or the row's path leaves the root subtree.  Returns `none` when out of fuel. -/
def update_db_loop (fs : FS) (dp : List Char) : Nat → SyncState → Option Row →
    List Row → Except OSErr (Option (SyncState × List Event))
  | 0, _, _, _ => .ok none
  | fuel + 1, st, row, cursor =>
    match row with
    | none => .ok (some (st, []))
    | some r =>
      if startswith r.path dp then
        match update_db_subdir fs st r.path (some r) cursor with
        | .error e => .error e
        | .ok so =>
          match update_db_loop fs dp fuel so.st so.row so.cursor with
          | .error e => .error e
          | .ok none => .ok none
          | .ok (some (st2, evs2)) => .ok (some (st2, so.evs ++ evs2))
      else .ok (some (st, []))

/-- Model of `Worker.update_db(dirpath)` for an already-normalized absolute
`dp`, starting from the durable store `db0`.  Returns the final durable store
and the event trace (or `none` when out of fuel). -/
def update_db (fs : FS) (fuel : Nat) (db0 : List Row) (dp : List Char) :
    Except OSErr (Option (List Row × List Event)) :=
  let init :=
    match lookupRow db0 (dirnameL dp) (basenameL dp) with
    | some _ => (db0, ([] : List Event))
    | none =>
      let inserted_row : Row := ⟨basenameL dp, dirnameL dp, -2, 0⟩
      let dummy_row : Row := ⟨".".data, dp, -3, 0⟩
      (db0 ++ [inserted_row, dummy_row],
       [Event.insert inserted_row, Event.insert dummy_row, Event.commit])
  let q := queryGE init.1 dp
  match update_db_loop fs dp fuel ⟨init.1, init.1⟩ q.head? q.tail with
  | .error e => .error e
  | .ok none => .ok none
  | .ok (some (st, evs)) =>
    .ok (some (st.table, init.2 ++ evs ++ [Event.commit]))

/-! ### Basic lemmas about the store primitives -/

/-- Primary-key uniqueness of `(path, name)`. -/
def nodupKeys (tab : List Row) : Prop :=
  List.Pairwise (fun r s => ¬(r.path = s.path ∧ r.name = s.name)) tab

theorem mem_delRow {r : Row} {tab : List Row} {n p : List Char} :
    r ∈ delRow tab n p ↔ r ∈ tab ∧ ¬(r.name = n ∧ r.path = p) := by
  induction tab with
  | nil => simp [delRow]
  | cons s t ih =>
    by_cases h : s.name = n ∧ s.path = p
    · simp only [delRow, if_pos h, ih]
      constructor
      · rintro ⟨hm, hk⟩
        exact ⟨List.mem_cons_of_mem _ hm, hk⟩
      · rintro ⟨hm, hk⟩
        rcases List.mem_cons.mp hm with rfl | hm
        · exact absurd h hk
        · exact ⟨hm, hk⟩
    · simp only [delRow, if_neg h, List.mem_cons, ih]
      constructor
      · rintro (rfl | ⟨hm, hk⟩)
        · exact ⟨Or.inl rfl, h⟩
        · exact ⟨Or.inr hm, hk⟩
      · rintro ⟨rfl | hm, hk⟩
        · exact Or.inl rfl
        · exact Or.inr ⟨hm, hk⟩

theorem delRow_subset {r : Row} {tab : List Row} {n p : List Char}
    (h : r ∈ delRow tab n p) : r ∈ tab :=
  (mem_delRow.mp h).1

theorem lookupMtime_eq_none {tab : List Row} {p n : List Char} :
    lookupMtime tab p n = none ↔ ∀ r ∈ tab, ¬(r.path = p ∧ r.name = n) := by
  induction tab with
  | nil => simp [lookupMtime]
  | cons s t ih =>
    by_cases h : s.path = p ∧ s.name = n
    · simp [lookupMtime, if_pos h, h]
    · simp only [lookupMtime, if_neg h, ih]
      constructor
      · intro ha r hm
        rcases List.mem_cons.mp hm with rfl | hm
        · exact h
        · exact ha r hm
      · intro ha r hm
        exact ha r (List.mem_cons_of_mem _ hm)

theorem lookupMtime_eq_some_mem {tab : List Row} {p n : List Char} {m : Int}
    (h : lookupMtime tab p n = some m) :
    ∃ r ∈ tab, r.path = p ∧ r.name = n ∧ r.mtime = m := by
  induction tab with
  | nil => simp [lookupMtime] at h
  | cons s t ih =>
    by_cases hk : s.path = p ∧ s.name = n
    · rw [lookupMtime, if_pos hk] at h
      exact ⟨s, List.mem_cons_self s t, hk.1, hk.2, by injection h⟩
    · rw [lookupMtime, if_neg hk] at h
      obtain ⟨r, hm, hr⟩ := ih h
      exact ⟨r, List.mem_cons_of_mem _ hm, hr⟩

theorem lookupMtime_of_mem {tab : List Row} {r : Row} (hnd : nodupKeys tab)
    (hm : r ∈ tab) : lookupMtime tab r.path r.name = some r.mtime := by
  induction tab with
  | nil => simp at hm
  | cons s t ih =>
    rcases List.mem_cons.mp hm with rfl | hm2
    · rw [lookupMtime, if_pos ⟨rfl, rfl⟩]
    · have hk : ¬(s.path = r.path ∧ s.name = r.name) :=
        (List.pairwise_cons.mp hnd).1 r hm2
      rw [lookupMtime, if_neg hk]
      exact ih (List.pairwise_cons.mp hnd).2 hm2

theorem lookupRow_eq_none {tab : List Row} {p n : List Char} :
    lookupRow tab p n = none ↔ ∀ r ∈ tab, ¬(r.path = p ∧ r.name = n) := by
  induction tab with
  | nil => simp [lookupRow]
  | cons s t ih =>
    by_cases h : s.path = p ∧ s.name = n
    · simp [lookupRow, if_pos h, h]
    · simp only [lookupRow, if_neg h, ih]
      constructor
      · intro ha r hm
        rcases List.mem_cons.mp hm with rfl | hm
        · exact h
        · exact ha r hm
      · intro ha r hm
        exact ha r (List.mem_cons_of_mem _ hm)

theorem mem_updMtime {tab : List Row} {n p : List Char} {m : Int} {r : Row} :
    r ∈ updMtime tab n p m ↔
      ∃ r0 ∈ tab, r = (if r0.name = n ∧ r0.path = p then { r0 with mtime := m } else r0) := by
  induction tab with
  | nil => simp [updMtime]
  | cons s t ih =>
    simp only [updMtime, List.mem_cons, ih]
    constructor
    · rintro (rfl | ⟨r0, hm, rfl⟩)
      · exact ⟨s, Or.inl rfl, rfl⟩
      · exact ⟨r0, Or.inr hm, rfl⟩
    · rintro ⟨r0, rfl | hm, rfl⟩
      · exact Or.inl rfl
      · exact Or.inr ⟨r0, hm, rfl⟩

/-- The final mtime `UPDATE` of a merge pass never inserts a row: when no row
matches the key, the table is unchanged. -/
theorem updMtime_eq_of_no_match {tab : List Row} {n p : List Char} {m : Int}
    (h : ∀ r ∈ tab, ¬(r.name = n ∧ r.path = p)) : updMtime tab n p m = tab := by
  induction tab with
  | nil => rfl
  | cons s t ih =>
    rw [updMtime, if_neg (h s (List.mem_cons_self s t))]
    rw [ih (fun r hm => h r (List.mem_cons_of_mem _ hm))]

theorem updMtime_key_eq {tab : List Row} {n p : List Char} {m : Int} {r : Row}
    (hm : r ∈ updMtime tab n p m) : ∃ r0 ∈ tab, r.name = r0.name ∧ r.path = r0.path := by
  obtain ⟨r0, hm0, rfl⟩ := mem_updMtime.mp hm
  by_cases h : r0.name = n ∧ r0.path = p
  · exact ⟨r0, hm0, by simp [h]⟩
  · exact ⟨r0, hm0, by simp [h]⟩

theorem mem_updMtime_of_mem {tab : List Row} {n p : List Char} {m : Int} {r : Row}
    (hm : r ∈ tab) (h : ¬(r.name = n ∧ r.path = p)) : r ∈ updMtime tab n p m := by
  rw [mem_updMtime]
  exact ⟨r, hm, by rw [if_neg h]⟩

theorem mem_updMtime_self {tab : List Row} {n p : List Char} {m : Int} {r : Row}
    (hm : r ∈ tab) (h : r.name = n ∧ r.path = p) :
    { r with mtime := m } ∈ updMtime tab n p m := by
  rw [mem_updMtime]
  exact ⟨r, hm, by rw [if_pos h]⟩

/-! ### Sorting lemmas -/

theorem strLe_trans {a b c : List Char} (h1 : strLt b a = false)
    (h2 : strLt c b = false) : strLt c a = false := by
  cases hq : strLt c a with
  | false => rfl
  | true =>
    exfalso
    rcases strLt_or_eq_or_gt a b with h | h | h
    · rcases strLt_or_eq_or_gt b c with h3 | h3 | h3
      · have := strLt_trans (strLt_trans h h3) hq
        rw [strLt_irrefl] at this; simp at this
      · subst h3
        have := strLt_trans h hq
        rw [strLt_irrefl] at this; simp at this
      · rw [h3] at h2; simp at h2
    · subst h
      rcases strLt_or_eq_or_gt a c with h3 | h3 | h3
      · have := strLt_trans h3 hq
        rw [strLt_irrefl] at this; simp at this
      · subst h3
        rw [strLt_irrefl] at hq; simp at hq
      · rw [h3] at h2; simp at h2
    · rw [h] at h1; simp at h1

theorem rowLe_trans {r s t : Row} (h1 : rowLe r s = true) (h2 : rowLe s t = true) :
    rowLe r t = true := by
  unfold rowLe at h1 h2 ⊢
  simp only [Bool.or_eq_true, Bool.and_eq_true, beq_iff_eq, Bool.not_eq_true'] at h1 h2 ⊢
  rcases h1 with h1 | ⟨hp1, hn1⟩
  · rcases h2 with h2 | ⟨hp2, hn2⟩
    · exact Or.inl (strLt_trans h1 h2)
    · rw [hp2] at h1
      exact Or.inl h1
  · rcases h2 with h2 | ⟨hp2, hn2⟩
    · rw [hp1]
      exact Or.inl h2
    · exact Or.inr ⟨hp1.trans hp2, strLe_trans hn1 hn2⟩

theorem rowLe_total (r s : Row) : rowLe r s = true ∨ rowLe s r = true := by
  unfold rowLe
  rcases strLt_or_eq_or_gt r.path s.path with h | h | h
  · left; simp [h]
  · rcases strLt_or_eq_or_gt r.name s.name with h2 | h2 | h2
    · left
      simp [h, strLt_asymm h2, strLt_irrefl]
    · left
      simp [h, h2, strLt_irrefl]
    · right
      simp [h, strLt_asymm h2, strLt_irrefl]
  · right; simp [h]

theorem mem_insRowSorted {r s : Row} {l : List Row} :
    s ∈ insRowSorted r l ↔ s = r ∨ s ∈ l := by
  induction l with
  | nil => simp [insRowSorted]
  | cons a t ih =>
    by_cases h : rowLe r a = true
    · simp [insRowSorted, h]
    · simp only [insRowSorted, if_neg h, List.mem_cons, ih]
      tauto

theorem mem_sortRows {r : Row} {l : List Row} : r ∈ sortRows l ↔ r ∈ l := by
  induction l with
  | nil => simp [sortRows]
  | cons a t ih =>
    simp only [sortRows, mem_insRowSorted, List.mem_cons, ih]

theorem insRowSorted_perm (r : Row) (l : List Row) :
    List.Perm (insRowSorted r l) (r :: l) := by
  induction l with
  | nil => simp [insRowSorted]
  | cons a t ih =>
    by_cases h : rowLe r a = true
    · simp [insRowSorted, h]
    · rw [insRowSorted, if_neg h]
      exact List.Perm.trans (List.Perm.cons a ih) (List.Perm.swap r a t)

theorem sortRows_perm (l : List Row) : List.Perm (sortRows l) l := by
  induction l with
  | nil => simp [sortRows]
  | cons a t ih =>
    exact List.Perm.trans (insRowSorted_perm a (sortRows t)) (List.Perm.cons a ih)

theorem insRowSorted_pairwise {r : Row} {l : List Row}
    (h : List.Pairwise (fun a b => rowLe a b = true) l) :
    List.Pairwise (fun a b => rowLe a b = true) (insRowSorted r l) := by
  induction l with
  | nil => simp [insRowSorted]
  | cons a t ih =>
    by_cases hle : rowLe r a = true
    · rw [insRowSorted, if_pos hle]
      refine List.pairwise_cons.mpr ⟨?_, h⟩
      intro b hb
      rcases List.mem_cons.mp hb with rfl | hb
      · exact hle
      · have ha := (List.pairwise_cons.mp h).1 b hb
        -- rowLe is transitive
        exact rowLe_trans hle ha
    · rw [insRowSorted, if_neg hle]
      refine List.pairwise_cons.mpr ⟨?_, ih (List.pairwise_cons.mp h).2⟩
      intro b hb
      rcases mem_insRowSorted.mp hb with rfl | hb
      · rcases rowLe_total b a with h2 | h2
        · exact absurd h2 hle
        · exact h2
      · exact (List.pairwise_cons.mp h).1 b hb

theorem sortRows_pairwise (l : List Row) :
    List.Pairwise (fun a b => rowLe a b = true) (sortRows l) := by
  induction l with
  | nil => simp [sortRows]
  | cons a t ih => exact insRowSorted_pairwise ih

theorem mem_queryGT {tab : List Row} {p : List Char} {r : Row} :
    r ∈ queryGT tab p ↔ r ∈ tab ∧ strLt p r.path = true := by
  unfold queryGT
  rw [mem_sortRows, List.mem_filter]

theorem queryGT_pairwise (tab : List Row) (p : List Char) :
    List.Pairwise (fun a b => rowLe a b = true) (queryGT tab p) :=
  sortRows_pairwise _

theorem mem_queryGE {tab : List Row} {p : List Char} {r : Row} :
    r ∈ queryGE tab p ↔ r ∈ tab ∧ strLt r.path p = false := by
  unfold queryGE
  rw [mem_sortRows, List.mem_filter]
  simp

theorem queryGE_pairwise (tab : List Row) (p : List Char) :
    List.Pairwise (fun a b => rowLe a b = true) (queryGE tab p) :=
  sortRows_pairwise _

/-! ### Merge loop lemmas for the empty-listing (vanished directory) case -/

theorem mergeLoop_nil_ok (fs : FS) (sp : List Char) :
    ∀ (fuel : Nat) (table : List Row) (row : Option Row) (cursor : List Row)
      (refresh : Bool), ∃ mo, mergeLoop fs sp fuel table [] row cursor refresh = .ok mo := by
  intro fuel
  induction fuel with
  | zero => intro table row cursor refresh; exact ⟨_, rfl⟩
  | succ fuel ih =>
    intro table row cursor refresh
    match row with
    | none => exact ⟨_, rfl⟩
    | some r =>
      by_cases h : r.path = sp
      · obtain ⟨mo, hmo⟩ := ih (delRow table r.name r.path) cursor.head? cursor.tail refresh
        refine ⟨{ mo with evs := [Event.delete r.name r.path] ++ mo.evs }, ?_⟩
        rw [mergeLoop, if_pos h, hmo]
        rfl
      · exact ⟨_, by rw [mergeLoop, if_neg h]⟩

theorem mergeLoop_nil_props (fs : FS) (sp : List Char) :
    ∀ (fuel : Nat) (table : List Row) (row : Option Row) (cursor : List Row)
      (refresh : Bool) (mo : MergeOut),
      mergeLoop fs sp fuel table [] row cursor refresh = .ok mo →
      (∀ r, r ∈ mo.table → r ∈ table) ∧ mo.refresh = refresh ∧
      (∀ ev ∈ mo.evs, ∃ n p, ev = Event.delete n p) := by
  intro fuel
  induction fuel with
  | zero =>
    intro table row cursor refresh mo hmo
    injection hmo with h
    subst h
    exact ⟨fun r h => h, rfl, by simp⟩
  | succ fuel ih =>
    intro table row cursor refresh mo hmo
    match row with
    | none =>
      rw [mergeLoop] at hmo
      injection hmo with h
      subst h
      exact ⟨fun r h => h, rfl, by simp⟩
    | some r =>
      by_cases h : r.path = sp
      · rw [mergeLoop, if_pos h] at hmo
        cases hrec : mergeLoop fs sp fuel (delRow table r.name r.path) [] cursor.head? cursor.tail refresh with
        | error e => rw [hrec] at hmo; simp [addEvs] at hmo
        | ok mo2 =>
          rw [hrec] at hmo
          simp only [addEvs] at hmo
          injection hmo with h2
          subst h2
          obtain ⟨hsub, href, hev⟩ := ih _ _ _ _ _ hrec
          refine ⟨fun s hs => delRow_subset (hsub s hs), href, ?_⟩
          intro ev hev2
          simp only [List.mem_append] at hev2
          rcases hev2 with hev2 | hev2
          · simp only [List.mem_singleton] at hev2
            exact ⟨r.name, r.path, hev2⟩
          · exact hev ev hev2
      · rw [mergeLoop, if_neg h] at hmo
        injection hmo with h2
        subst h2
        exact ⟨fun s hs => hs, rfl, by simp⟩

/-! ### Helper evaluation lemmas -/

theorem getmtimeMs_of_find_none {fs : FS} {sp : List Char} (h : fs.find sp = none) :
    fs.getmtimeMs sp = .error enoentErr := by
  simp [FS.getmtimeMs, FS.statE, h]

theorem listdir_of_find_none {fs : FS} {sp : List Char} (h : fs.find sp = none) :
    fs.listdir sp = .error enoentErr := by
  simp [FS.listdir, h]

theorem is_enoent_enoentErr : is_enoent enoentErr = true := by decide

def exOk : Except OSErr SubOut → Bool
  | .ok _ => true
  | .error _ => false

def exTable : Except OSErr SubOut → List Row
  | .ok so => so.st.table
  | .error _ => []

/-! ### Claim C9 -/

/-- C9: the not-found classifier `is_enoent` returns true exactly for errors
with `errno == ENOENT` that are not Windows `winerror` 53 (a `WindowsError`
whose `winerror` is 53 is not classified as not-found); consequently an error
with `errno ENOENT` but `winerror 53` raised by the directory stat propagates
out of `update_db_subdir` and aborts the root's run instead of being treated
as a deletion. -/
theorem C9_is_enoent_classifier :
    (∀ e : OSErr, is_enoent e = true ↔
      (e.errno = ENOENT ∧ ¬(e.className = "WindowsError".data ∧ e.winerror = 53))) ∧
    (∀ (fs : FS) (st : SyncState) (sp : List Char) (row : Option Row)
      (cursor : List Row) (e : OSErr),
      fs.getmtimeMs sp = .error e → e.errno = ENOENT →
      e.className = "WindowsError".data → e.winerror = 53 →
      update_db_subdir fs st sp row cursor = .error e) := by
  constructor
  · intro e
    unfold is_enoent
    simp only [Bool.and_eq_true, Bool.or_eq_true, Bool.not_eq_true', beq_iff_eq, beq_eq_false_iff_ne]
    constructor
    · rintro ⟨h1, h2⟩
      refine ⟨h1, ?_⟩
      rintro ⟨hc, hw⟩
      rcases h2 with h2 | h2
      · exact h2 hc
      · exact h2 hw
    · rintro ⟨h1, h2⟩
      refine ⟨h1, ?_⟩
      by_cases hc : e.className = "WindowsError".data
      · right
        intro hw
        exact h2 ⟨hc, hw⟩
      · left; exact hc
  · intro fs st sp row cursor e hget h1 h2 h3
    have hne : is_enoent e = false := by
      unfold is_enoent
      simp [h2, h3]
    unfold update_db_subdir
    rw [hget]
    simp [hne]

def e9 : OSErr := ⟨2, "WindowsError".data, 53⟩

def fs9 : FS := ⟨[⟨"/x".data, true, -1, 5, some e9⟩]⟩

theorem C9_is_enoent_classifier_witness :
    update_db_subdir fs9 ⟨[], []⟩ "/x".data none [] = .error e9 :=
  C9_is_enoent_classifier.2 fs9 ⟨[], []⟩ "/x".data none [] e9 rfl rfl rfl rfl

/-! ### Claim C4 -/

/-- C4: when the merge-diff inserts an entry present on disk but absent from
the store and the entry is a directory, it inserts the directory row with
`mtime = 0`, additionally inserts the dummy sentinel child (name `.`, size
`-3`) under the new directory's path, and reports that a read-cursor refresh
is required; for a non-directory entry no sentinel is inserted and no refresh
is reported. -/
theorem C4_new_directory_sentinel :
    ∀ (fs : FS) (sp : List Char) (table : List Row) (n : List Char)
      (isDir : Bool) (sz mt : Int),
      fs.statE (joinL sp n) = .ok (isDir, sz, mt) →
      (isDir = true →
        insertStep fs sp table n =
          .ok (table ++ [⟨".".data, joinL sp n, -3, 0⟩, ⟨n, sp, -1, 0⟩], true,
               [Event.insert ⟨".".data, joinL sp n, -3, 0⟩, Event.insert ⟨n, sp, -1, 0⟩])) ∧
      (isDir = false →
        insertStep fs sp table n =
          .ok (table ++ [⟨n, sp, sz, mt⟩], false, [Event.insert ⟨n, sp, sz, mt⟩])) := by
  intro fs sp table n isDir sz mt hstat
  constructor
  · rintro rfl
    simp [insertStep, hstat]
  · rintro rfl
    simp [insertStep, hstat]

def fs4 : FS := ⟨[⟨"/r/b".data, true, -1, 7, none⟩, ⟨"/r/c".data, false, 10, 9, none⟩]⟩

theorem C4_new_directory_sentinel_witness :
    insertStep fs4 "/r".data [] "b".data =
      .ok ([⟨".".data, joinL "/r".data "b".data, -3, 0⟩, ⟨"b".data, "/r".data, -1, 0⟩], true,
           [Event.insert ⟨".".data, joinL "/r".data "b".data, -3, 0⟩,
            Event.insert ⟨"b".data, "/r".data, -1, 0⟩]) :=
  (C4_new_directory_sentinel fs4 "/r".data [] "b".data true (-1) 7 rfl).1 rfl

/-! ### Claim C10 -/

/-- C10: the directory-mtime write at the end of a merge pass is an `UPDATE`
keyed by `(parent_path, name)` and never inserts a row: on a table with no
matching key it leaves the table unchanged; in particular, for a directory
whose own row is already gone (deleted earlier in the run) and which has
vanished from the filesystem, the whole `update_db_subdir` pass succeeds and
leaves the store with no row for the deleted directory and no new rows. -/
theorem C10_mtime_update_never_inserts :
    (∀ (tab : List Row) (n p : List Char) (m : Int),
      (∀ r ∈ tab, ¬(r.name = n ∧ r.path = p)) → updMtime tab n p m = tab) ∧
    (∀ (fs : FS) (st : SyncState) (sp : List Char) (row : Option Row) (cursor : List Row),
      lookupMtime st.table (dirnameL sp) (basenameL sp) = none →
      fs.find sp = none →
      exOk (update_db_subdir fs st sp row cursor) = true ∧
      (∀ r ∈ exTable (update_db_subdir fs st sp row cursor),
        ¬(r.path = dirnameL sp ∧ r.name = basenameL sp)) ∧
      (∀ r ∈ exTable (update_db_subdir fs st sp row cursor), r ∈ st.table)) := by
  constructor
  · intro tab n p m h
    exact updMtime_eq_of_no_match h
  · intro fs st sp row cursor hlook hfind
    have hnokey : ∀ r ∈ st.table, ¬(r.path = dirnameL sp ∧ r.name = basenameL sp) :=
      lookupMtime_eq_none.mp hlook
    obtain ⟨mo, hmo⟩ := mergeLoop_nil_ok fs sp (0 + cursor.length + 2) st.table row cursor false
    obtain ⟨hsub, _, _⟩ := mergeLoop_nil_props fs sp _ _ _ _ _ _ hmo
    have hnokey2 : ∀ r ∈ mo.table, ¬(r.name = basenameL sp ∧ r.path = dirnameL sp) := by
      intro r hr hk
      exact hnokey r (hsub r hr) ⟨hk.2, hk.1⟩
    have hupd : updMtime mo.table (basenameL sp) (dirnameL sp) (0 + 1) = mo.table :=
      updMtime_eq_of_no_match hnokey2
    have hres : update_db_subdir fs st sp row cursor =
        (if mo.refresh then
          .ok ⟨⟨mo.table, mo.table⟩, (queryGT mo.table sp).head?, (queryGT mo.table sp).tail,
            (Event.listing sp :: mo.evs ++ [Event.setMtime (basenameL sp) (dirnameL sp) (0 + 1)])
              ++ [Event.commit, Event.seek sp]⟩
        else
          .ok ⟨⟨mo.table, st.committed⟩, mo.row, mo.cursor,
            Event.listing sp :: mo.evs ++ [Event.setMtime (basenameL sp) (dirnameL sp) (0 + 1)]⟩) := by
      unfold update_db_subdir
      rw [hlook, getmtimeMs_of_find_none hfind]
      simp only [is_enoent_enoentErr, Option.getD_none, if_true]
      rw [if_pos (by omega : (0 : Int) < 0 + 1)]
      rw [listdir_of_find_none hfind]
      simp only [is_enoent_enoentErr, if_true, List.length_nil, hmo, hupd]
    rw [hres]
    cases hmr : mo.refresh
    · simp only [Bool.false_eq_true, if_false, exOk, exTable]
      refine ⟨trivial, ?_, ?_⟩
      · intro r hr hk
        exact hnokey r (hsub r hr) hk
      · intro r hr
        exact hsub r hr
    · simp only [if_true, exOk, exTable]
      refine ⟨trivial, ?_, ?_⟩
      · intro r hr hk
        exact hnokey r (hsub r hr) hk
      · intro r hr
        exact hsub r hr

def fs10 : FS := ⟨[]⟩

def st10 : SyncState :=
  ⟨[⟨"c".data, "/r/b".data, 5, 4⟩], [⟨"c".data, "/r/b".data, 5, 4⟩]⟩

theorem C10_mtime_update_never_inserts_witness :
    exOk (update_db_subdir fs10 st10 "/r/b".data none []) = true :=
  (C10_mtime_update_never_inserts.2 fs10 st10 "/r/b".data none [] (by decide) rfl).1

/-! ### Claim C3 -/

/-- C3: a directory whose on-disk mtime is not strictly greater than the
stored mtime is skipped: `update_db_subdir` performs no store write and
fetches no directory listing (its whole trace is one cursor seek), leaves
both connections untouched, and re-seeks the read cursor to the first row of
the query `path > subdirpath` ordered by `(path, name)` — every row of that
query has a path strictly greater than the directory's path. -/
theorem C3_skip_unmodified :
    ∀ (fs : FS) (st : SyncState) (sp : List Char) (row : Option Row)
      (cursor : List Row) (m t : Int),
      lookupMtime st.table (dirnameL sp) (basenameL sp) = some m →
      fs.getmtimeMs sp = .ok t →
      ¬ m < t →
      update_db_subdir fs st sp row cursor =
        .ok ⟨st, (queryGT st.committed sp).head?, (queryGT st.committed sp).tail,
          [Event.seek sp]⟩ ∧
      (∀ r ∈ queryGT st.committed sp, strLt sp r.path = true) ∧
      List.Pairwise (fun a b => rowLe a b = true) (queryGT st.committed sp) := by
  intro fs st sp row cursor m t hlook hget hle
  refine ⟨?_, fun r hr => (mem_queryGT.mp hr).2, queryGT_pairwise _ _⟩
  unfold update_db_subdir
  rw [hlook, hget]
  simp only [Option.getD_some]
  rw [if_neg hle]

def fs3 : FS := ⟨[⟨"/r".data, true, -1, 100, none⟩]⟩

def st3 : SyncState :=
  ⟨[⟨"r".data, "/".data, -2, 100⟩],
   [⟨"r".data, "/".data, -2, 100⟩, ⟨"a".data, "/r".data, 5, 1⟩]⟩

theorem C3_skip_unmodified_witness :
    update_db_subdir fs3 st3 "/r".data (some ⟨"a".data, "/r".data, 5, 1⟩) [] =
      .ok ⟨st3, (queryGT st3.committed "/r".data).head?,
        (queryGT st3.committed "/r".data).tail, [Event.seek "/r".data]⟩ :=
  (C3_skip_unmodified fs3 st3 "/r".data (some ⟨"a".data, "/r".data, 5, 1⟩) []
    100 100 (by decide) rfl (by decide)).1

/-! ### Claim C8 -/

def e8 : OSErr := ⟨22, "OSError".data, 0⟩

def fs8 : FS := ⟨[⟨"/r".data, true, -1, 5, none⟩, ⟨"/r/bad".data, false, 7, 3, some e8⟩]⟩

def db8 : List Row := [⟨"r".data, "/".data, -2, 0⟩, ⟨".".data, "/r".data, -3, 0⟩]

/-- C8 counterexample: a single file (`/r/bad`) whose metadata cannot be
stat'd while its directory is being diffed is NOT skipped: the per-file
`os.stat` in the insert branch is outside every try/except, so the error
propagates out of `update_db_subdir` and aborts the whole root's
synchronization run (`update_db` returns the error instead of completing). -/
theorem C8_single_file_error_aborts_run :
    update_db fs8 9 db8 "/r".data = .error e8 := by
  rfl

/-- C8 amended: when the merge-diff's insert branch stats a single new entry
and the stat fails (for example unparseable metadata), the synchronizer does
not recover locally: `update_db_subdir` returns that error, and the scanning
loop of `update_db` propagates it, aborting the current root's run.  Only
the directory-level `getmtime`/`listdir` not-found errors are recovered. -/
theorem C8_amended_file_error_propagates :
    (∀ (fs : FS) (st : SyncState) (sp : List Char) (cursor : List Row)
      (m t : Int) (ns : List (List Char)) (n : List Char) (rest : List (List Char)) (e : OSErr),
      lookupMtime st.table (dirnameL sp) (basenameL sp) = some m →
      fs.getmtimeMs sp = .ok t →
      m < t →
      fs.listdir sp = .ok ns →
      sortNames ns = n :: rest →
      fs.statE (joinL sp n) = .error e →
      update_db_subdir fs st sp none cursor = .error e) ∧
    (∀ (fs : FS) (dp : List Char) (fuel : Nat) (st : SyncState) (r : Row)
      (cursor : List Row) (e : OSErr),
      startswith r.path dp = true →
      update_db_subdir fs st r.path (some r) cursor = .error e →
      update_db_loop fs dp (fuel + 1) st (some r) cursor = .error e) := by
  constructor
  · intro fs st sp cursor m t ns n rest e hlook hget hmt hls hsort hstat
    unfold update_db_subdir
    rw [hlook, hget]
    simp only [Option.getD_some]
    rw [if_pos hmt, hls]
    simp only [hsort]
    have : mergeLoop fs sp ((n :: rest).length + cursor.length + 2) st.table
        (n :: rest) none cursor false = .error e := by
      have hfuel : (n :: rest).length + cursor.length + 2 =
          ((n :: rest).length + cursor.length + 1) + 1 := by omega
      rw [hfuel, mergeLoop]
      simp [insertStep, hstat]
    rw [this]
  · intro fs dp fuel st r cursor e hsw hsub
    rw [update_db_loop, if_pos hsw, hsub]

theorem C8_amended_file_error_propagates_witness :
    update_db_loop fs8 "/r".data 3
      ⟨db8, db8⟩ (some ⟨".".data, "/r".data, -3, 0⟩) [] = .error e8 :=
  C8_amended_file_error_propagates.2 fs8 "/r".data 2 ⟨db8, db8⟩
    ⟨".".data, "/r".data, -3, 0⟩ [] e8 (by decide)
    (C8_amended_file_error_propagates.1 fs8 ⟨db8, db8⟩ "/r".data [] 0 5
      ["bad".data] "bad".data [] e8 (by decide) rfl (by decide) rfl rfl rfl)

/-! ### The main merge-diff characterization -/

theorem delRow_sublist (tab : List Row) (n p : List Char) :
    List.Sublist (delRow tab n p) tab := by
  induction tab with
  | nil => simp [delRow]
  | cons s t ih =>
    by_cases h : s.name = n ∧ s.path = p
    · rw [delRow, if_pos h]
      exact ih.cons s
    · rw [delRow, if_neg h]
      exact ih.cons₂ s

theorem head?_toList_append_tail (l : List Row) : l.head?.toList ++ l.tail = l := by
  cases l <;> simp

/-- Pairwise distinctness of names among the rows of one directory. -/
def nodupSp (tab : List Row) (sp : List Char) : Prop :=
  List.Pairwise (fun u v => u.path = sp → v.path = sp → u.name ≠ v.name) tab

/-- The rows inserted by the merge pass for directory `sp`: for each on-disk
name `n` absent from the stored rows, the new entry row and (for directories)
the dummy sentinel. -/
def insClause (fs : FS) (sp : List Char) (names : List (List Char)) (pre : List Row)
    (r : Row) : Prop :=
  ∃ n, n ∈ names ∧ (∀ r0 ∈ pre, r0.name ≠ n) ∧
    ((∃ z m, fs.statE (joinL sp n) = .ok (true, z, m) ∧
        (r = ⟨n, sp, -1, 0⟩ ∨ r = ⟨".".data, joinL sp n, -3, 0⟩)) ∨
     (∃ z m, fs.statE (joinL sp n) = .ok (false, z, m) ∧ r = ⟨n, sp, z, m⟩))

/-- A stored row survives the merge pass unless it belongs to `sp` and its
name is among the stored names but absent from the disk listing. -/
def survives (sp : List Char) (names : List (List Char)) (pre : List Row) (r : Row) : Prop :=
  ¬(r.path = sp ∧ (∃ r0 ∈ pre, r0.name = r.name) ∧ r.name ∉ names)


theorem insertStep_cases {fs : FS} {sp : List Char} {table : List Row} {n : List Char}
    {out : List Row × Bool × List Event} (h : insertStep fs sp table n = .ok out) :
    (∃ z mt, fs.statE (joinL sp n) = .ok (true, z, mt) ∧
      out = (table ++ [⟨".".data, joinL sp n, -3, 0⟩, ⟨n, sp, -1, 0⟩], true,
             [Event.insert ⟨".".data, joinL sp n, -3, 0⟩, Event.insert ⟨n, sp, -1, 0⟩])) ∨
    (∃ z mt, fs.statE (joinL sp n) = .ok (false, z, mt) ∧
      out = (table ++ [⟨n, sp, z, mt⟩], false, [Event.insert ⟨n, sp, z, mt⟩])) := by
  unfold insertStep at h
  dsimp only at h
  cases hstat : fs.statE (joinL sp n) with
  | error e => rw [hstat] at h; simp at h
  | ok trip =>
    rw [hstat] at h
    obtain ⟨d, z, mt⟩ := trip
    cases d
    · right
      refine ⟨z, mt, rfl, ?_⟩
      simp only [Bool.false_eq_true, if_false] at h
      injection h with h2
      exact h2.symm
    · left
      refine ⟨z, mt, rfl, ?_⟩
      simp only [if_true] at h
      injection h with h2
      exact h2.symm

theorem mergeLoop_main (fs : FS) (sp : List Char) (fuel : Nat) (table : List Row)
    (names : List (List Char)) (row : Option Row) (cursor : List Row) (refresh : Bool) :
    ∀ (pre post : List Row) (mo : MergeOut),
      names.length + cursor.length + row.toList.length < fuel →
      row.toList ++ cursor = pre ++ post →
      (row = none → cursor = []) →
      (∀ r ∈ pre, r.path = sp) →
      (∀ r ∈ post, ¬ r.path = sp) →
      List.Pairwise (fun a b => strLt a b = true) names →
      List.Pairwise (fun a b => strLt a.name b.name = true) pre →
      sp ≠ [] →
      (∀ n ∈ names, n ≠ []) →
      (∀ n ∈ names, (∀ r0 ∈ pre, r0.name ≠ n) → ∀ u ∈ table, ¬(u.path = sp ∧ u.name = n)) →
      (∀ n ∈ names, (∀ r0 ∈ pre, r0.name ≠ n) → ∀ u ∈ table, u.path ≠ joinL sp n) →
      nodupSp table sp →
      nodupKeys table →
      mergeLoop fs sp fuel table names row cursor refresh = .ok mo →
      (mo.row = post.head? ∧ mo.cursor = post.tail) ∧
      (∀ r : Row, r ∈ mo.table ↔
        ((r ∈ table ∧ survives sp names pre r) ∨ insClause fs sp names pre r)) ∧
      (mo.refresh = true ↔ (refresh = true ∨
        ∃ n ∈ names, (∀ r0 ∈ pre, r0.name ≠ n) ∧
          ∃ z m, fs.statE (joinL sp n) = .ok (true, z, m))) ∧
      nodupSp mo.table sp ∧
      (∀ n ∈ names, (∃ d z m, fs.statE (joinL sp n) = .ok (d, z, m)) ∨
        (∃ r0 ∈ pre, r0.name = n)) ∧
      nodupKeys mo.table := by
  induction fuel, table, names, row, cursor, refresh using mergeLoop.induct fs sp with
  | case1 table names row cursor refresh =>
    intro pre post mo hfuel
    omega
  | case2 fuel table cursor refresh =>
    -- names = [], row = none: both sides exhausted
    intro pre post mo hfuel hsplit hrc hpre hpost hsn hspre hspne hnn hfresh hdum hnd hN hmo
    rw [mergeLoop] at hmo
    injection hmo with h
    subst h
    have hc : cursor = [] := hrc rfl
    subst hc
    have : pre = [] ∧ post = [] := by
      cases pre with
      | nil => cases post with
        | nil => exact ⟨rfl, rfl⟩
        | cons a t => simp at hsplit
      | cons a t => simp at hsplit
    obtain ⟨rfl, rfl⟩ := this
    refine ⟨⟨rfl, rfl⟩, ?_, ?_, hnd, by simp, hN⟩
    · intro r
      simp [survives, insClause]
    · simp
  | case4 fuel table cursor refresh r hp =>
    -- names = [], row has left the directory
    intro pre post mo hfuel hsplit hrc hpre hpost hsn hspre hspne hnn hfresh hdum hnd hN hmo
    rw [mergeLoop, if_neg hp] at hmo
    injection hmo with h
    subst h
    have hpree : pre = [] := by
      cases pre with
      | nil => rfl
      | cons a t =>
        exfalso
        have : r = a := by
          have := congrArg List.head? hsplit
          simpa using this
        subst this
        exact hp (hpre r (List.mem_cons_self r t))
    subst hpree
    simp only [List.nil_append] at hsplit
    refine ⟨?_, ?_, ?_, hnd, by simp, hN⟩
    · rw [← hsplit]
      exact ⟨rfl, rfl⟩
    · intro u
      simp [survives, insClause]
    · simp
  | case3 fuel table cursor refresh r hp ih =>
    -- names = [], row in sp: delete it and continue
    intro pre post mo hfuel hsplit hrc hpre hpost hsn hspre hspne hnn hfresh hdum hnd hN hmo
    rw [mergeLoop, if_pos hp] at hmo
    cases hrec : mergeLoop fs sp fuel (delRow table r.name r.path) [] cursor.head? cursor.tail refresh with
    | error e => rw [hrec] at hmo; simp [addEvs] at hmo
    | ok mo2 =>
      rw [hrec] at hmo
      simp only [addEvs] at hmo
      injection hmo with h
      subst h
      obtain ⟨pre', rfl⟩ : ∃ pre', pre = r :: pre' := by
        cases pre with
        | nil =>
          exfalso
          have hrp : r ∈ post := by
            have := congrArg List.head? hsplit
            simp only [List.nil_append] at this
            cases post with
            | nil => simp at this
            | cons a t =>
              simp only [Option.toList_some, List.cons_append, List.head?_cons] at this
              have : r = a := by simpa using this
              exact this ▸ List.mem_cons_self a t
          exact (hpost r hrp) hp
        | cons a t =>
          have : r = a := by
            have := congrArg List.head? hsplit
            simpa using this
          exact ⟨t, by rw [this]⟩
      have hsplit' : cursor = pre' ++ post := by
        simpa using hsplit
      have hlen : cursor.head?.toList.length + cursor.tail.length = cursor.length := by
        cases cursor <;> simp [Nat.add_comm]
      have hih := ih pre' post mo2
        (by simp only [List.length_nil, Option.toList_some, List.length_cons] at hfuel ⊢; omega)
        (by rw [head?_toList_append_tail, hsplit'])
        (by intro h; cases cursor with
            | nil => rfl
            | cons a t => simp at h)
        (fun u hu => hpre u (List.mem_cons_of_mem _ hu))
        hpost hsn (List.pairwise_cons.mp hspre).2 hspne hnn
        (by intro n hn; simp at hn)
        (by intro n hn; simp at hn)
        (hnd.sublist (delRow_sublist table r.name r.path))
        (hN.sublist (delRow_sublist table r.name r.path))
        hrec
      obtain ⟨hA, hB, hC, hF, hG, hH⟩ := hih
      refine ⟨hA, ?_, ?_, hF, by simp, hH⟩
      · intro u
        rw [hB u]
        constructor
        · rintro (⟨hu, hs⟩ | hins)
          · obtain ⟨huA, hne⟩ := mem_delRow.mp hu
            left
            refine ⟨huA, ?_⟩
            rintro ⟨hP, ⟨r0, hr0, hname⟩, -⟩
            rcases List.mem_cons.mp hr0 with rfl | hr0
            · exact hne ⟨hname.symm, by rw [hP, ← hp]⟩
            · exact hs ⟨hP, ⟨r0, hr0, hname⟩, by simp⟩
          · rcases hins with ⟨n, hn, -⟩
            simp at hn
        · rintro (⟨hu, hs⟩ | hins)
          · left
            have hnk : ¬(u.name = r.name ∧ u.path = r.path) := by
              rintro ⟨h1, h2⟩
              exact hs ⟨by rw [h2, hp], ⟨r, List.mem_cons_self _ _, h1.symm⟩, by simp⟩
            refine ⟨mem_delRow.mpr ⟨hu, hnk⟩, ?_⟩
            rintro ⟨hP, ⟨r0, hr0, hname⟩, -⟩
            exact hs ⟨hP, ⟨r0, List.mem_cons_of_mem _ hr0, hname⟩, by simp⟩
          · rcases hins with ⟨n, hn, -⟩
            simp at hn
      · rw [hC]
        simp
  | case5 fuel table cursor refresh n ns e hins =>
    intro pre post mo hfuel hsplit hrc hpre hpost hsn hspre hspne hnn hfresh hdum hnd hN hmo
    rw [mergeLoop] at hmo
    rw [hins] at hmo
    simp at hmo
  | case6 fuel table cursor refresh n ns table2 dirIns evs1 hins ih =>
    intro pre post mo hfuel hsplit hrc hpre hpost hsn hspre hspne hnn hfresh hdum hnd hN hmo
    rw [mergeLoop] at hmo
    rw [hins] at hmo
    dsimp only at hmo
    cases hrec : mergeLoop fs sp fuel table2 ns none cursor (refresh || dirIns) with
    | error e => rw [hrec] at hmo; simp [addEvs] at hmo
    | ok mo2 =>
      rw [hrec] at hmo
      simp only [addEvs] at hmo
      injection hmo with h
      subst h
      have hc : cursor = [] := hrc rfl
      subst hc
      have hpp : pre = [] ∧ post = [] := by
        cases pre with
        | nil => cases post with
          | nil => exact ⟨rfl, rfl⟩
          | cons a t => simp at hsplit
        | cons a t => simp at hsplit
      obtain ⟨rfl, rfl⟩ := hpp
      have hnne : n ≠ [] := hnn n (List.mem_cons_self _ _)
      have hlt_all : ∀ x ∈ ns, strLt n x = true := (List.pairwise_cons.mp hsn).1
      have hjoin_ne : joinL sp n ≠ sp := joinL_ne_self hspne hnne
      -- facts about the inserted rows
      have hnews : (∃ z m, fs.statE (joinL sp n) = .ok (true, z, m) ∧
            table2 = table ++ [⟨".".data, joinL sp n, -3, 0⟩, ⟨n, sp, -1, 0⟩] ∧ dirIns = true) ∨
          (∃ z m, fs.statE (joinL sp n) = .ok (false, z, m) ∧
            table2 = table ++ [⟨n, sp, z, m⟩] ∧ dirIns = false) := by
        rcases insertStep_cases hins with ⟨z, m, hstat, hout⟩ | ⟨z, m, hstat, hout⟩
        · injection hout with h1 h2
          injection h2 with h2 h3
          exact Or.inl ⟨z, m, hstat, h1, h2⟩
        · injection hout with h1 h2
          injection h2 with h2 h3
          exact Or.inr ⟨z, m, hstat, h1, h2⟩
      have hfresh2 : ∀ n' ∈ ns, (∀ r0 ∈ ([] : List Row), r0.name ≠ n') →
          ∀ u ∈ table2, ¬(u.path = sp ∧ u.name = n') := by
        intro n' hn' hfr u hu hk
        have hne' : n ≠ n' := strLt_ne (hlt_all n' hn')
        rcases hnews with ⟨z, m, hstat, htab, hd⟩ | ⟨z, m, hstat, htab, hd⟩ <;>
          subst htab <;>
          rcases List.mem_append.mp hu with hu | hu
        · exact hfresh n' (List.mem_cons_of_mem _ hn') (by simp) u hu hk
        · simp only [List.mem_cons, List.not_mem_nil, or_false] at hu
          rcases hu with rfl | rfl
          · exact hjoin_ne (by simpa using hk.1)
          · exact hne' (by simpa using hk.2.symm.symm)
        · exact hfresh n' (List.mem_cons_of_mem _ hn') (by simp) u hu hk
        · simp only [List.mem_cons, List.not_mem_nil, or_false] at hu
          rcases hu with rfl
          exact hne' (by simpa using hk.2.symm.symm)
      have hnd2 : nodupSp table2 sp := by
        rcases hnews with ⟨z, m, hstat, htab, hd⟩ | ⟨z, m, hstat, htab, hd⟩ <;> subst htab <;>
        · rw [nodupSp, List.pairwise_append]
          refine ⟨hnd, ?_, ?_⟩
          · simp only [List.pairwise_cons, List.Pairwise.nil, List.not_mem_nil]
            first
            | exact ⟨fun v hv => by
                simp only [List.mem_cons, List.not_mem_nil, or_false] at hv
                subst hv
                intro hps
                exact absurd hps hjoin_ne, by simp⟩
            | simp
          · intro u hu v hv hup hvp
            have := hfresh n (List.mem_cons_self _ _) (by simp) u hu
            simp only [List.mem_cons, List.not_mem_nil, or_false] at hv
            first
            | rcases hv with rfl | rfl
              · exact absurd hvp hjoin_ne
              · intro hname
                exact this ⟨hup, by simpa using hname⟩
            | · rcases hv with rfl
                intro hname
                exact this ⟨hup, by simpa using hname⟩
      have hdum2 : ∀ n' ∈ ns, (∀ r0 ∈ ([] : List Row), r0.name ≠ n') →
          ∀ u ∈ table2, u.path ≠ joinL sp n' := by
        intro n' hn' hfr u hu
        have hne' : n ≠ n' := strLt_ne (hlt_all n' hn')
        have hnne' : n' ≠ [] := hnn n' (List.mem_cons_of_mem _ hn')
        rcases hnews with ⟨z, m, hstat, htab, hd⟩ | ⟨z, m, hstat, htab, hd⟩ <;>
          subst htab <;>
          rcases List.mem_append.mp hu with hu | hu
        · exact hdum n' (List.mem_cons_of_mem _ hn') (by simp) u hu
        · simp only [List.mem_cons, List.not_mem_nil, or_false] at hu
          rcases hu with rfl | rfl
          · intro hpeq
            exact hne' (joinL_inj (by simpa using hpeq))
          · intro hpeq
            have hpeq2 : joinL sp n' = sp := by simpa using hpeq.symm
            exact (joinL_ne_self hspne hnne') hpeq2
        · exact hdum n' (List.mem_cons_of_mem _ hn') (by simp) u hu
        · simp only [List.mem_cons, List.not_mem_nil, or_false] at hu
          rcases hu with rfl
          intro hpeq
          have hpeq2 : joinL sp n' = sp := by simpa using hpeq.symm
          exact (joinL_ne_self hspne hnne') hpeq2
      have hN2 : nodupKeys table2 := by
        rcases hnews with ⟨z, m, hstat, htab, hd⟩ | ⟨z, m, hstat, htab, hd⟩ <;> subst htab
        · rw [nodupKeys, List.pairwise_append]
          refine ⟨hN, ?_, ?_⟩
          · simp only [List.pairwise_cons, List.Pairwise.nil, List.not_mem_nil]
            refine ⟨fun v hv => ?_, by simp⟩
            simp only [List.mem_cons, List.not_mem_nil, or_false] at hv
            subst hv
            rintro ⟨hps, -⟩
            exact hjoin_ne (by simpa using hps)
          · intro u hu v hv
            simp only [List.mem_cons, List.not_mem_nil, or_false] at hv
            rcases hv with rfl | rfl
            · rintro ⟨hps, -⟩
              exact hdum n (List.mem_cons_self _ _) (by simp) u hu (by simpa using hps)
            · rintro ⟨hps, hns⟩
              exact hfresh n (List.mem_cons_self _ _) (by simp) u hu ⟨by simpa using hps, by simpa using hns⟩
        · rw [nodupKeys, List.pairwise_append]
          refine ⟨hN, ?_, ?_⟩
          · simp
          · intro u hu v hv
            simp only [List.mem_cons, List.not_mem_nil, or_false] at hv
            rcases hv with rfl
            rintro ⟨hps, hns⟩
            exact hfresh n (List.mem_cons_self _ _) (by simp) u hu ⟨by simpa using hps, by simpa using hns⟩
      have hih := ih [] [] mo2
        (by simp only [List.length_cons, List.length_nil] at hfuel ⊢; omega)
        (by simp) (fun _ => rfl) (by simp) (by simp)
        (List.pairwise_cons.mp hsn).2 (by simp) hspne
        (fun x hx => hnn x (List.mem_cons_of_mem _ hx))
        hfresh2 hdum2 hnd2 hN2 hrec
      obtain ⟨hA, hB, hC, hF, hG, hH⟩ := hih
      refine ⟨hA, ?_, ?_, hF, ?_, hH⟩
      · intro u
        rw [hB u]
        have hsurv1 : survives sp ns ([] : List Row) u := by simp [survives]
        have hsurv2 : survives sp (n :: ns) ([] : List Row) u := by simp [survives]
        constructor
        · rintro (⟨hu, -⟩ | hins2)
          · rcases hnews with ⟨z, m, hstat, htab, hd⟩ | ⟨z, m, hstat, htab, hd⟩ <;> subst htab <;>
              rcases List.mem_append.mp hu with hu | hu
            · exact Or.inl ⟨hu, hsurv2⟩
            · right
              refine ⟨n, List.mem_cons_self _ _, by simp, ?_⟩
              left
              simp only [List.mem_cons, List.not_mem_nil, or_false] at hu
              exact ⟨z, m, hstat, by tauto⟩
            · exact Or.inl ⟨hu, hsurv2⟩
            · right
              refine ⟨n, List.mem_cons_self _ _, by simp, ?_⟩
              right
              simp only [List.mem_cons, List.not_mem_nil, or_false] at hu
              exact ⟨z, m, hstat, by tauto⟩
          · rcases hins2 with ⟨n', hn', hfr, hsh⟩
            exact Or.inr ⟨n', List.mem_cons_of_mem _ hn', by simp, hsh⟩
        · rintro (⟨hu, -⟩ | hins2)
          · left
            refine ⟨?_, hsurv1⟩
            rcases hnews with ⟨z, m, hstat, htab, hd⟩ | ⟨z, m, hstat, htab, hd⟩ <;> subst htab <;>
              exact List.mem_append.mpr (Or.inl hu)
          · rcases hins2 with ⟨n', hn', hfr, hsh⟩
            rcases List.mem_cons.mp hn' with rfl | hn'
            · -- n' = n: u is one of the newly inserted rows
              left
              refine ⟨?_, hsurv1⟩
              rcases hnews with ⟨z, m, hstat, htab, hd⟩ | ⟨z, m, hstat, htab, hd⟩ <;> subst htab
              · rcases hsh with ⟨z2, m2, hstat2, hu⟩ | ⟨z2, m2, hstat2, hu⟩
                · rcases hu with rfl | rfl <;>
                    · refine List.mem_append.mpr (Or.inr ?_)
                      simp
                · rw [hstat] at hstat2
                  injection hstat2 with h4
                  simp at h4
              · rcases hsh with ⟨z2, m2, hstat2, hu⟩ | ⟨z2, m2, hstat2, hu⟩
                · rw [hstat] at hstat2
                  injection hstat2 with h4
                  simp at h4
                · rw [hstat] at hstat2
                  injection hstat2 with h4
                  injection h4 with h4 h5
                  injection h5 with h5 h6
                  subst hu h5 h6
                  refine List.mem_append.mpr (Or.inr ?_)
                  simp
            · exact Or.inr ⟨n', hn', by simp, hsh⟩
      · rw [hC]
        have hd_iff : dirIns = true ↔ ∃ z m, fs.statE (joinL sp n) = .ok (true, z, m) := by
          rcases hnews with ⟨z, m, hstat, htab, hd⟩ | ⟨z, m, hstat, htab, hd⟩
          · subst hd
            exact ⟨fun _ => ⟨z, m, hstat⟩, fun _ => rfl⟩
          · subst hd
            refine ⟨fun h => by simp at h, ?_⟩
            rintro ⟨z2, m2, hstat2⟩
            rw [hstat] at hstat2
            injection hstat2 with h4
            simp at h4
        constructor
        · rintro (hor | ⟨n', hn', hfr, hdir⟩)
          · rcases Bool.or_eq_true_iff.mp hor with h | h
            · exact Or.inl h
            · exact Or.inr ⟨n, List.mem_cons_self _ _, by simp, hd_iff.mp h⟩
          · exact Or.inr ⟨n', List.mem_cons_of_mem _ hn', by simp, hdir⟩
        · rintro (h | ⟨n', hn', hfr, hdir⟩)
          · exact Or.inl (Bool.or_eq_true_iff.mpr (Or.inl h))
          · rcases List.mem_cons.mp hn' with rfl | hn'
            · exact Or.inl (Bool.or_eq_true_iff.mpr (Or.inr (hd_iff.mpr hdir)))
            · exact Or.inr ⟨n', hn', by simp, hdir⟩
      · intro n2 hn2
        rcases List.mem_cons.mp hn2 with rfl | hn2
        · rcases hnews with ⟨z, m, hstat, -, -⟩ | ⟨z, m, hstat, -, -⟩
          · exact Or.inl ⟨true, z, m, hstat⟩
          · exact Or.inl ⟨false, z, m, hstat⟩
        · rcases hG n2 hn2 with h | ⟨r0, hr0, -⟩
          · exact Or.inl h
          · simp at hr0

  | case7 fuel table cursor refresh ns r hp ih =>
    intro pre post mo hfuel hsplit hrc hpre hpost hsn hspre hspne hnn hfresh hdum hnd hN hmo
    rw [mergeLoop, if_pos hp, if_pos rfl] at hmo
    obtain ⟨pre', rfl⟩ : ∃ pre', pre = r :: pre' := by
      cases pre with
      | nil =>
        exfalso
        have hrp : r ∈ post := by
          have := congrArg List.head? hsplit
          simp only [List.nil_append] at this
          cases post with
          | nil => simp at this
          | cons a t =>
            simp only [Option.toList_some, List.cons_append, List.head?_cons] at this
            have : r = a := by simpa using this
            exact this ▸ List.mem_cons_self a t
        exact (hpost r hrp) hp
      | cons a t =>
        have : r = a := by
          have := congrArg List.head? hsplit
          simpa using this
        exact ⟨t, by rw [this]⟩
    have hsplit' : cursor = pre' ++ post := by simpa using hsplit
    have hlen : cursor.head?.toList.length + cursor.tail.length = cursor.length := by
      cases cursor <;> simp [Nat.add_comm]
    have hname_lt : ∀ x ∈ ns, strLt r.name x = true := (List.pairwise_cons.mp hsn).1
    have hpre'_gt : ∀ r0 ∈ pre', strLt r.name r0.name = true := (List.pairwise_cons.mp hspre).1
    have hih := ih pre' post mo
      (by simp only [List.length_cons, Option.toList_some, List.length_singleton] at hfuel ⊢; omega)
      (by rw [head?_toList_append_tail, hsplit'])
      (by intro h; cases cursor with
          | nil => rfl
          | cons a t => simp at h)
      (fun u hu => hpre u (List.mem_cons_of_mem _ hu))
      hpost (List.pairwise_cons.mp hsn).2 (List.pairwise_cons.mp hspre).2 hspne
      (fun x hx => hnn x (List.mem_cons_of_mem _ hx))
      (by
        intro n' hn' hfr u hu
        refine hfresh n' (List.mem_cons_of_mem _ hn') ?_ u hu
        intro r0 hr0
        rcases List.mem_cons.mp hr0 with rfl | hr0
        · exact strLt_ne (hname_lt n' hn')
        · exact hfr r0 hr0)
      (by
        intro n' hn' hfr u hu
        refine hdum n' (List.mem_cons_of_mem _ hn') ?_ u hu
        intro r0 hr0
        rcases List.mem_cons.mp hr0 with rfl | hr0
        · exact strLt_ne (hname_lt n' hn')
        · exact hfr r0 hr0)
      hnd hN hmo
    obtain ⟨hA, hB, hC, hF, hG, hH⟩ := hih
    refine ⟨hA, ?_, ?_, hF, ?_, hH⟩
    · intro u
      rw [hB u]
      constructor
      · rintro (⟨hu, hs⟩ | hins2)
        · left
          refine ⟨hu, ?_⟩
          rintro ⟨hP, ⟨r0, hr0, hname⟩, hnin⟩
          simp only [List.mem_cons, not_or] at hnin
          rcases List.mem_cons.mp hr0 with rfl | hr0
          · exact hnin.1 hname.symm
          · exact hs ⟨hP, ⟨r0, hr0, hname⟩, hnin.2⟩
        · rcases hins2 with ⟨n', hn', hfr, sh⟩
          right
          refine ⟨n', List.mem_cons_of_mem _ hn', ?_, sh⟩
          intro r0 hr0
          rcases List.mem_cons.mp hr0 with rfl | hr0
          · exact strLt_ne (hname_lt n' hn')
          · exact hfr r0 hr0
      · rintro (⟨hu, hs⟩ | hins2)
        · left
          refine ⟨hu, ?_⟩
          rintro ⟨hP, ⟨r0, hr0, hname⟩, hnin⟩
          by_cases hun : u.name = r.name
          · exact (strLt_ne (hpre'_gt r0 hr0)).symm (by rw [hname, hun])
          · refine hs ⟨hP, ⟨r0, List.mem_cons_of_mem _ hr0, hname⟩, ?_⟩
            simp only [List.mem_cons, not_or]
            exact ⟨hun, hnin⟩
        · rcases hins2 with ⟨n', hn', hfr, sh⟩
          rcases List.mem_cons.mp hn' with rfl | hn'
          · exact absurd rfl (hfr r (List.mem_cons_self _ _))
          · exact Or.inr ⟨n', hn', fun r0 hr0 => hfr r0 (List.mem_cons_of_mem _ hr0), sh⟩
    · rw [hC]
      constructor
      · rintro (h | ⟨n', hn', hfr, hdir⟩)
        · exact Or.inl h
        · right
          refine ⟨n', List.mem_cons_of_mem _ hn', ?_, hdir⟩
          intro r0 hr0
          rcases List.mem_cons.mp hr0 with rfl | hr0
          · exact strLt_ne (hname_lt n' hn')
          · exact hfr r0 hr0
      · rintro (h | ⟨n', hn', hfr, hdir⟩)
        · exact Or.inl h
        · rcases List.mem_cons.mp hn' with rfl | hn'
          · exact absurd rfl (hfr r (List.mem_cons_self _ _))
          · exact Or.inr ⟨n', hn', fun r0 hr0 => hfr r0 (List.mem_cons_of_mem _ hr0), hdir⟩
    · intro n2 hn2
      rcases List.mem_cons.mp hn2 with rfl | hn2
      · exact Or.inr ⟨r, List.mem_cons_self _ _, rfl⟩
      · rcases hG n2 hn2 with h | ⟨r0, hr0, h2⟩
        · exact Or.inl h
        · exact Or.inr ⟨r0, List.mem_cons_of_mem _ hr0, h2⟩

  | case8 fuel table cursor refresh n ns r hp hn hlt e hins =>
    intro pre post mo hfuel hsplit hrc hpre hpost hsn hspre hspne hnn hfresh hdum hnd hN hmo
    rw [mergeLoop, if_pos hp, if_neg hn, if_pos hlt, hins] at hmo
    simp at hmo
  | case11 fuel table cursor refresh n ns r hp e hins =>
    intro pre post mo hfuel hsplit hrc hpre hpost hsn hspre hspne hnn hfresh hdum hnd hN hmo
    rw [mergeLoop, if_neg hp, hins] at hmo
    simp at hmo
  | case10 fuel table cursor refresh n ns r hp hn hlt ih =>
    intro pre post mo hfuel hsplit hrc hpre hpost hsn hspre hspne hnn hfresh hdum hnd hN hmo
    rw [mergeLoop, if_pos hp, if_neg hn, if_neg hlt] at hmo
    cases hrec : mergeLoop fs sp fuel (delRow table r.name r.path) (n :: ns) cursor.head? cursor.tail refresh with
    | error e => rw [hrec] at hmo; simp [addEvs] at hmo
    | ok mo2 =>
      rw [hrec] at hmo
      simp only [addEvs] at hmo
      injection hmo with h
      subst h
      obtain ⟨pre', rfl⟩ : ∃ pre', pre = r :: pre' := by
        cases pre with
        | nil =>
          exfalso
          have hrp : r ∈ post := by
            have := congrArg List.head? hsplit
            simp only [List.nil_append] at this
            cases post with
            | nil => simp at this
            | cons a t =>
              simp only [Option.toList_some, List.cons_append, List.head?_cons] at this
              have : r = a := by simpa using this
              exact this ▸ List.mem_cons_self a t
          exact (hpost r hrp) hp
        | cons a t =>
          have : r = a := by
            have := congrArg List.head? hsplit
            simpa using this
          exact ⟨t, by rw [this]⟩
      have hsplit' : cursor = pre' ++ post := by simpa using hsplit
      have hlen : cursor.head?.toList.length + cursor.tail.length = cursor.length := by
        cases cursor <;> simp [Nat.add_comm]
      have hrn : strLt r.name n = true := by
        refine strLt_of_ne_of_not_lt hn ?_
        cases hq : strLt n r.name with
        | false => rfl
        | true => exact absurd hq hlt
      have hnin_names : r.name ∉ n :: ns := by
        intro hmem
        rcases List.mem_cons.mp hmem with h | h
        · exact strLt_ne hrn h
        · have := (List.pairwise_cons.mp hsn).1 r.name h
          have h2 := strLt_trans hrn this
          rw [strLt_irrefl] at h2
          simp at h2
      have hih := ih pre' post mo2
        (by simp only [List.length_cons, Option.toList_some, List.length_singleton] at hfuel ⊢; omega)
        (by rw [head?_toList_append_tail, hsplit'])
        (by intro h; cases cursor with
            | nil => rfl
            | cons a t => simp at h)
        (fun u hu => hpre u (List.mem_cons_of_mem _ hu))
        hpost hsn (List.pairwise_cons.mp hspre).2 hspne hnn
        (by
          intro n' hn' hfr u hu
          refine hfresh n' hn' ?_ u (delRow_subset hu)
          intro r0 hr0
          rcases List.mem_cons.mp hr0 with rfl | hr0
          · intro he
            exact hnin_names (he ▸ hn')
          · exact hfr r0 hr0)
        (by
          intro n' hn' hfr u hu
          refine hdum n' hn' ?_ u (delRow_subset hu)
          intro r0 hr0
          rcases List.mem_cons.mp hr0 with rfl | hr0
          · intro he
            exact hnin_names (he ▸ hn')
          · exact hfr r0 hr0)
        (hnd.sublist (delRow_sublist table r.name r.path))
        (hN.sublist (delRow_sublist table r.name r.path))
        hrec
      obtain ⟨hA, hB, hC, hF, hG, hH⟩ := hih
      refine ⟨hA, ?_, ?_, hF, ?_, hH⟩
      · intro u
        rw [hB u]
        constructor
        · rintro (⟨hu, hs⟩ | hins2)
          · obtain ⟨huA, hne⟩ := mem_delRow.mp hu
            left
            refine ⟨huA, ?_⟩
            rintro ⟨hP, ⟨r0, hr0, hname⟩, hnin⟩
            rcases List.mem_cons.mp hr0 with rfl | hr0
            · exact hne ⟨hname.symm, by rw [hP, ← hp]⟩
            · exact hs ⟨hP, ⟨r0, hr0, hname⟩, hnin⟩
          · rcases hins2 with ⟨n', hn', hfr, sh⟩
            right
            refine ⟨n', hn', ?_, sh⟩
            intro r0 hr0
            rcases List.mem_cons.mp hr0 with rfl | hr0
            · intro he
              exact hnin_names (he ▸ hn')
            · exact hfr r0 hr0
        · rintro (⟨hu, hs⟩ | hins2)
          · left
            have hnk : ¬(u.name = r.name ∧ u.path = r.path) := by
              rintro ⟨h1, h2⟩
              exact hs ⟨by rw [h2, hp], ⟨r, List.mem_cons_self _ _, h1.symm⟩, h1 ▸ hnin_names⟩
            refine ⟨mem_delRow.mpr ⟨hu, hnk⟩, ?_⟩
            rintro ⟨hP, ⟨r0, hr0, hname⟩, hnin⟩
            exact hs ⟨hP, ⟨r0, List.mem_cons_of_mem _ hr0, hname⟩, hnin⟩
          · rcases hins2 with ⟨n', hn', hfr, sh⟩
            exact Or.inr ⟨n', hn', fun r0 hr0 => hfr r0 (List.mem_cons_of_mem _ hr0), sh⟩
      · rw [hC]
        constructor
        · rintro (h | ⟨n', hn', hfr, hdir⟩)
          · exact Or.inl h
          · right
            refine ⟨n', hn', ?_, hdir⟩
            intro r0 hr0
            rcases List.mem_cons.mp hr0 with rfl | hr0
            · intro he
              exact hnin_names (he ▸ hn')
            · exact hfr r0 hr0
        · rintro (h | ⟨n', hn', hfr, hdir⟩)
          · exact Or.inl h
          · exact Or.inr ⟨n', hn', fun r0 hr0 => hfr r0 (List.mem_cons_of_mem _ hr0), hdir⟩
      · intro n2 hn2
        rcases hG n2 hn2 with h | ⟨r0, hr0, h2⟩
        · exact Or.inl h
        · exact Or.inr ⟨r0, List.mem_cons_of_mem _ hr0, h2⟩

  | case9 fuel table cursor refresh n ns r hp hn hlt table2 dirIns evs1 hins ih =>
    intro pre post mo hfuel hsplit hrc hpre hpost hsn hspre hspne hnn hfresh hdum hnd hN hmo
    rw [mergeLoop, if_pos hp, if_neg hn, if_pos hlt] at hmo
    rw [hins] at hmo
    dsimp only at hmo
    cases hrec : mergeLoop fs sp fuel table2 ns (some r) cursor (refresh || dirIns) with
    | error e => rw [hrec] at hmo; simp [addEvs] at hmo
    | ok mo2 =>
      rw [hrec] at hmo
      simp only [addEvs] at hmo
      injection hmo with h
      subst h
      obtain ⟨pre', rfl⟩ : ∃ pre', pre = r :: pre' := by
        cases pre with
        | nil =>
          exfalso
          have hrp : r ∈ post := by
            have := congrArg List.head? hsplit
            simp only [List.nil_append] at this
            cases post with
            | nil => simp at this
            | cons a t =>
              simp only [Option.toList_some, List.cons_append, List.head?_cons] at this
              have : r = a := by simpa using this
              exact this ▸ List.mem_cons_self a t
          exact (hpost r hrp) hp
        | cons a t =>
          have : r = a := by
            have := congrArg List.head? hsplit
            simpa using this
          exact ⟨t, by rw [this]⟩
      have hnne : n ≠ [] := hnn n (List.mem_cons_self _ _)
      have hlt_all : ∀ x ∈ ns, strLt n x = true := (List.pairwise_cons.mp hsn).1
      have hjoin_ne : joinL sp n ≠ sp := joinL_ne_self hspne hnne
      have hpre'_gt : ∀ r0 ∈ pre', strLt r.name r0.name = true := (List.pairwise_cons.mp hspre).1
      have hfr_n : ∀ r0 ∈ r :: pre', r0.name ≠ n := by
        intro r0 hr0
        rcases List.mem_cons.mp hr0 with rfl | hr0
        · exact fun he => (strLt_ne hlt) he.symm
        · intro he
          exact strLt_ne (strLt_trans hlt (hpre'_gt r0 hr0)) he.symm
      have hnews : (∃ z m, fs.statE (joinL sp n) = .ok (true, z, m) ∧
            table2 = table ++ [⟨".".data, joinL sp n, -3, 0⟩, ⟨n, sp, -1, 0⟩] ∧ dirIns = true) ∨
          (∃ z m, fs.statE (joinL sp n) = .ok (false, z, m) ∧
            table2 = table ++ [⟨n, sp, z, m⟩] ∧ dirIns = false) := by
        rcases insertStep_cases hins with ⟨z, m, hstat, hout⟩ | ⟨z, m, hstat, hout⟩
        · injection hout with h1 h2
          injection h2 with h2 h3
          exact Or.inl ⟨z, m, hstat, h1, h2⟩
        · injection hout with h1 h2
          injection h2 with h2 h3
          exact Or.inr ⟨z, m, hstat, h1, h2⟩
      have hfresh2 : ∀ n' ∈ ns, (∀ r0 ∈ r :: pre', r0.name ≠ n') →
          ∀ u ∈ table2, ¬(u.path = sp ∧ u.name = n') := by
        intro n' hn' hfr u hu hk
        have hne' : n ≠ n' := strLt_ne (hlt_all n' hn')
        rcases hnews with ⟨z, m, hstat, htab, hd⟩ | ⟨z, m, hstat, htab, hd⟩ <;>
          subst htab <;>
          rcases List.mem_append.mp hu with hu | hu
        · exact hfresh n' (List.mem_cons_of_mem _ hn') hfr u hu hk
        · simp only [List.mem_cons, List.not_mem_nil, or_false] at hu
          rcases hu with rfl | rfl
          · exact hjoin_ne (by simpa using hk.1)
          · exact hne' (by simpa using hk.2.symm.symm)
        · exact hfresh n' (List.mem_cons_of_mem _ hn') hfr u hu hk
        · simp only [List.mem_cons, List.not_mem_nil, or_false] at hu
          rcases hu with rfl
          exact hne' (by simpa using hk.2.symm.symm)
      have hnd2 : nodupSp table2 sp := by
        rcases hnews with ⟨z, m, hstat, htab, hd⟩ | ⟨z, m, hstat, htab, hd⟩ <;> subst htab <;>
        · rw [nodupSp, List.pairwise_append]
          refine ⟨hnd, ?_, ?_⟩
          · simp only [List.pairwise_cons, List.Pairwise.nil, List.not_mem_nil]
            first
            | exact ⟨fun v hv => by
                simp only [List.mem_cons, List.not_mem_nil, or_false] at hv
                subst hv
                intro hps
                exact absurd hps hjoin_ne, by simp⟩
            | simp
          · intro u hu v hv hup hvp
            have := hfresh n (List.mem_cons_self _ _) hfr_n u hu
            simp only [List.mem_cons, List.not_mem_nil, or_false] at hv
            first
            | rcases hv with rfl | rfl
              · exact absurd hvp hjoin_ne
              · intro hname
                exact this ⟨hup, by simpa using hname⟩
            | · rcases hv with rfl
                intro hname
                exact this ⟨hup, by simpa using hname⟩
      have hdum2 : ∀ n' ∈ ns, (∀ r0 ∈ r :: pre', r0.name ≠ n') →
          ∀ u ∈ table2, u.path ≠ joinL sp n' := by
        intro n' hn' hfr u hu
        have hne' : n ≠ n' := strLt_ne (hlt_all n' hn')
        have hnne' : n' ≠ [] := hnn n' (List.mem_cons_of_mem _ hn')
        rcases hnews with ⟨z, m, hstat, htab, hd⟩ | ⟨z, m, hstat, htab, hd⟩ <;>
          subst htab <;>
          rcases List.mem_append.mp hu with hu | hu
        · exact hdum n' (List.mem_cons_of_mem _ hn') hfr u hu
        · simp only [List.mem_cons, List.not_mem_nil, or_false] at hu
          rcases hu with rfl | rfl
          · intro hpeq
            exact hne' (joinL_inj (by simpa using hpeq))
          · intro hpeq
            have hpeq2 : joinL sp n' = sp := by simpa using hpeq.symm
            exact (joinL_ne_self hspne hnne') hpeq2
        · exact hdum n' (List.mem_cons_of_mem _ hn') hfr u hu
        · simp only [List.mem_cons, List.not_mem_nil, or_false] at hu
          rcases hu with rfl
          intro hpeq
          have hpeq2 : joinL sp n' = sp := by simpa using hpeq.symm
          exact (joinL_ne_self hspne hnne') hpeq2
      have hN2 : nodupKeys table2 := by
        rcases hnews with ⟨z, m, hstat, htab, hd⟩ | ⟨z, m, hstat, htab, hd⟩ <;> subst htab
        · rw [nodupKeys, List.pairwise_append]
          refine ⟨hN, ?_, ?_⟩
          · simp only [List.pairwise_cons, List.Pairwise.nil, List.not_mem_nil]
            refine ⟨fun v hv => ?_, by simp⟩
            simp only [List.mem_cons, List.not_mem_nil, or_false] at hv
            subst hv
            rintro ⟨hps, -⟩
            exact hjoin_ne (by simpa using hps)
          · intro u hu v hv
            simp only [List.mem_cons, List.not_mem_nil, or_false] at hv
            rcases hv with rfl | rfl
            · rintro ⟨hps, -⟩
              exact hdum n (List.mem_cons_self _ _) hfr_n u hu (by simpa using hps)
            · rintro ⟨hps, hns⟩
              exact hfresh n (List.mem_cons_self _ _) hfr_n u hu ⟨by simpa using hps, by simpa using hns⟩
        · rw [nodupKeys, List.pairwise_append]
          refine ⟨hN, ?_, ?_⟩
          · simp
          · intro u hu v hv
            simp only [List.mem_cons, List.not_mem_nil, or_false] at hv
            rcases hv with rfl
            rintro ⟨hps, hns⟩
            exact hfresh n (List.mem_cons_self _ _) hfr_n u hu ⟨by simpa using hps, by simpa using hns⟩
      have hih := ih (r :: pre') post mo2
        (by simp only [List.length_cons, Option.toList_some, List.length_singleton] at hfuel ⊢; omega)
        hsplit
        (by intro h; simp at h)
        hpre hpost (List.pairwise_cons.mp hsn).2 hspre hspne
        (fun x hx => hnn x (List.mem_cons_of_mem _ hx))
        hfresh2 hdum2 hnd2 hN2 hrec
      obtain ⟨hA, hB, hC, hF, hG, hH⟩ := hih
      refine ⟨hA, ?_, ?_, hF, ?_, hH⟩
      · intro u
        rw [hB u]
        constructor
        · rintro (⟨hu, hs⟩ | hins2)
          · rcases hnews with ⟨z, m, hstat, htab, hd⟩ | ⟨z, m, hstat, htab, hd⟩ <;> subst htab <;>
              rcases List.mem_append.mp hu with hu | hu
            · left
              refine ⟨hu, ?_⟩
              rintro ⟨hP, hE, hnin⟩
              simp only [List.mem_cons, not_or] at hnin
              exact hs ⟨hP, hE, hnin.2⟩
            · right
              refine ⟨n, List.mem_cons_self _ _, hfr_n, ?_⟩
              left
              simp only [List.mem_cons, List.not_mem_nil, or_false] at hu
              exact ⟨z, m, hstat, by tauto⟩
            · left
              refine ⟨hu, ?_⟩
              rintro ⟨hP, hE, hnin⟩
              simp only [List.mem_cons, not_or] at hnin
              exact hs ⟨hP, hE, hnin.2⟩
            · right
              refine ⟨n, List.mem_cons_self _ _, hfr_n, ?_⟩
              right
              simp only [List.mem_cons, List.not_mem_nil, or_false] at hu
              exact ⟨z, m, hstat, by tauto⟩
          · rcases hins2 with ⟨n', hn', hfr, sh⟩
            exact Or.inr ⟨n', List.mem_cons_of_mem _ hn', hfr, sh⟩
        · rintro (⟨hu, hs⟩ | hins2)
          · left
            have hmem2 : u ∈ table2 := by
              rcases hnews with ⟨z, m, hstat, htab, hd⟩ | ⟨z, m, hstat, htab, hd⟩ <;> subst htab <;>
                exact List.mem_append.mpr (Or.inl hu)
            refine ⟨hmem2, ?_⟩
            rintro ⟨hP, ⟨r0, hr0, hname⟩, hnin⟩
            by_cases hun : u.name = n
            · exact hfr_n r0 hr0 (hname.trans hun)
            · refine hs ⟨hP, ⟨r0, hr0, hname⟩, ?_⟩
              simp only [List.mem_cons, not_or]
              exact ⟨hun, hnin⟩
          · rcases hins2 with ⟨n', hn', hfr, sh⟩
            rcases List.mem_cons.mp hn' with rfl | hn'
            · -- n' = n: u is one of the rows just inserted
              left
              rcases hnews with ⟨z, m, hstat, htab, hd⟩ | ⟨z, m, hstat, htab, hd⟩ <;> subst htab
              · rcases sh with ⟨z2, m2, hstat2, hu⟩ | ⟨z2, m2, hstat2, hu⟩
                · constructor
                  · refine List.mem_append.mpr (Or.inr ?_)
                    rcases hu with rfl | rfl <;> simp
                  · rcases hu with rfl | rfl
                    · rintro ⟨hP, ⟨r0, hr0, hname⟩, hnin⟩
                      exact hfr_n r0 hr0 hname
                    · rintro ⟨hP, hE, hnin⟩
                      exact hjoin_ne (by simpa using hP)
                · rw [hstat] at hstat2
                  injection hstat2 with h4
                  simp at h4
              · rcases sh with ⟨z2, m2, hstat2, hu⟩ | ⟨z2, m2, hstat2, hu⟩
                · rw [hstat] at hstat2
                  injection hstat2 with h4
                  simp at h4
                · rw [hstat] at hstat2
                  injection hstat2 with h4
                  injection h4 with h4 h5
                  injection h5 with h5 h6
                  subst hu h5 h6
                  constructor
                  · refine List.mem_append.mpr (Or.inr ?_)
                    simp
                  · rintro ⟨hP, ⟨r0, hr0, hname⟩, hnin⟩
                    exact hfr_n r0 hr0 hname
            · exact Or.inr ⟨n', hn', hfr, sh⟩
      · rw [hC]
        have hd_iff : dirIns = true ↔ ∃ z m, fs.statE (joinL sp n) = .ok (true, z, m) := by
          rcases hnews with ⟨z, m, hstat, htab, hd⟩ | ⟨z, m, hstat, htab, hd⟩
          · subst hd
            exact ⟨fun _ => ⟨z, m, hstat⟩, fun _ => rfl⟩
          · subst hd
            refine ⟨fun h => by simp at h, ?_⟩
            rintro ⟨z2, m2, hstat2⟩
            rw [hstat] at hstat2
            injection hstat2 with h4
            simp at h4
        constructor
        · rintro (hor | ⟨n', hn', hfr, hdir⟩)
          · rcases Bool.or_eq_true_iff.mp hor with h | h
            · exact Or.inl h
            · exact Or.inr ⟨n, List.mem_cons_self _ _, hfr_n, hd_iff.mp h⟩
          · exact Or.inr ⟨n', List.mem_cons_of_mem _ hn', hfr, hdir⟩
        · rintro (h | ⟨n', hn', hfr, hdir⟩)
          · exact Or.inl (Bool.or_eq_true_iff.mpr (Or.inl h))
          · rcases List.mem_cons.mp hn' with rfl | hn'
            · exact Or.inl (Bool.or_eq_true_iff.mpr (Or.inr (hd_iff.mpr hdir)))
            · exact Or.inr ⟨n', hn', hfr, hdir⟩
      · intro n2 hn2
        rcases List.mem_cons.mp hn2 with rfl | hn2
        · rcases hnews with ⟨z, m, hstat, -, -⟩ | ⟨z, m, hstat, -, -⟩
          · exact Or.inl ⟨true, z, m, hstat⟩
          · exact Or.inl ⟨false, z, m, hstat⟩
        · exact hG n2 hn2

  | case12 fuel table cursor refresh n ns r hp table2 dirIns evs1 hins ih =>
    intro pre post mo hfuel hsplit hrc hpre hpost hsn hspre hspne hnn hfresh hdum hnd hN hmo
    rw [mergeLoop, if_neg hp] at hmo
    rw [hins] at hmo
    dsimp only at hmo
    cases hrec : mergeLoop fs sp fuel table2 ns (some r) cursor (refresh || dirIns) with
    | error e => rw [hrec] at hmo; simp [addEvs] at hmo
    | ok mo2 =>
      rw [hrec] at hmo
      simp only [addEvs] at hmo
      injection hmo with h
      subst h
      have hpree : pre = [] := by
        cases pre with
        | nil => rfl
        | cons a t =>
          exfalso
          have : r = a := by
            have := congrArg List.head? hsplit
            simpa using this
          subst this
          exact hp (hpre r (List.mem_cons_self r t))
      subst hpree
      simp only [List.nil_append] at hsplit
      have hnne : n ≠ [] := hnn n (List.mem_cons_self _ _)
      have hlt_all : ∀ x ∈ ns, strLt n x = true := (List.pairwise_cons.mp hsn).1
      have hjoin_ne : joinL sp n ≠ sp := joinL_ne_self hspne hnne
      have hnews : (∃ z m, fs.statE (joinL sp n) = .ok (true, z, m) ∧
            table2 = table ++ [⟨".".data, joinL sp n, -3, 0⟩, ⟨n, sp, -1, 0⟩] ∧ dirIns = true) ∨
          (∃ z m, fs.statE (joinL sp n) = .ok (false, z, m) ∧
            table2 = table ++ [⟨n, sp, z, m⟩] ∧ dirIns = false) := by
        rcases insertStep_cases hins with ⟨z, m, hstat, hout⟩ | ⟨z, m, hstat, hout⟩
        · injection hout with h1 h2
          injection h2 with h2 h3
          exact Or.inl ⟨z, m, hstat, h1, h2⟩
        · injection hout with h1 h2
          injection h2 with h2 h3
          exact Or.inr ⟨z, m, hstat, h1, h2⟩
      have hfresh2 : ∀ n' ∈ ns, (∀ r0 ∈ ([] : List Row), r0.name ≠ n') →
          ∀ u ∈ table2, ¬(u.path = sp ∧ u.name = n') := by
        intro n' hn' hfr u hu hk
        have hne' : n ≠ n' := strLt_ne (hlt_all n' hn')
        rcases hnews with ⟨z, m, hstat, htab, hd⟩ | ⟨z, m, hstat, htab, hd⟩ <;>
          subst htab <;>
          rcases List.mem_append.mp hu with hu | hu
        · exact hfresh n' (List.mem_cons_of_mem _ hn') (by simp) u hu hk
        · simp only [List.mem_cons, List.not_mem_nil, or_false] at hu
          rcases hu with rfl | rfl
          · exact hjoin_ne (by simpa using hk.1)
          · exact hne' (by simpa using hk.2.symm.symm)
        · exact hfresh n' (List.mem_cons_of_mem _ hn') (by simp) u hu hk
        · simp only [List.mem_cons, List.not_mem_nil, or_false] at hu
          rcases hu with rfl
          exact hne' (by simpa using hk.2.symm.symm)
      have hnd2 : nodupSp table2 sp := by
        rcases hnews with ⟨z, m, hstat, htab, hd⟩ | ⟨z, m, hstat, htab, hd⟩ <;> subst htab <;>
        · rw [nodupSp, List.pairwise_append]
          refine ⟨hnd, ?_, ?_⟩
          · simp only [List.pairwise_cons, List.Pairwise.nil, List.not_mem_nil]
            first
            | exact ⟨fun v hv => by
                simp only [List.mem_cons, List.not_mem_nil, or_false] at hv
                subst hv
                intro hps
                exact absurd hps hjoin_ne, by simp⟩
            | simp
          · intro u hu v hv hup hvp
            have := hfresh n (List.mem_cons_self _ _) (by simp) u hu
            simp only [List.mem_cons, List.not_mem_nil, or_false] at hv
            first
            | rcases hv with rfl | rfl
              · exact absurd hvp hjoin_ne
              · intro hname
                exact this ⟨hup, by simpa using hname⟩
            | · rcases hv with rfl
                intro hname
                exact this ⟨hup, by simpa using hname⟩
      have hdum2 : ∀ n' ∈ ns, (∀ r0 ∈ ([] : List Row), r0.name ≠ n') →
          ∀ u ∈ table2, u.path ≠ joinL sp n' := by
        intro n' hn' hfr u hu
        have hne' : n ≠ n' := strLt_ne (hlt_all n' hn')
        have hnne' : n' ≠ [] := hnn n' (List.mem_cons_of_mem _ hn')
        rcases hnews with ⟨z, m, hstat, htab, hd⟩ | ⟨z, m, hstat, htab, hd⟩ <;>
          subst htab <;>
          rcases List.mem_append.mp hu with hu | hu
        · exact hdum n' (List.mem_cons_of_mem _ hn') (by simp) u hu
        · simp only [List.mem_cons, List.not_mem_nil, or_false] at hu
          rcases hu with rfl | rfl
          · intro hpeq
            exact hne' (joinL_inj (by simpa using hpeq))
          · intro hpeq
            have hpeq2 : joinL sp n' = sp := by simpa using hpeq.symm
            exact (joinL_ne_self hspne hnne') hpeq2
        · exact hdum n' (List.mem_cons_of_mem _ hn') (by simp) u hu
        · simp only [List.mem_cons, List.not_mem_nil, or_false] at hu
          rcases hu with rfl
          intro hpeq
          have hpeq2 : joinL sp n' = sp := by simpa using hpeq.symm
          exact (joinL_ne_self hspne hnne') hpeq2
      have hN2 : nodupKeys table2 := by
        rcases hnews with ⟨z, m, hstat, htab, hd⟩ | ⟨z, m, hstat, htab, hd⟩ <;> subst htab
        · rw [nodupKeys, List.pairwise_append]
          refine ⟨hN, ?_, ?_⟩
          · simp only [List.pairwise_cons, List.Pairwise.nil, List.not_mem_nil]
            refine ⟨fun v hv => ?_, by simp⟩
            simp only [List.mem_cons, List.not_mem_nil, or_false] at hv
            subst hv
            rintro ⟨hps, -⟩
            exact hjoin_ne (by simpa using hps)
          · intro u hu v hv
            simp only [List.mem_cons, List.not_mem_nil, or_false] at hv
            rcases hv with rfl | rfl
            · rintro ⟨hps, -⟩
              exact hdum n (List.mem_cons_self _ _) (by simp) u hu (by simpa using hps)
            · rintro ⟨hps, hns⟩
              exact hfresh n (List.mem_cons_self _ _) (by simp) u hu ⟨by simpa using hps, by simpa using hns⟩
        · rw [nodupKeys, List.pairwise_append]
          refine ⟨hN, ?_, ?_⟩
          · simp
          · intro u hu v hv
            simp only [List.mem_cons, List.not_mem_nil, or_false] at hv
            rcases hv with rfl
            rintro ⟨hps, hns⟩
            exact hfresh n (List.mem_cons_self _ _) (by simp) u hu ⟨by simpa using hps, by simpa using hns⟩
      have hih := ih [] post mo2
        (by simp only [List.length_cons, Option.toList_some, List.length_singleton] at hfuel ⊢; omega)
        hsplit
        (by intro h; simp at h)
        (by simp) hpost (List.pairwise_cons.mp hsn).2 (by simp) hspne
        (fun x hx => hnn x (List.mem_cons_of_mem _ hx))
        hfresh2 hdum2 hnd2 hN2 hrec
      obtain ⟨hA, hB, hC, hF, hG, hH⟩ := hih
      refine ⟨hA, ?_, ?_, hF, ?_, hH⟩
      · intro u
        rw [hB u]
        have hsurv1 : survives sp ns ([] : List Row) u := by simp [survives]
        have hsurv2 : survives sp (n :: ns) ([] : List Row) u := by simp [survives]
        constructor
        · rintro (⟨hu, -⟩ | hins2)
          · rcases hnews with ⟨z, m, hstat, htab, hd⟩ | ⟨z, m, hstat, htab, hd⟩ <;> subst htab <;>
              rcases List.mem_append.mp hu with hu | hu
            · exact Or.inl ⟨hu, hsurv2⟩
            · right
              refine ⟨n, List.mem_cons_self _ _, by simp, ?_⟩
              left
              simp only [List.mem_cons, List.not_mem_nil, or_false] at hu
              exact ⟨z, m, hstat, by tauto⟩
            · exact Or.inl ⟨hu, hsurv2⟩
            · right
              refine ⟨n, List.mem_cons_self _ _, by simp, ?_⟩
              right
              simp only [List.mem_cons, List.not_mem_nil, or_false] at hu
              exact ⟨z, m, hstat, by tauto⟩
          · rcases hins2 with ⟨n', hn', hfr, sh⟩
            exact Or.inr ⟨n', List.mem_cons_of_mem _ hn', by simp, sh⟩
        · rintro (⟨hu, -⟩ | hins2)
          · left
            refine ⟨?_, hsurv1⟩
            rcases hnews with ⟨z, m, hstat, htab, hd⟩ | ⟨z, m, hstat, htab, hd⟩ <;> subst htab <;>
              exact List.mem_append.mpr (Or.inl hu)
          · rcases hins2 with ⟨n', hn', hfr, sh⟩
            rcases List.mem_cons.mp hn' with rfl | hn'
            · left
              refine ⟨?_, hsurv1⟩
              rcases hnews with ⟨z, m, hstat, htab, hd⟩ | ⟨z, m, hstat, htab, hd⟩ <;> subst htab
              · rcases sh with ⟨z2, m2, hstat2, hu⟩ | ⟨z2, m2, hstat2, hu⟩
                · rcases hu with rfl | rfl <;>
                    · refine List.mem_append.mpr (Or.inr ?_)
                      simp
                · rw [hstat] at hstat2
                  injection hstat2 with h4
                  simp at h4
              · rcases sh with ⟨z2, m2, hstat2, hu⟩ | ⟨z2, m2, hstat2, hu⟩
                · rw [hstat] at hstat2
                  injection hstat2 with h4
                  simp at h4
                · rw [hstat] at hstat2
                  injection hstat2 with h4
                  injection h4 with h4 h5
                  injection h5 with h5 h6
                  subst hu h5 h6
                  refine List.mem_append.mpr (Or.inr ?_)
                  simp
            · exact Or.inr ⟨n', hn', by simp, sh⟩
      · rw [hC]
        have hd_iff : dirIns = true ↔ ∃ z m, fs.statE (joinL sp n) = .ok (true, z, m) := by
          rcases hnews with ⟨z, m, hstat, htab, hd⟩ | ⟨z, m, hstat, htab, hd⟩
          · subst hd
            exact ⟨fun _ => ⟨z, m, hstat⟩, fun _ => rfl⟩
          · subst hd
            refine ⟨fun h => by simp at h, ?_⟩
            rintro ⟨z2, m2, hstat2⟩
            rw [hstat] at hstat2
            injection hstat2 with h4
            simp at h4
        constructor
        · rintro (hor | ⟨n', hn', hfr, hdir⟩)
          · rcases Bool.or_eq_true_iff.mp hor with h | h
            · exact Or.inl h
            · exact Or.inr ⟨n, List.mem_cons_self _ _, by simp, hd_iff.mp h⟩
          · exact Or.inr ⟨n', List.mem_cons_of_mem _ hn', by simp, hdir⟩
        · rintro (h | ⟨n', hn', hfr, hdir⟩)
          · exact Or.inl (Bool.or_eq_true_iff.mpr (Or.inl h))
          · rcases List.mem_cons.mp hn' with rfl | hn'
            · exact Or.inl (Bool.or_eq_true_iff.mpr (Or.inr (hd_iff.mpr hdir)))
            · exact Or.inr ⟨n', hn', by simp, hdir⟩
      · intro n2 hn2
        rcases List.mem_cons.mp hn2 with rfl | hn2
        · rcases hnews with ⟨z, m, hstat, -, -⟩ | ⟨z, m, hstat, -, -⟩
          · exact Or.inl ⟨true, z, m, hstat⟩
          · exact Or.inl ⟨false, z, m, hstat⟩
        · rcases hG n2 hn2 with h | ⟨r0, hr0, -⟩
          · exact Or.inl h
          · simp at hr0

/-! ### Claim C5 -/

theorem updMtime_path_eq {tab : List Row} {n p : List Char} {m : Int} {r : Row}
    (hm : r ∈ updMtime tab n p m) : ∃ r0 ∈ tab, r.path = r0.path ∧ r.name = r0.name := by
  obtain ⟨r0, hm0, rfl⟩ := mem_updMtime.mp hm
  by_cases h : r0.name = n ∧ r0.path = p
  · exact ⟨r0, hm0, by simp [h]⟩
  · exact ⟨r0, hm0, by simp [h]⟩

/-- C5: a stored directory that can no longer be stat'd (not-found on its
mtime fetch) is treated as modified: the merge-diff runs against an empty
disk listing, deleting every stored row whose parent path is that directory,
and the pass completes normally instead of aborting. -/
theorem C5_vanished_directory_cascades :
    ∀ (fs : FS) (st : SyncState) (sp : List Char) (row : Option Row)
      (cursor : List Row) (pre post : List Row),
      fs.find sp = none →
      row.toList ++ cursor = pre ++ post →
      (row = none → cursor = []) →
      (∀ r ∈ pre, r.path = sp) →
      (∀ r ∈ post, ¬ r.path = sp) →
      List.Pairwise (fun a b => strLt a.name b.name = true) pre →
      sp ≠ [] →
      nodupSp st.table sp →
      nodupKeys st.table →
      (∀ u ∈ st.table, u.path = sp → ∃ r0 ∈ pre, r0.name = u.name) →
      exOk (update_db_subdir fs st sp row cursor) = true ∧
      (∀ r ∈ exTable (update_db_subdir fs st sp row cursor), ¬ r.path = sp) := by
  intro fs st sp row cursor pre post hfind hsplit hrc hpre hpost hspre hspne hnd hNK htab_pre
  obtain ⟨mo, hmo⟩ := mergeLoop_nil_ok fs sp (0 + cursor.length + 2) st.table row cursor false
  have hfuel : ([] : List (List Char)).length + cursor.length + row.toList.length < 0 + cursor.length + 2 := by
    cases row <;> simp <;> omega
  have hmain := mergeLoop_main fs sp (0 + cursor.length + 2) st.table [] row cursor false
    pre post mo hfuel hsplit hrc hpre hpost (by simp) hspre hspne (by simp)
    (by intro n hn; simp at hn) (by intro n hn; simp at hn) hnd hNK hmo
  obtain ⟨hA, hB, hC, hF, hG, hH⟩ := hmain
  have hrefresh : mo.refresh = false := by
    cases hq : mo.refresh with
    | false => rfl
    | true =>
      rcases hC.mp hq with h | ⟨n, hn, -⟩
      · simp at h
      · simp at hn
  set m := (lookupMtime st.table (dirnameL sp) (basenameL sp)).getD 0 with hm
  have hres : update_db_subdir fs st sp row cursor =
      .ok ⟨⟨updMtime mo.table (basenameL sp) (dirnameL sp) (m + 1), st.committed⟩,
        mo.row, mo.cursor,
        Event.listing sp :: mo.evs ++ [Event.setMtime (basenameL sp) (dirnameL sp) (m + 1)]⟩ := by
    unfold update_db_subdir
    rw [getmtimeMs_of_find_none hfind]
    simp only [is_enoent_enoentErr, if_true, ← hm]
    rw [if_pos (by omega : m < m + 1)]
    rw [listdir_of_find_none hfind]
    simp only [is_enoent_enoentErr, if_true, List.length_nil, hmo, hrefresh]
    rfl
  rw [hres]
  refine ⟨rfl, ?_⟩
  intro r hr hrp
  simp only [exTable] at hr
  obtain ⟨r0, hr0, hpath, hname⟩ := updMtime_path_eq hr
  rw [hrp] at hpath
  rcases (hB r0).mp hr0 with ⟨htab, hs⟩ | hins
  · obtain ⟨r1, hr1, hn1⟩ := htab_pre r0 htab hpath.symm
    exact hs ⟨hpath.symm, ⟨r1, hr1, hn1⟩, by simp⟩
  · rcases hins with ⟨n, hn, -⟩
    simp at hn

def fs5 : FS := ⟨[]⟩

def st5 : SyncState :=
  ⟨[⟨"b".data, "/".data, -1, 3⟩, ⟨"x".data, "/b".data, 4, 9⟩],
   [⟨"b".data, "/".data, -1, 3⟩, ⟨"x".data, "/b".data, 4, 9⟩]⟩

theorem C5_vanished_directory_cascades_witness :
    exOk (update_db_subdir fs5 st5 "/b".data (some ⟨"x".data, "/b".data, 4, 9⟩) []) = true :=
  (C5_vanished_directory_cascades fs5 st5 "/b".data (some ⟨"x".data, "/b".data, 4, 9⟩) []
    [⟨"x".data, "/b".data, 4, 9⟩] [] rfl (by decide) (by intro h; simp at h)
    (by decide) (by decide) (by decide) (by decide)
    (by unfold nodupSp st5; simp) (by unfold nodupKeys st5; simp) (by decide)).1

/-! ### Claim C1 -/

theorem updMtime_eq_map (tab : List Row) (n p : List Char) (m : Int) :
    updMtime tab n p m =
      tab.map (fun r => if r.name = n ∧ r.path = p then { r with mtime := m } else r) := by
  induction tab with
  | nil => rfl
  | cons r t ih => simp [updMtime, ih]

theorem nodupSp_updMtime {tab : List Row} {n p : List Char} {m : Int} {sp : List Char}
    (h : nodupSp tab sp) : nodupSp (updMtime tab n p m) sp := by
  rw [nodupSp, updMtime_eq_map, List.pairwise_map]
  have fpath : ∀ r : Row,
      (if r.name = n ∧ r.path = p then { r with mtime := m } else r).path = r.path := by
    intro r; by_cases hc : r.name = n ∧ r.path = p <;> simp [hc]
  have fname : ∀ r : Row,
      (if r.name = n ∧ r.path = p then { r with mtime := m } else r).name = r.name := by
    intro r; by_cases hc : r.name = n ∧ r.path = p <;> simp [hc]
  refine List.Pairwise.imp ?_ h
  intro a b hab h1 h2
  rw [fpath] at h1 h2
  rw [fname, fname]
  exact hab h1 h2

/-- C1: when the merge-diff runs on a directory (stored mtime strictly below
the on-disk mtime), after the single `update_db_subdir` invocation the rows
stored under that directory's path correspond exactly to the names in the
disk listing taken at invocation time: every listed name has a row, rows
with unlisted names are gone, and no name has two rows. -/
theorem C1_merge_diff_exact :
    ∀ (fs : FS) (st : SyncState) (sp : List Char) (row : Option Row)
      (cursor : List Row) (pre post : List Row) (t : Int) (ns0 : List (List Char)) (so : SubOut),
      fs.getmtimeMs sp = .ok t →
      (lookupMtime st.table (dirnameL sp) (basenameL sp)).getD 0 < t →
      fs.listdir sp = .ok ns0 →
      row.toList ++ cursor = pre ++ post →
      (row = none → cursor = []) →
      (∀ r ∈ pre, r.path = sp) →
      (∀ r ∈ post, ¬ r.path = sp) →
      List.Pairwise (fun a b => strLt a b = true) (sortNames ns0) →
      List.Pairwise (fun a b => strLt a.name b.name = true) pre →
      sp ≠ [] →
      (∀ n ∈ sortNames ns0, n ≠ []) →
      nodupSp st.table sp →
      nodupKeys st.table →
      (∀ n ∈ sortNames ns0, (∀ r0 ∈ pre, r0.name ≠ n) → ∀ u ∈ st.table, u.path ≠ joinL sp n) →
      (∀ u ∈ st.table, u.path = sp → ∃ r0 ∈ pre, r0.name = u.name) →
      (∀ r0 ∈ pre, r0 ∈ st.table) →
      dirnameL sp ≠ sp →
      update_db_subdir fs st sp row cursor = .ok so →
      (∀ n, n ∈ sortNames ns0 ↔ ∃ r ∈ so.st.table, r.path = sp ∧ r.name = n) ∧
      nodupSp so.st.table sp := by
  intro fs st sp row cursor pre post t ns0 so hget hmt hls hsplit hrc hpre hpost hsort hspre
    hspne hnn hnd hNK hdum htab_pre hpre_tab hdne hok
  unfold update_db_subdir at hok
  dsimp only at hok
  rw [hget] at hok
  dsimp only at hok
  rw [if_pos hmt] at hok
  rw [hls] at hok
  dsimp only at hok
  cases hml : mergeLoop fs sp ((sortNames ns0).length + cursor.length + 2) st.table
      (sortNames ns0) row cursor false with
  | error e => rw [hml] at hok; exact absurd hok (by simp)
  | ok mo =>
  rw [hml] at hok
  dsimp only at hok
  have hfresh : ∀ n ∈ sortNames ns0, (∀ r0 ∈ pre, r0.name ≠ n) →
      ∀ u ∈ st.table, ¬(u.path = sp ∧ u.name = n) := by
    rintro n hn hfr u hu ⟨hup, hun⟩
    obtain ⟨r0, hr0, hname⟩ := htab_pre u hu hup
    exact hfr r0 hr0 (hname.trans hun)
  have hfuel : (sortNames ns0).length + cursor.length + row.toList.length <
      (sortNames ns0).length + cursor.length + 2 := by
    cases row <;> simp <;> omega
  obtain ⟨hA, hB, hC, hF, hG, hH⟩ := mergeLoop_main fs sp
    ((sortNames ns0).length + cursor.length + 2) st.table (sortNames ns0) row cursor false
    pre post mo hfuel hsplit hrc hpre hpost hsort hspre hspne hnn hfresh hdum hnd hNK hml
  have key : (∀ n, n ∈ sortNames ns0 ↔
        ∃ r ∈ updMtime mo.table (basenameL sp) (dirnameL sp) t, r.path = sp ∧ r.name = n) ∧
      nodupSp (updMtime mo.table (basenameL sp) (dirnameL sp) t) sp := by
    constructor
    · intro n
      constructor
      · intro hn
        by_cases hfr : ∀ r0 ∈ pre, r0.name ≠ n
        · rcases hG n hn with ⟨d, z, mm, hstat⟩ | ⟨r0, hr0, hname⟩
          · cases d with
            | true =>
              have hmem : (⟨n, sp, -1, 0⟩ : Row) ∈ mo.table :=
                (hB _).mpr (Or.inr ⟨n, hn, hfr, Or.inl ⟨z, mm, hstat, Or.inl rfl⟩⟩)
              exact ⟨⟨n, sp, -1, 0⟩,
                mem_updMtime_of_mem hmem (by rintro ⟨-, h⟩; exact hdne h.symm), rfl, rfl⟩
            | false =>
              have hmem : (⟨n, sp, z, mm⟩ : Row) ∈ mo.table :=
                (hB _).mpr (Or.inr ⟨n, hn, hfr, Or.inr ⟨z, mm, hstat, rfl⟩⟩)
              exact ⟨⟨n, sp, z, mm⟩,
                mem_updMtime_of_mem hmem (by rintro ⟨-, h⟩; exact hdne h.symm), rfl, rfl⟩
          · exact absurd hname (hfr r0 hr0)
        · push_neg at hfr
          obtain ⟨r0, hr0, hname⟩ := hfr
          have hsurv : survives sp (sortNames ns0) pre r0 := by
            rintro ⟨-, -, hnot⟩
            exact hnot (hname ▸ hn)
          have hmem : r0 ∈ mo.table := (hB r0).mpr (Or.inl ⟨hpre_tab r0 hr0, hsurv⟩)
          refine ⟨r0, mem_updMtime_of_mem hmem ?_, hpre r0 hr0, hname⟩
          rintro ⟨-, h⟩
          exact hdne ((hpre r0 hr0).symm.trans h).symm
      · rintro ⟨r, hr, hrp, hrn⟩
        obtain ⟨r0, hr0, hname, hpath⟩ := updMtime_key_eq hr
        have hr0p : r0.path = sp := hpath ▸ hrp
        have hr0n : r0.name = n := hname ▸ hrn
        rcases (hB r0).mp hr0 with ⟨htab, hsurv⟩ | hins
        · obtain ⟨r1, hr1, hn1⟩ := htab_pre r0 htab hr0p
          by_contra hnn2
          exact hsurv ⟨hr0p, ⟨r1, hr1, hn1⟩, hr0n ▸ hnn2⟩
        · obtain ⟨n', hn', -, hcase⟩ := hins
          rcases hcase with ⟨z, mm, -, hshape⟩ | ⟨z, mm, -, hshape⟩
          · rcases hshape with rfl | rfl
            · exact hr0n ▸ hn'
            · exact absurd hr0p (joinL_ne_self hspne (hnn n' hn'))
          · subst hshape
            exact hr0n ▸ hn'
    · exact nodupSp_updMtime hF
  by_cases hq : mo.refresh = true
  · rw [if_pos hq] at hok
    simp only [Except.ok.injEq] at hok
    rw [← hok]
    exact key
  · rw [if_neg hq] at hok
    simp only [Except.ok.injEq] at hok
    rw [← hok]
    exact key

def fs1 : FS := ⟨[⟨"/r".data, true, 0, 5, none⟩, ⟨"/r/a".data, false, 7, 3, none⟩]⟩

def st1 : SyncState :=
  ⟨[⟨"r".data, "/".data, -2, 0⟩, ⟨"old".data, "/r".data, 1, 1⟩],
   [⟨"r".data, "/".data, -2, 0⟩, ⟨"old".data, "/r".data, 1, 1⟩]⟩

def so1 : SubOut :=
  ⟨⟨[⟨"r".data, "/".data, -2, 5⟩, ⟨"a".data, "/r".data, 7, 3⟩],
    [⟨"r".data, "/".data, -2, 0⟩, ⟨"old".data, "/r".data, 1, 1⟩]⟩,
   none, [],
   [Event.listing "/r".data, Event.insert ⟨"a".data, "/r".data, 7, 3⟩,
    Event.delete "old".data "/r".data, Event.setMtime "r".data "/".data 5]⟩

theorem C1_merge_diff_exact_witness : nodupSp so1.st.table "/r".data :=
  (C1_merge_diff_exact fs1 st1 "/r".data (some ⟨"old".data, "/r".data, 1, 1⟩) []
    [⟨"old".data, "/r".data, 1, 1⟩] [] 5 ["a".data] so1
    rfl (by decide) rfl rfl (by intro h; simp at h) (by decide) (by decide)
    (by decide) (by decide) (by decide) (by decide)
    (by unfold nodupSp st1; simp) (by unfold nodupKeys st1; simp) (by decide)
    (by decide) (by decide) (by decide) rfl).2

/-! ### Claim C7 -/

/-- Spec notion of a path lying within the root subtree: the root itself or a
proper descendant (root plus a separator). -/
def inSubtree (root p : List Char) : Bool :=
  (p == root) || startswith p (root ++ "/".data)

def fs7 : FS := ⟨[⟨"/rx".data, true, 0, 5, none⟩, ⟨"/rx/g".data, false, 2, 2, none⟩]⟩

def db7 : List Row := [⟨"r".data, "/".data, -2, 0⟩, ⟨"g".data, "/rx".data, 2, 2⟩]

def tr7 : List Event :=
  [Event.listing "/rx".data, Event.setMtime "rx".data "/".data 5, Event.commit]

/-- C7: refuted.  With root `/r`, the row stored under the sibling directory
`/rx` (whose path merely begins with `/r` as a string prefix but lies outside
the `/r` subtree) is fetched and processed: the run emits a directory listing
for `/rx`. -/
theorem C7_sibling_prefix_processed :
    update_db fs7 9 db7 "/r".data = .ok (some (db7, tr7)) ∧
    Event.listing "/rx".data ∈ tr7 ∧
    inSubtree "/r".data "/rx".data = false :=
  ⟨rfl, List.mem_cons_self _ _, rfl⟩

/-- C7 (amended): the traversal driver decides by raw string prefix, not by
subtree membership: it stops exactly at the first fetched row whose path does
not extend the root path as a string prefix, and it processes any row whose
path does, including rows outside the root subtree such as a sibling
directory obtained by extending the root's last component. -/
theorem C7_amended_prefix_rule :
    ∀ (fs : FS) (dp : List Char) (fuel : Nat) (st : SyncState) (r : Row) (cursor : List Row),
      (startswith r.path dp = false →
        update_db_loop fs dp (fuel + 1) st (some r) cursor = .ok (some (st, []))) ∧
      (∀ so st2 evs2, startswith r.path dp = true →
        update_db_subdir fs st r.path (some r) cursor = .ok so →
        update_db_loop fs dp fuel so.st so.row so.cursor = .ok (some (st2, evs2)) →
        update_db_loop fs dp (fuel + 1) st (some r) cursor =
          .ok (some (st2, so.evs ++ evs2))) := by
  intro fs dp fuel st r cursor
  constructor
  · intro h
    simp [update_db_loop, h]
  · intro so st2 evs2 ha hso hloop
    rw [update_db_loop, if_pos ha, hso]
    dsimp only
    rw [hloop]

theorem C7_amended_prefix_rule_witness :
    update_db_loop fs7 "/r".data 1 ⟨db7, db7⟩ (some ⟨"q".data, "/q".data, 1, 1⟩) [] =
      .ok (some (⟨db7, db7⟩, [])) :=
  (C7_amended_prefix_rule fs7 "/r".data 0 ⟨db7, db7⟩ ⟨"q".data, "/q".data, 1, 1⟩ []).1
    (by decide)

/-! ### Claim C6 -/

theorem mergeLoop_no_commit (fs : FS) (sp : List Char) (fuel : Nat) (table : List Row)
    (names : List (List Char)) (row : Option Row) (cursor : List Row) (refresh : Bool) :
    ∀ (mo : MergeOut),
      mergeLoop fs sp fuel table names row cursor refresh = .ok mo →
      Event.commit ∉ mo.evs := by
  induction fuel, table, names, row, cursor, refresh using mergeLoop.induct fs sp with
  | case1 table names row cursor refresh =>
    intro mo hmo
    rw [mergeLoop] at hmo
    injection hmo with h
    subst h
    simp
  | case2 fuel table cursor refresh =>
    intro mo hmo
    rw [mergeLoop] at hmo
    injection hmo with h
    subst h
    simp
  | case4 fuel table cursor refresh r hp =>
    intro mo hmo
    rw [mergeLoop, if_neg hp] at hmo
    injection hmo with h
    subst h
    simp
  | case3 fuel table cursor refresh r hp ih =>
    intro mo hmo
    rw [mergeLoop, if_pos hp] at hmo
    cases hrec : mergeLoop fs sp fuel (delRow table r.name r.path) [] cursor.head? cursor.tail refresh with
    | error e => rw [hrec] at hmo; simp [addEvs] at hmo
    | ok mo2 =>
      rw [hrec] at hmo
      simp only [addEvs] at hmo
      injection hmo with h
      subst h
      simpa using ih mo2 hrec
  | case5 fuel table cursor refresh n ns e hins =>
    intro mo hmo
    rw [mergeLoop] at hmo
    rw [hins] at hmo
    simp at hmo
  | case6 fuel table cursor refresh n ns table2 dirIns evs1 hins ih =>
    intro mo hmo
    rw [mergeLoop] at hmo
    rw [hins] at hmo
    dsimp only at hmo
    cases hrec : mergeLoop fs sp fuel table2 ns none cursor (refresh || dirIns) with
    | error e => rw [hrec] at hmo; simp [addEvs] at hmo
    | ok mo2 =>
      rw [hrec] at hmo
      simp only [addEvs] at hmo
      injection hmo with h
      subst h
      have h2 := ih mo2 hrec
      rcases insertStep_cases hins with ⟨z, m, hstat, hout⟩ | ⟨z, m, hstat, hout⟩ <;>
        (simp only [Prod.mk.injEq] at hout; obtain ⟨-, -, hevs⟩ := hout; subst hevs;
         simpa using h2)
  | case7 fuel table cursor refresh ns r hp ih =>
    intro mo hmo
    rw [mergeLoop, if_pos hp, if_pos rfl] at hmo
    exact ih mo hmo
  | case8 fuel table cursor refresh n ns r hp hn hlt e hins =>
    intro mo hmo
    rw [mergeLoop, if_pos hp, if_neg hn, if_pos hlt, hins] at hmo
    simp at hmo
  | case11 fuel table cursor refresh n ns r hp e hins =>
    intro mo hmo
    rw [mergeLoop, if_neg hp, hins] at hmo
    simp at hmo
  | case10 fuel table cursor refresh n ns r hp hn hlt ih =>
    intro mo hmo
    rw [mergeLoop, if_pos hp, if_neg hn, if_neg hlt] at hmo
    cases hrec : mergeLoop fs sp fuel (delRow table r.name r.path) (n :: ns) cursor.head? cursor.tail refresh with
    | error e => rw [hrec] at hmo; simp [addEvs] at hmo
    | ok mo2 =>
      rw [hrec] at hmo
      simp only [addEvs] at hmo
      injection hmo with h
      subst h
      simpa using ih mo2 hrec
  | case9 fuel table cursor refresh n ns r hp hn hlt table2 dirIns evs1 hins ih =>
    intro mo hmo
    rw [mergeLoop, if_pos hp, if_neg hn, if_pos hlt, hins] at hmo
    dsimp only at hmo
    cases hrec : mergeLoop fs sp fuel table2 ns (some r) cursor (refresh || dirIns) with
    | error e => rw [hrec] at hmo; simp [addEvs] at hmo
    | ok mo2 =>
      rw [hrec] at hmo
      simp only [addEvs] at hmo
      injection hmo with h
      subst h
      have h2 := ih mo2 hrec
      rcases insertStep_cases hins with ⟨z, m, hstat, hout⟩ | ⟨z, m, hstat, hout⟩ <;>
        (simp only [Prod.mk.injEq] at hout; obtain ⟨-, -, hevs⟩ := hout; subst hevs;
         simpa using h2)
  | case12 fuel table cursor refresh n ns r hp table2 dirIns evs1 hins ih =>
    intro mo hmo
    rw [mergeLoop, if_neg hp] at hmo
    rw [hins] at hmo
    dsimp only at hmo
    cases hrec : mergeLoop fs sp fuel table2 ns (some r) cursor (refresh || dirIns) with
    | error e => rw [hrec] at hmo; simp [addEvs] at hmo
    | ok mo2 =>
      rw [hrec] at hmo
      simp only [addEvs] at hmo
      injection hmo with h
      subst h
      have h2 := ih mo2 hrec
      rcases insertStep_cases hins with ⟨z, m, hstat, hout⟩ | ⟨z, m, hstat, hout⟩ <;>
        (simp only [Prod.mk.injEq] at hout; obtain ⟨-, -, hevs⟩ := hout; subst hevs;
         simpa using h2)

/-- The commit discipline inside the traversal body: every commit on the
write connection is immediately followed by the read-cursor re-seek of the
refresh path. -/
def commitFollowedBySeek : List Event → Bool
  | [] => true
  | Event.commit :: rest =>
    (match rest with
     | Event.seek _ :: _ => true
     | _ => false) && commitFollowedBySeek rest
  | _ :: rest => commitFollowedBySeek rest

theorem commitFollowedBySeek_cons_of_ne {e : Event} {l : List Event}
    (h : e ≠ Event.commit) :
    commitFollowedBySeek (e :: l) = commitFollowedBySeek l := by
  cases e with
  | commit => exact absurd rfl h
  | listing p => rfl
  | insert r => rfl
  | delete n p => rfl
  | setMtime n p m => rfl
  | seek p => rfl

theorem commitFollowedBySeek_append_of_commitFree {a b : List Event}
    (h : Event.commit ∉ a) :
    commitFollowedBySeek (a ++ b) = commitFollowedBySeek b := by
  induction a with
  | nil => rfl
  | cons e t ih =>
    have he : e ≠ Event.commit := fun hq => h (hq ▸ List.mem_cons_self e t)
    rw [List.cons_append, commitFollowedBySeek_cons_of_ne he,
      ih (fun hm => h (List.mem_cons_of_mem e hm))]

theorem commitFollowedBySeek_commit_seek (p : List Char) (l : List Event) :
    commitFollowedBySeek (Event.commit :: Event.seek p :: l) =
      commitFollowedBySeek l := by
  rw [commitFollowedBySeek]
  simp only [Bool.true_and]
  exact commitFollowedBySeek_cons_of_ne (by simp) (l := l) (e := Event.seek p)

theorem update_db_subdir_evs_good (fs : FS) (st : SyncState) (sp : List Char)
    (row : Option Row) (cursor : List Row) (so : SubOut)
    (hok : update_db_subdir fs st sp row cursor = .ok so) (rest : List Event) :
    commitFollowedBySeek (so.evs ++ rest) = commitFollowedBySeek rest := by
  unfold update_db_subdir at hok
  dsimp only at hok
  split at hok
  · exact absurd hok (by simp)
  · rename_i t ht
    split at hok
    · split at hok
      · exact absurd hok (by simp)
      · rename_i names hnames
        split at hok
        · exact absurd hok (by simp)
        · rename_i mo hmo
          have hnc := mergeLoop_no_commit _ _ _ _ _ _ _ _ mo hmo
          split at hok
          · injection hok with h
            subst h
            dsimp only
            simp only [List.cons_append, List.nil_append, List.append_assoc]
            rw [commitFollowedBySeek_cons_of_ne (by simp),
              commitFollowedBySeek_append_of_commitFree hnc,
              commitFollowedBySeek_cons_of_ne (by simp),
              commitFollowedBySeek_commit_seek]
          · injection hok with h
            subst h
            dsimp only
            simp only [List.cons_append, List.nil_append, List.append_assoc]
            rw [commitFollowedBySeek_cons_of_ne (by simp),
              commitFollowedBySeek_append_of_commitFree hnc,
              commitFollowedBySeek_cons_of_ne (by simp)]
    · injection hok with h
      subst h
      dsimp only
      simp only [List.cons_append, List.nil_append]
      rw [commitFollowedBySeek_cons_of_ne (by simp)]

theorem update_db_loop_evs_good (fs : FS) (dp : List Char) :
    ∀ (fuel : Nat) (st : SyncState) (row : Option Row) (cursor : List Row)
      (st2 : SyncState) (evs : List Event),
      update_db_loop fs dp fuel st row cursor = .ok (some (st2, evs)) →
      ∀ rest, commitFollowedBySeek (evs ++ rest) = commitFollowedBySeek rest := by
  intro fuel
  induction fuel with
  | zero =>
    intro st row cursor st2 evs h rest
    simp [update_db_loop] at h
  | succ fuel ih =>
    intro st row cursor st2 evs h rest
    rw [update_db_loop.eq_def] at h
    dsimp only at h
    cases row with
    | none =>
      dsimp only at h
      simp only [Except.ok.injEq, Option.some.injEq, Prod.mk.injEq] at h
      obtain ⟨-, h2⟩ := h
      rw [← h2]
      rfl
    | some r =>
      dsimp only at h
      by_cases hs : startswith r.path dp = true
      · rw [if_pos hs] at h
        cases hsub : update_db_subdir fs st r.path (some r) cursor with
        | error e => rw [hsub] at h; simp at h
        | ok so =>
          rw [hsub] at h
          dsimp only at h
          cases hrec : update_db_loop fs dp fuel so.st so.row so.cursor with
          | error e => rw [hrec] at h; simp at h
          | ok o =>
            cases o with
            | none => rw [hrec] at h; simp at h
            | some p =>
              obtain ⟨st3, evs3⟩ := p
              rw [hrec] at h
              simp only [Except.ok.injEq, Option.some.injEq, Prod.mk.injEq] at h
              obtain ⟨-, h2⟩ := h
              rw [← h2, List.append_assoc,
                update_db_subdir_evs_good fs st r.path (some r) cursor so hsub]
              exact ih so.st so.row so.cursor st3 evs3 hrec rest
      · rw [if_neg hs] at h
        simp only [Except.ok.injEq, Option.some.injEq, Prod.mk.injEq] at h
        obtain ⟨-, h2⟩ := h
        rw [← h2]
        rfl

def isDirInsert : Event → Bool
  | Event.insert r => r.size == -1
  | _ => false

/-- The commit policy of the claim: a commit may occur only as the final
event of the run, or after the merge pass inserted a new directory row
(size `-1`) earlier in the run.  `seen` records whether a directory insert
has occurred so far. -/
def commitsJustified : List Event → Bool → Bool
  | [], _ => true
  | Event.commit :: rest, seen => (rest.isEmpty || seen) && commitsJustified rest seen
  | e :: rest, seen => commitsJustified rest (seen || isDirInsert e)

/-- Classifier for the events the merge loop itself can emit: only row
inserts and row deletes. -/
def isMergeEv : Event → Bool
  | Event.insert _ => true
  | Event.delete _ _ => true
  | _ => false

theorem mergeLoop_evs_facts (fs : FS) (sp : List Char) (fuel : Nat) (table : List Row)
    (names : List (List Char)) (row : Option Row) (cursor : List Row) (refresh : Bool) :
    ∀ (mo : MergeOut),
      mergeLoop fs sp fuel table names row cursor refresh = .ok mo →
      (∀ e ∈ mo.evs, isMergeEv e = true) ∧
      (mo.refresh = true → refresh = true ∨ mo.evs.any isDirInsert = true) := by
  induction fuel, table, names, row, cursor, refresh using mergeLoop.induct fs sp with
  | case1 table names row cursor refresh =>
    intro mo hmo
    rw [mergeLoop] at hmo
    injection hmo with h
    subst h
    exact ⟨by simp, fun h => Or.inl h⟩
  | case2 fuel table cursor refresh =>
    intro mo hmo
    rw [mergeLoop] at hmo
    injection hmo with h
    subst h
    exact ⟨by simp, fun h => Or.inl h⟩
  | case4 fuel table cursor refresh r hp =>
    intro mo hmo
    rw [mergeLoop, if_neg hp] at hmo
    injection hmo with h
    subst h
    exact ⟨by simp, fun h => Or.inl h⟩
  | case3 fuel table cursor refresh r hp ih =>
    intro mo hmo
    rw [mergeLoop, if_pos hp] at hmo
    cases hrec : mergeLoop fs sp fuel (delRow table r.name r.path) [] cursor.head? cursor.tail refresh with
    | error e => rw [hrec] at hmo; simp [addEvs] at hmo
    | ok mo2 =>
      rw [hrec] at hmo
      simp only [addEvs] at hmo
      injection hmo with h
      subst h
      obtain ⟨h1, h2⟩ := ih mo2 hrec
      refine ⟨?_, ?_⟩
      · intro e he
        rcases List.mem_append.mp he with hm | hm
        · simp only [List.mem_singleton] at hm
          subst hm
          rfl
        · exact h1 e hm
      · intro hr
        rcases h2 hr with h | h
        · exact Or.inl h
        · exact Or.inr (by simp [List.any_append, h])
  | case5 fuel table cursor refresh n ns e hins =>
    intro mo hmo
    rw [mergeLoop] at hmo
    rw [hins] at hmo
    simp at hmo
  | case6 fuel table cursor refresh n ns table2 dirIns evs1 hins ih =>
    intro mo hmo
    rw [mergeLoop] at hmo
    rw [hins] at hmo
    dsimp only at hmo
    cases hrec : mergeLoop fs sp fuel table2 ns none cursor (refresh || dirIns) with
    | error e => rw [hrec] at hmo; simp [addEvs] at hmo
    | ok mo2 =>
      rw [hrec] at hmo
      simp only [addEvs] at hmo
      injection hmo with h
      subst h
      obtain ⟨h1, h2⟩ := ih mo2 hrec
      rcases insertStep_cases hins with ⟨z, m, hstat, hout⟩ | ⟨z, m, hstat, hout⟩ <;>
        simp only [Prod.mk.injEq] at hout
      · obtain ⟨-, hdir, hevs⟩ := hout
        subst hevs
        refine ⟨?_, ?_⟩
        · intro e he
          rcases List.mem_append.mp he with hm | hm
          · rcases List.mem_cons.mp hm with hm1 | hm2
            · subst hm1; rfl
            · rcases List.mem_cons.mp hm2 with hm3 | hm4
              · subst hm3; rfl
              · exact absurd hm4 (List.not_mem_nil e)
          · exact h1 e hm
        · intro hr
          exact Or.inr (by simp [List.any_append, List.any_cons, isDirInsert])
      · obtain ⟨-, hdir, hevs⟩ := hout
        subst hevs
        subst hdir
        refine ⟨?_, ?_⟩
        · intro e he
          rcases List.mem_append.mp he with hm | hm
          · simp only [List.mem_singleton] at hm
            subst hm
            rfl
          · exact h1 e hm
        · intro hr
          rcases h2 hr with h | h
          · simp only [Bool.or_false] at h
            exact Or.inl h
          · exact Or.inr (by simp [List.any_append, h])
  | case7 fuel table cursor refresh ns r hp ih =>
    intro mo hmo
    rw [mergeLoop, if_pos hp, if_pos rfl] at hmo
    exact ih mo hmo
  | case8 fuel table cursor refresh n ns r hp hn hlt e hins =>
    intro mo hmo
    rw [mergeLoop, if_pos hp, if_neg hn, if_pos hlt, hins] at hmo
    simp at hmo
  | case11 fuel table cursor refresh n ns r hp e hins =>
    intro mo hmo
    rw [mergeLoop, if_neg hp, hins] at hmo
    simp at hmo
  | case10 fuel table cursor refresh n ns r hp hn hlt ih =>
    intro mo hmo
    rw [mergeLoop, if_pos hp, if_neg hn, if_neg hlt] at hmo
    cases hrec : mergeLoop fs sp fuel (delRow table r.name r.path) (n :: ns) cursor.head? cursor.tail refresh with
    | error e => rw [hrec] at hmo; simp [addEvs] at hmo
    | ok mo2 =>
      rw [hrec] at hmo
      simp only [addEvs] at hmo
      injection hmo with h
      subst h
      obtain ⟨h1, h2⟩ := ih mo2 hrec
      refine ⟨?_, ?_⟩
      · intro e he
        rcases List.mem_append.mp he with hm | hm
        · simp only [List.mem_singleton] at hm
          subst hm
          rfl
        · exact h1 e hm
      · intro hr
        rcases h2 hr with h | h
        · exact Or.inl h
        · exact Or.inr (by simp [List.any_append, h])
  | case9 fuel table cursor refresh n ns r hp hn hlt table2 dirIns evs1 hins ih =>
    intro mo hmo
    rw [mergeLoop, if_pos hp, if_neg hn, if_pos hlt, hins] at hmo
    dsimp only at hmo
    cases hrec : mergeLoop fs sp fuel table2 ns (some r) cursor (refresh || dirIns) with
    | error e => rw [hrec] at hmo; simp [addEvs] at hmo
    | ok mo2 =>
      rw [hrec] at hmo
      simp only [addEvs] at hmo
      injection hmo with h
      subst h
      obtain ⟨h1, h2⟩ := ih mo2 hrec
      rcases insertStep_cases hins with ⟨z, m, hstat, hout⟩ | ⟨z, m, hstat, hout⟩ <;>
        simp only [Prod.mk.injEq] at hout
      · obtain ⟨-, hdir, hevs⟩ := hout
        subst hevs
        refine ⟨?_, ?_⟩
        · intro e he
          rcases List.mem_append.mp he with hm | hm
          · rcases List.mem_cons.mp hm with hm1 | hm2
            · subst hm1; rfl
            · rcases List.mem_cons.mp hm2 with hm3 | hm4
              · subst hm3; rfl
              · exact absurd hm4 (List.not_mem_nil e)
          · exact h1 e hm
        · intro hr
          exact Or.inr (by simp [List.any_append, List.any_cons, isDirInsert])
      · obtain ⟨-, hdir, hevs⟩ := hout
        subst hevs
        subst hdir
        refine ⟨?_, ?_⟩
        · intro e he
          rcases List.mem_append.mp he with hm | hm
          · simp only [List.mem_singleton] at hm
            subst hm
            rfl
          · exact h1 e hm
        · intro hr
          rcases h2 hr with h | h
          · simp only [Bool.or_false] at h
            exact Or.inl h
          · exact Or.inr (by simp [List.any_append, h])
  | case12 fuel table cursor refresh n ns r hp table2 dirIns evs1 hins ih =>
    intro mo hmo
    rw [mergeLoop, if_neg hp] at hmo
    rw [hins] at hmo
    dsimp only at hmo
    cases hrec : mergeLoop fs sp fuel table2 ns (some r) cursor (refresh || dirIns) with
    | error e => rw [hrec] at hmo; simp [addEvs] at hmo
    | ok mo2 =>
      rw [hrec] at hmo
      simp only [addEvs] at hmo
      injection hmo with h
      subst h
      obtain ⟨h1, h2⟩ := ih mo2 hrec
      rcases insertStep_cases hins with ⟨z, m, hstat, hout⟩ | ⟨z, m, hstat, hout⟩ <;>
        simp only [Prod.mk.injEq] at hout
      · obtain ⟨-, hdir, hevs⟩ := hout
        subst hevs
        refine ⟨?_, ?_⟩
        · intro e he
          rcases List.mem_append.mp he with hm | hm
          · rcases List.mem_cons.mp hm with hm1 | hm2
            · subst hm1; rfl
            · rcases List.mem_cons.mp hm2 with hm3 | hm4
              · subst hm3; rfl
              · exact absurd hm4 (List.not_mem_nil e)
          · exact h1 e hm
        · intro hr
          exact Or.inr (by simp [List.any_append, List.any_cons, isDirInsert])
      · obtain ⟨-, hdir, hevs⟩ := hout
        subst hevs
        subst hdir
        refine ⟨?_, ?_⟩
        · intro e he
          rcases List.mem_append.mp he with hm | hm
          · simp only [List.mem_singleton] at hm
            subst hm
            rfl
          · exact h1 e hm
        · intro hr
          rcases h2 hr with h | h
          · simp only [Bool.or_false] at h
            exact Or.inl h
          · exact Or.inr (by simp [List.any_append, h])

/-- Scanner state over the traversal body: `top` between per-directory passes,
`pass p seen` inside the merge pass that listed directory `p`, with `seen`
recording whether this pass has inserted a new-directory row (size `-1`). -/
inductive ScanMode where
  | top : ScanMode
  | pass (p : List Char) (seen : Bool) : ScanMode

/-- Recognizer of the commit policy over the traversal body (the events
between initialization and the final unconditional commit): a pass is either
a bare skip re-seek, or `listing p`, then merge inserts/deletes, then the
closing `setMtime`; a commit may appear only right after that `setMtime`,
only when the pass inserted a new-directory row (size `-1`), and must be
immediately followed by the read-cursor re-seek of that pass's directory. -/
def goodBodyAux : ScanMode → List Event → Bool
  | ScanMode.top, [] => true
  | ScanMode.top, Event.seek _ :: rest => goodBodyAux ScanMode.top rest
  | ScanMode.top, Event.listing p :: rest => goodBodyAux (ScanMode.pass p false) rest
  | ScanMode.top, _ => false
  | ScanMode.pass p seen, Event.insert r :: rest =>
    goodBodyAux (ScanMode.pass p (seen || isDirInsert (Event.insert r))) rest
  | ScanMode.pass p seen, Event.delete _ _ :: rest =>
    goodBodyAux (ScanMode.pass p seen) rest
  | ScanMode.pass p seen, Event.setMtime _ _ _ :: Event.commit :: Event.seek q :: rest =>
    seen && decide (q = p) && goodBodyAux ScanMode.top rest
  | ScanMode.pass _ _, Event.setMtime _ _ _ :: rest => goodBodyAux ScanMode.top rest
  | ScanMode.pass _ _, _ => false

def goodBody (l : List Event) : Bool := goodBodyAux ScanMode.top l

/-- True when the list does not begin with a commit event. -/
def notCommitHead : List Event → Bool
  | Event.commit :: _ => false
  | _ => true

theorem goodBodyAux_top_listing (p : List Char) (l : List Event) :
    goodBodyAux ScanMode.top (Event.listing p :: l) =
      goodBodyAux (ScanMode.pass p false) l := rfl

theorem goodBodyAux_pass_append (p : List Char) :
    ∀ (evs : List Event), (∀ e ∈ evs, isMergeEv e = true) →
      ∀ (seen : Bool) (rest : List Event),
        goodBodyAux (ScanMode.pass p seen) (evs ++ rest) =
          goodBodyAux (ScanMode.pass p (seen || evs.any isDirInsert)) rest := by
  intro evs
  induction evs with
  | nil =>
    intro _ seen rest
    simp
  | cons e t ih =>
    intro hall seen rest
    have he : isMergeEv e = true := hall e (List.mem_cons_self e t)
    have ht : ∀ x ∈ t, isMergeEv x = true := fun x hx => hall x (List.mem_cons_of_mem e hx)
    cases e with
    | insert r =>
      rw [List.cons_append]
      have hstep : goodBodyAux (ScanMode.pass p seen) (Event.insert r :: (t ++ rest)) =
          goodBodyAux (ScanMode.pass p (seen || isDirInsert (Event.insert r))) (t ++ rest) := rfl
      rw [hstep, ih ht (seen || isDirInsert (Event.insert r)) rest]
      simp [List.any_cons, Bool.or_assoc]
    | delete nn pp =>
      rw [List.cons_append]
      have hstep : goodBodyAux (ScanMode.pass p seen) (Event.delete nn pp :: (t ++ rest)) =
          goodBodyAux (ScanMode.pass p seen) (t ++ rest) := rfl
      rw [hstep, ih ht seen rest]
      simp [List.any_cons, isDirInsert]
    | listing q => simp [isMergeEv] at he
    | setMtime nn pp mm => simp [isMergeEv] at he
    | commit => simp [isMergeEv] at he
    | seek q => simp [isMergeEv] at he

theorem goodBodyAux_setMtime_skip {p : List Char} {seen : Bool} {nn qq : List Char}
    {mm : Int} {rest : List Event} (h : notCommitHead rest = true) :
    goodBodyAux (ScanMode.pass p seen) (Event.setMtime nn qq mm :: rest) =
      goodBodyAux ScanMode.top rest := by
  cases rest with
  | nil => rfl
  | cons e rest2 =>
    cases e with
    | commit => simp [notCommitHead] at h
    | listing x => rfl
    | insert x => rfl
    | delete x y => rfl
    | setMtime x y z => rfl
    | seek x => rfl

theorem goodBodyAux_setMtime_commit_seek (p : List Char) (seen : Bool) (nn qq : List Char)
    (mm : Int) (rest : List Event) :
    goodBodyAux (ScanMode.pass p seen)
        (Event.setMtime nn qq mm :: Event.commit :: Event.seek p :: rest) =
      (seen && goodBodyAux ScanMode.top rest) := by
  have h : goodBodyAux (ScanMode.pass p seen)
      (Event.setMtime nn qq mm :: Event.commit :: Event.seek p :: rest) =
        (seen && decide (p = p) && goodBodyAux ScanMode.top rest) := rfl
  rw [h]
  simp

theorem update_db_subdir_body_good (fs : FS) (st : SyncState) (sp : List Char)
    (row : Option Row) (cursor : List Row) (so : SubOut)
    (hok : update_db_subdir fs st sp row cursor = .ok so) (rest : List Event)
    (hnc : notCommitHead rest = true) :
    goodBodyAux ScanMode.top (so.evs ++ rest) = goodBodyAux ScanMode.top rest ∧
    notCommitHead (so.evs ++ rest) = true := by
  unfold update_db_subdir at hok
  dsimp only at hok
  split at hok
  · exact absurd hok (by simp)
  · rename_i t ht
    split at hok
    · split at hok
      · exact absurd hok (by simp)
      · rename_i names hnames
        split at hok
        · exact absurd hok (by simp)
        · rename_i mo hmo
          obtain ⟨hall, himp⟩ := mergeLoop_evs_facts fs sp _ st.table names row cursor false mo hmo
          split at hok
          · rename_i hrefresh
            injection hok with h
            subst h
            dsimp only
            constructor
            · simp only [List.cons_append, List.nil_append, List.append_assoc]
              rw [goodBodyAux_top_listing, goodBodyAux_pass_append sp mo.evs hall false]
              have hany : mo.evs.any isDirInsert = true := by
                rcases himp hrefresh with hq | hq
                · exact absurd hq (by simp)
                · exact hq
              rw [hany]
              simp only [Bool.false_or]
              rw [goodBodyAux_setMtime_commit_seek]
              simp
            · rfl
          · rename_i hrefresh
            injection hok with h
            subst h
            dsimp only
            constructor
            · simp only [List.cons_append, List.nil_append, List.append_assoc]
              rw [goodBodyAux_top_listing, goodBodyAux_pass_append sp mo.evs hall false,
                goodBodyAux_setMtime_skip hnc]
            · rfl
    · injection hok with h
      subst h
      dsimp only
      exact ⟨rfl, rfl⟩

theorem update_db_loop_body_good (fs : FS) (dp : List Char) :
    ∀ (fuel : Nat) (st : SyncState) (row : Option Row) (cursor : List Row)
      (st2 : SyncState) (evs : List Event),
      update_db_loop fs dp fuel st row cursor = .ok (some (st2, evs)) →
      ∀ rest, notCommitHead rest = true →
        goodBodyAux ScanMode.top (evs ++ rest) = goodBodyAux ScanMode.top rest ∧
        notCommitHead (evs ++ rest) = true := by
  intro fuel
  induction fuel with
  | zero =>
    intro st row cursor st2 evs h rest hnc
    simp [update_db_loop] at h
  | succ fuel ih =>
    intro st row cursor st2 evs h rest hnc
    rw [update_db_loop.eq_def] at h
    dsimp only at h
    cases row with
    | none =>
      dsimp only at h
      simp only [Except.ok.injEq, Option.some.injEq, Prod.mk.injEq] at h
      obtain ⟨-, h2⟩ := h
      rw [← h2]
      exact ⟨rfl, hnc⟩
    | some r =>
      dsimp only at h
      by_cases hs : startswith r.path dp = true
      · rw [if_pos hs] at h
        cases hsub : update_db_subdir fs st r.path (some r) cursor with
        | error e => rw [hsub] at h; simp at h
        | ok so =>
          rw [hsub] at h
          dsimp only at h
          cases hrec : update_db_loop fs dp fuel so.st so.row so.cursor with
          | error e => rw [hrec] at h; simp at h
          | ok o =>
            cases o with
            | none => rw [hrec] at h; simp at h
            | some q =>
              obtain ⟨st3, evs3⟩ := q
              rw [hrec] at h
              simp only [Except.ok.injEq, Option.some.injEq, Prod.mk.injEq] at h
              obtain ⟨-, h2⟩ := h
              obtain ⟨he2, hn2⟩ := ih so.st so.row so.cursor st3 evs3 hrec rest hnc
              obtain ⟨hs1, hs2⟩ :=
                update_db_subdir_body_good fs st r.path (some r) cursor so hsub (evs3 ++ rest) hn2
              rw [← h2, List.append_assoc]
              exact ⟨hs1.trans he2, hs2⟩
      · rw [if_neg hs] at h
        simp only [Except.ok.injEq, Option.some.injEq, Prod.mk.injEq] at h
        obtain ⟨-, h2⟩ := h
        rw [← h2]
        exact ⟨rfl, hnc⟩

def fs6 : FS := ⟨[]⟩

def db6 : List Row := [⟨"r".data, "/".data, -2, 1⟩]

def tr6 : List Event :=
  [Event.insert ⟨"r".data, "/".data, -2, 0⟩, Event.insert ⟨".".data, "/r".data, -3, 0⟩,
   Event.commit, Event.listing "/r".data, Event.delete ".".data "/r".data,
   Event.setMtime "r".data "/".data 1, Event.commit]

/-- C6: refuted.  Running a root whose row is absent from the store commits
a third time, right after inserting the root marker and sentinel rows and
before any directory is processed: that commit is neither the final commit
nor preceded by any new-directory insertion of the merge pass. -/
theorem C6_init_commit_extra :
    update_db fs6 9 ([] : List Row) "/r".data = .ok (some (db6, tr6)) ∧
    commitsJustified tr6 false = false :=
  ⟨rfl, rfl⟩

/-- C6 (amended): during one root's run the write connection commits at
exactly these points: (a) inside the traversal body only immediately after a
merge pass that inserted a new-directory row (size `-1`) — the cursor-refresh
case — each such commit immediately followed by the read-cursor re-seek of
that pass's directory (`goodBody`); (b) once, unconditionally, at the end of
the run; and additionally (c) once at initialization, right after inserting
the root marker and sentinel rows, when the store has no row for the root. -/
theorem C6_amended_commit_points :
    ∀ (fs : FS) (fuel : Nat) (db0 : List Row) (dp : List Char)
      (tab : List Row) (tr : List Event),
      update_db fs fuel db0 dp = .ok (some (tab, tr)) →
      ∃ body, goodBody body = true ∧ commitFollowedBySeek body = true ∧
        (((lookupRow db0 (dirnameL dp) (basenameL dp)).isSome = true ∧
            tr = body ++ [Event.commit]) ∨
         (lookupRow db0 (dirnameL dp) (basenameL dp) = none ∧
            tr = Event.insert ⟨basenameL dp, dirnameL dp, -2, 0⟩ ::
                 Event.insert ⟨".".data, dp, -3, 0⟩ :: Event.commit ::
                 (body ++ [Event.commit]))) := by
  intro fs fuel db0 dp tab tr hok
  unfold update_db at hok
  dsimp only at hok
  cases hlk : lookupRow db0 (dirnameL dp) (basenameL dp) with
  | some r0 =>
    rw [hlk] at hok
    dsimp only at hok
    cases hloop : update_db_loop fs dp fuel ⟨db0, db0⟩ (queryGE db0 dp).head?
        (queryGE db0 dp).tail with
    | error e => rw [hloop] at hok; simp at hok
    | ok o =>
      cases o with
      | none => rw [hloop] at hok; simp at hok
      | some p =>
        obtain ⟨st, evs⟩ := p
        rw [hloop] at hok
        simp only [Except.ok.injEq, Option.some.injEq, Prod.mk.injEq] at hok
        obtain ⟨-, h2⟩ := hok
        refine ⟨evs, ?_, ?_, Or.inl ⟨rfl, by rw [← h2]; simp⟩⟩
        · obtain ⟨hg, -⟩ := update_db_loop_body_good fs dp fuel ⟨db0, db0⟩
            (queryGE db0 dp).head? (queryGE db0 dp).tail st evs hloop [] rfl
          rw [List.append_nil] at hg
          unfold goodBody
          rw [hg]
          rfl
        · have := update_db_loop_evs_good fs dp fuel ⟨db0, db0⟩ (queryGE db0 dp).head?
            (queryGE db0 dp).tail st evs hloop []
          simpa using this
  | none =>
    rw [hlk] at hok
    dsimp only at hok
    cases hloop : update_db_loop fs dp fuel
        ⟨db0 ++ [⟨basenameL dp, dirnameL dp, -2, 0⟩, ⟨".".data, dp, -3, 0⟩],
         db0 ++ [⟨basenameL dp, dirnameL dp, -2, 0⟩, ⟨".".data, dp, -3, 0⟩]⟩
        (queryGE (db0 ++ [⟨basenameL dp, dirnameL dp, -2, 0⟩, ⟨".".data, dp, -3, 0⟩]) dp).head?
        (queryGE (db0 ++ [⟨basenameL dp, dirnameL dp, -2, 0⟩, ⟨".".data, dp, -3, 0⟩]) dp).tail with
    | error e => rw [hloop] at hok; simp at hok
    | ok o =>
      cases o with
      | none => rw [hloop] at hok; simp at hok
      | some p =>
        obtain ⟨st, evs⟩ := p
        rw [hloop] at hok
        simp only [Except.ok.injEq, Option.some.injEq, Prod.mk.injEq] at hok
        obtain ⟨-, h2⟩ := hok
        refine ⟨evs, ?_, ?_, Or.inr ⟨rfl, by rw [← h2]; simp⟩⟩
        · obtain ⟨hg, -⟩ := update_db_loop_body_good fs dp fuel _ _ _ st evs hloop [] rfl
          rw [List.append_nil] at hg
          unfold goodBody
          rw [hg]
          rfl
        · have := update_db_loop_evs_good fs dp fuel _ _ _ st evs hloop []
          simpa using this

theorem C6_amended_commit_points_witness :
    ∃ body, goodBody body = true ∧ commitFollowedBySeek body = true ∧
      (((lookupRow ([] : List Row) (dirnameL "/r".data) (basenameL "/r".data)).isSome = true ∧
          tr6 = body ++ [Event.commit]) ∨
       (lookupRow ([] : List Row) (dirnameL "/r".data) (basenameL "/r".data) = none ∧
          tr6 = Event.insert ⟨basenameL "/r".data, dirnameL "/r".data, -2, 0⟩ ::
               Event.insert ⟨".".data, "/r".data, -3, 0⟩ :: Event.commit ::
               (body ++ [Event.commit]))) :=
  C6_amended_commit_points fs6 9 [] "/r".data db6 tr6 rfl

/-! ### Claim C2 -/

def isWrite : Event → Bool
  | Event.insert _ => true
  | Event.delete _ _ => true
  | Event.setMtime _ _ _ => true
  | _ => false

/-- The parent-keyed row of directory `p` stores an mtime at least the current
on-disk mtime of `p`: the skip optimizer will not re-diff `p`. -/
def PostRow (fs : FS) (tab : List Row) (p : List Char) : Prop :=
  ∃ t m, fs.getmtimeMs p = .ok t ∧
    lookupMtime tab (dirnameL p) (basenameL p) = some m ∧ t ≤ m

theorem head_tail_mem {l : List Row} {u : Row}
    (hu : u ∈ l.head?.toList ++ l.tail) : u ∈ l := by
  cases l with
  | nil => simp at hu
  | cons a t => simpa using hu

theorem update_db_subdir_skip {fs : FS} {st : SyncState} {sp : List Char} {row : Option Row}
    {cursor : List Row} {t m : Int}
    (hget : fs.getmtimeMs sp = .ok t)
    (hlook : lookupMtime st.table (dirnameL sp) (basenameL sp) = some m)
    (hle : t ≤ m) :
    update_db_subdir fs st sp row cursor =
      .ok ⟨st, (queryGT st.committed sp).head?, (queryGT st.committed sp).tail,
        [Event.seek sp]⟩ := by
  unfold update_db_subdir
  dsimp only
  rw [hget, hlook]
  simp only [Option.getD_some]
  rw [if_neg (by omega : ¬ m < t)]

theorem update_db_loop_skip_only (fs : FS) (dp : List Char) (db : List Row)
    (hpost : ∀ p, startswith p dp = true → (∃ u ∈ db, u.path = p) → PostRow fs db p) :
    ∀ (fuel : Nat) (row : Option Row) (cursor : List Row),
      (∀ u ∈ row.toList ++ cursor, u ∈ db) →
      ∀ st2 evs, update_db_loop fs dp fuel ⟨db, db⟩ row cursor = .ok (some (st2, evs)) →
        evs.filter (fun e => isWrite e) = [] ∧ st2 = ⟨db, db⟩ := by
  intro fuel
  induction fuel with
  | zero =>
    intro row cursor hmem st2 evs h
    simp [update_db_loop] at h
  | succ fuel ih =>
    intro row cursor hmem st2 evs h
    rw [update_db_loop.eq_def] at h
    dsimp only at h
    cases row with
    | none =>
      dsimp only at h
      simp only [Except.ok.injEq, Option.some.injEq, Prod.mk.injEq] at h
      obtain ⟨h1, h2⟩ := h
      refine ⟨?_, h1.symm⟩
      rw [← h2]
      rfl
    | some r =>
      dsimp only at h
      by_cases hs : startswith r.path dp = true
      · rw [if_pos hs] at h
        have hr : r ∈ db := hmem r (by simp)
        obtain ⟨t, m, hget, hlook, hle⟩ := hpost r.path hs ⟨r, hr, rfl⟩
        rw [update_db_subdir_skip hget hlook hle] at h
        dsimp only at h
        cases hrec : update_db_loop fs dp fuel ⟨db, db⟩ (queryGT db r.path).head?
            (queryGT db r.path).tail with
        | error e => rw [hrec] at h; simp at h
        | ok o =>
          cases o with
          | none => rw [hrec] at h; simp at h
          | some p =>
            obtain ⟨st3, evs3⟩ := p
            rw [hrec] at h
            simp only [Except.ok.injEq, Option.some.injEq, Prod.mk.injEq] at h
            obtain ⟨h1, h2⟩ := h
            have hmem2 : ∀ u ∈ ((queryGT db r.path).head?).toList ++ (queryGT db r.path).tail,
                u ∈ db := fun u hu => (mem_queryGT.mp (head_tail_mem hu)).1
            have hres := ih ((queryGT db r.path).head?) ((queryGT db r.path).tail) hmem2
              st3 evs3 hrec
            refine ⟨?_, h1 ▸ hres.2⟩
            rw [← h2, List.filter_append, hres.1]
            rfl
      · rw [if_neg hs] at h
        simp only [Except.ok.injEq, Option.some.injEq, Prod.mk.injEq] at h
        obtain ⟨h1, h2⟩ := h
        refine ⟨?_, h1.symm⟩
        rw [← h2]
        rfl

theorem update_db_second_run (fs : FS) (dp : List Char) (db : List Row)
    (hroot : (lookupRow db (dirnameL dp) (basenameL dp)).isSome = true)
    (hpost : ∀ p, startswith p dp = true → (∃ u ∈ db, u.path = p) → PostRow fs db p) :
    ∀ fuel db2 tr2, update_db fs fuel db dp = .ok (some (db2, tr2)) →
      tr2.filter (fun e => isWrite e) = [] ∧ db2 = db := by
  intro fuel db2 tr2 h
  unfold update_db at h
  dsimp only at h
  cases hlk : lookupRow db (dirnameL dp) (basenameL dp) with
  | none => rw [hlk] at hroot; simp at hroot
  | some r0 =>
    rw [hlk] at h
    dsimp only at h
    cases hloop : update_db_loop fs dp fuel ⟨db, db⟩ (queryGE db dp).head?
        (queryGE db dp).tail with
    | error e => rw [hloop] at h; simp at h
    | ok o =>
      cases o with
      | none => rw [hloop] at h; simp at h
      | some p =>
        obtain ⟨st, evs⟩ := p
        rw [hloop] at h
        simp only [Except.ok.injEq, Option.some.injEq, Prod.mk.injEq] at h
        obtain ⟨h1, h2⟩ := h
        have hmem : ∀ u ∈ ((queryGE db dp).head?).toList ++ (queryGE db dp).tail, u ∈ db :=
          fun u hu => (mem_queryGE.mp (head_tail_mem hu)).1
        have hres := update_db_loop_skip_only fs dp db hpost fuel _ _ hmem st evs hloop
        constructor
        · rw [← h2]
          simp only [List.nil_append, List.filter_append, hres.1]
          rfl
        · rw [← h1, hres.2]

/-- Strict row order `path ASC, name ASC` (unique keys). -/
def rowlt (u v : Row) : Bool :=
  strLt u.path v.path || (u.path == v.path && strLt u.name v.name)

theorem rowlt_of_rowLe {u v : Row} (hle : rowLe u v = true)
    (hk : ¬(u.path = v.path ∧ u.name = v.name)) : rowlt u v = true := by
  unfold rowLe at hle
  unfold rowlt
  rcases Bool.or_eq_true_iff.mp hle with h | h
  · simp [h]
  · obtain ⟨h1, h2⟩ := Bool.and_eq_true_iff.mp h
    have hpeq : u.path = v.path := by simpa using h1
    have hne : u.name ≠ v.name := fun he => hk ⟨hpeq, he⟩
    have : strLt v.name u.name = false := by simpa using h2
    have := strLt_of_ne_of_not_lt (fun he => hne he.symm) this
    simp [hpeq, this]

theorem pairwise_rowlt_of_rowLe {l : List Row}
    (hle : List.Pairwise (fun a b => rowLe a b = true) l)
    (hnd : nodupKeys l) : List.Pairwise (fun a b => rowlt a b = true) l := by
  induction l with
  | nil => exact List.Pairwise.nil
  | cons a t ih =>
    unfold nodupKeys at hnd
    rw [List.pairwise_cons] at hle hnd ⊢
    exact ⟨fun b hb => rowlt_of_rowLe (hle.1 b hb) (hnd.1 b hb), ih hle.2 hnd.2⟩

theorem rowlt_path_not_lt {u v : Row} (h : rowlt u v = true) :
    strLt v.path u.path = false := by
  unfold rowlt at h
  rcases Bool.or_eq_true_iff.mp h with h | h
  · exact strLt_asymm h
  · obtain ⟨h1, -⟩ := Bool.and_eq_true_iff.mp h
    have : u.path = v.path := by simpa using h1
    rw [← this, strLt_irrefl]

theorem rowlt_path_trans {u v : Row} {q : List Char} (h : rowlt u v = true)
    (hq : strLt q u.path = true) : strLt q v.path = true := by
  unfold rowlt at h
  rcases Bool.or_eq_true_iff.mp h with h | h
  · exact strLt_trans hq h
  · obtain ⟨h1, -⟩ := Bool.and_eq_true_iff.mp h
    have : u.path = v.path := by simpa using h1
    rw [← this]
    exact hq

theorem nodupSp_of_nodupKeys {tab : List Row} {sp : List Char}
    (h : nodupKeys tab) : nodupSp tab sp := by
  refine h.imp ?_
  intro a b hk h1 h2 hn
  exact hk ⟨h1.trans h2.symm, hn⟩

theorem nodupKeys_updMtime {tab : List Row} {n p : List Char} {m : Int}
    (h : nodupKeys tab) : nodupKeys (updMtime tab n p m) := by
  rw [nodupKeys, updMtime_eq_map, List.pairwise_map]
  have fpath : ∀ r : Row,
      (if r.name = n ∧ r.path = p then { r with mtime := m } else r).path = r.path := by
    intro r; by_cases hc : r.name = n ∧ r.path = p <;> simp [hc]
  have fname : ∀ r : Row,
      (if r.name = n ∧ r.path = p then { r with mtime := m } else r).name = r.name := by
    intro r; by_cases hc : r.name = n ∧ r.path = p <;> simp [hc]
  refine h.imp ?_
  intro a b hab hk
  rw [fpath, fpath, fname, fname] at hk
  exact hab hk

theorem mem_insNameSorted {n x : List Char} {l : List (List Char)} :
    x ∈ insNameSorted n l ↔ x = n ∨ x ∈ l := by
  induction l with
  | nil => simp [insNameSorted]
  | cons a t ih =>
    by_cases hc : (!strLt a n) = true
    · rw [insNameSorted, if_pos hc]
      simp
    · rw [insNameSorted, if_neg hc]
      simp only [List.mem_cons, ih]
      tauto

theorem mem_sortNames {x : List Char} {l : List (List Char)} :
    x ∈ sortNames l ↔ x ∈ l := by
  induction l with
  | nil => simp [sortNames]
  | cons a t ih => simp [sortNames, mem_insNameSorted, ih]

theorem insNameSorted_pairwise {n : List Char} {l : List (List Char)}
    (h : List.Pairwise (fun a b => strLt b a = false) l) :
    List.Pairwise (fun a b => strLt b a = false) (insNameSorted n l) := by
  induction l with
  | nil => simp [insNameSorted]
  | cons a t ih =>
    rw [List.pairwise_cons] at h
    by_cases hc : (!strLt a n) = true
    · have hq : strLt a n = false := by simpa using hc
      rw [insNameSorted, if_pos hc, List.pairwise_cons]
      refine ⟨?_, List.pairwise_cons.mpr h⟩
      intro b hb
      rcases List.mem_cons.mp hb with rfl | hb
      · exact hq
      · exact strLe_trans hq (h.1 b hb)
    · have hq : strLt a n = true := by simpa using hc
      rw [insNameSorted, if_neg hc, List.pairwise_cons]
      refine ⟨?_, ih h.2⟩
      intro b hb
      rcases mem_insNameSorted.mp hb with rfl | hb
      · exact strLt_asymm hq
      · exact h.1 b hb

theorem sortNames_pairwise (l : List (List Char)) :
    List.Pairwise (fun a b => strLt b a = false) (sortNames l) := by
  induction l with
  | nil => simp [sortNames]
  | cons a t ih => exact insNameSorted_pairwise ih

theorem insNameSorted_perm (n : List Char) (l : List (List Char)) :
    List.Perm (insNameSorted n l) (n :: l) := by
  induction l with
  | nil => simp [insNameSorted]
  | cons a t ih =>
    by_cases hc : (!strLt a n) = true
    · rw [insNameSorted, if_pos hc]
    · rw [insNameSorted, if_neg hc]
      exact (ih.cons a).trans (List.Perm.swap n a t)

theorem sortNames_perm (l : List (List Char)) : List.Perm (sortNames l) l := by
  induction l with
  | nil => simp [sortNames]
  | cons a t ih => exact (insNameSorted_perm a (sortNames t)).trans (ih.cons a)

theorem pairwise_and_of {α : Type} {R S : α → α → Prop} :
    ∀ (l : List α), List.Pairwise R l → List.Pairwise S l →
      List.Pairwise (fun a b => R a b ∧ S a b) l := by
  intro l
  induction l with
  | nil => intro h1 h2; exact List.Pairwise.nil
  | cons a t ih =>
    intro h1 h2
    rw [List.pairwise_cons] at h1 h2 ⊢
    exact ⟨fun b hb => ⟨h1.1 b hb, h2.1 b hb⟩, ih h1.2 h2.2⟩

theorem sortNames_strict {l : List (List Char)} (hnd : l.Nodup) :
    List.Pairwise (fun a b => strLt a b = true) (sortNames l) := by
  have h1 := sortNames_pairwise l
  have h2 : (sortNames l).Nodup := ((sortNames_perm l).nodup_iff).mpr hnd
  refine (pairwise_and_of _ h1 h2).imp ?_
  intro a b hab
  exact strLt_of_ne_of_not_lt (fun he => hab.2 he.symm) hab.1

theorem findEntry_eq_some {l : List FSEntry} {p : List Char} {e : FSEntry}
    (h : findEntry l p = some e) : e ∈ l ∧ e.path = p := by
  induction l with
  | nil => simp [findEntry] at h
  | cons a t ih =>
    rw [findEntry] at h
    by_cases hc : a.path = p
    · rw [if_pos hc] at h
      injection h with h
      subst h
      exact ⟨List.mem_cons_self _ _, hc⟩
    · rw [if_neg hc] at h
      obtain ⟨h1, h2⟩ := ih h
      exact ⟨List.mem_cons_of_mem _ h1, h2⟩

theorem findEntry_isSome_of_mem {l : List FSEntry} {p : List Char}
    (h : ∃ e ∈ l, e.path = p) : (findEntry l p).isSome = true := by
  induction l with
  | nil => simp at h
  | cons a t ih =>
    rw [findEntry]
    by_cases hc : a.path = p
    · rw [if_pos hc]; rfl
    · rw [if_neg hc]
      obtain ⟨e, he, hp⟩ := h
      rcases List.mem_cons.mp he with rfl | he
      · exact absurd hp hc
      · exact ih ⟨e, he, hp⟩

theorem mem_childNames {fs : FS} {sp n : List Char} :
    n ∈ fs.childNames sp ↔ ∃ e ∈ fs.entries, dirnameL e.path = sp ∧ basenameL e.path = n := by
  unfold FS.childNames
  rw [List.mem_filterMap]
  constructor
  · rintro ⟨e, he, hf⟩
    by_cases hc : dirnameL e.path = sp
    · rw [if_pos hc] at hf
      injection hf with hf
      exact ⟨e, he, hc, hf⟩
    · rw [if_neg hc] at hf
      cases hf
  · rintro ⟨e, he, hc, hb⟩
    exact ⟨e, he, by rw [if_pos hc, hb]⟩

theorem getmtimeMs_find_isSome {fs : FS} {p : List Char} {t : Int}
    (h : fs.getmtimeMs p = .ok t) : ∃ e, fs.find p = some e := by
  unfold FS.getmtimeMs FS.statE at h
  cases hf : fs.find p with
  | none => rw [hf] at h; simp at h
  | some e => exact ⟨e, rfl⟩

/-- Well-formed root path for a scan: joinable and splittable. -/
def dpWF (dp : List Char) : Prop :=
  okDir dp ∧ dirnameL dp ≠ [] ∧ okDir (dirnameL dp) ∧
  basenameL dp ≠ [] ∧ '/' ∉ basenameL dp ∧
  joinL (dirnameL dp) (basenameL dp) = dp

/-- A well-formed filesystem entry: its absolute path splits and re-joins, and
its metadata is readable. -/
def entryWF (e : FSEntry) : Prop :=
  okDir e.path ∧ dirnameL e.path ≠ [] ∧ okDir (dirnameL e.path) ∧
  basenameL e.path ≠ [] ∧ '/' ∉ basenameL e.path ∧
  joinL (dirnameL e.path) (basenameL e.path) = e.path ∧ e.statErr = none

/-- Filesystem well-formedness for a scan rooted at `dp`: entries are
well-formed with distinct paths, and inside the subtree every entry's parent
directory exists. -/
def fsWF (fs : FS) (dp : List Char) : Prop :=
  (∀ e ∈ fs.entries, entryWF e) ∧
  List.Pairwise (fun e1 e2 => e1.path ≠ e2.path) fs.entries ∧
  (∀ e ∈ fs.entries, startswith (dirnameL e.path) dp = true →
    (fs.find (dirnameL e.path)).isSome = true)

/-- Well-formedness of a stored row that lies inside the scanned subtree. -/
def rowWF (dp : List Char) (u : Row) : Prop :=
  startswith u.path dp = true →
    (okDir u.path ∧ u.name ≠ [] ∧ '/' ∉ u.name ∧
     dirnameL u.path ≠ [] ∧ okDir (dirnameL u.path) ∧
     basenameL u.path ≠ [] ∧ '/' ∉ basenameL u.path ∧
     joinL (dirnameL u.path) (basenameL u.path) = u.path)

theorem childNames_nodup {fs : FS} {dp : List Char} (hfs : fsWF fs dp) (sp : List Char) :
    (fs.childNames sp).Nodup := by
  unfold FS.childNames
  rw [List.Nodup, List.pairwise_filterMap]
  refine List.Pairwise.imp_of_mem ?_ hfs.2.1
  intro e1 e2 h1 h2 hne b hb b' hb'
  by_cases hc1 : dirnameL e1.path = sp
  · rw [if_pos hc1] at hb
    by_cases hc2 : dirnameL e2.path = sp
    · rw [if_pos hc2] at hb'
      simp only [Option.mem_def, Option.some.injEq] at hb hb'
      subst hb
      subst hb'
      intro heq
      obtain ⟨-, -, -, -, -, hj1, -⟩ := hfs.1 e1 h1
      obtain ⟨-, -, -, -, -, hj2, -⟩ := hfs.1 e2 h2
      apply hne
      rw [← hj1, ← hj2, hc1, hc2, heq]
    · rw [if_neg hc2] at hb'
      simp at hb'
  · rw [if_neg hc1] at hb
    simp at hb


theorem stream_split : ∀ (S : List Row) (sp : List Char),
    List.Pairwise (fun a b => rowlt a b = true) S →
    (∀ x ∈ S, strLt x.path sp = false) →
    ∃ pre post, S = pre ++ post ∧ (∀ x ∈ pre, x.path = sp) ∧
      (∀ x ∈ post, strLt sp x.path = true) ∧
      List.Pairwise (fun a b => strLt a.name b.name = true) pre := by
  intro S
  induction S with
  | nil =>
    intro sp _ _
    exact ⟨[], [], rfl, by simp, by simp, List.Pairwise.nil⟩
  | cons x S' ih =>
    intro sp hsort hge
    rw [List.pairwise_cons] at hsort
    by_cases hx : x.path = sp
    · obtain ⟨pre', post', heq, hpre', hpost', hsn'⟩ := ih sp hsort.2
        (fun y hy => hge y (List.mem_cons_of_mem _ hy))
      refine ⟨x :: pre', post', by rw [heq, List.cons_append], ?_, hpost', ?_⟩
      · intro y hy
        rcases List.mem_cons.mp hy with rfl | hy
        · exact hx
        · exact hpre' y hy
      · rw [List.pairwise_cons]
        refine ⟨?_, hsn'⟩
        intro y hy
        have hmem : y ∈ S' := by
          rw [heq]
          exact List.mem_append.mpr (Or.inl hy)
        have hlt := hsort.1 y hmem
        unfold rowlt at hlt
        rcases Bool.or_eq_true_iff.mp hlt with h | h
        · exfalso
          rw [hx, hpre' y hy] at h
          rw [strLt_irrefl] at h
          simp at h
        · exact (Bool.and_eq_true_iff.mp h).2
    · refine ⟨[], x :: S', rfl, by simp, ?_, List.Pairwise.nil⟩
      intro y hy
      have hxlt : strLt sp x.path = true :=
        strLt_of_ne_of_not_lt hx (hge x (List.mem_cons_self _ _))
      rcases List.mem_cons.mp hy with rfl | hy
      · exact hxlt
      · exact rowlt_path_trans (hsort.1 y hy) hxlt

theorem lookupRow_isSome_of_mem {tab : List Row} {p n : List Char}
    (h : ∃ r ∈ tab, r.path = p ∧ r.name = n) : (lookupRow tab p n).isSome = true := by
  cases hq : lookupRow tab p n with
  | some r => rfl
  | none =>
    obtain ⟨r, hm, hp, hn⟩ := h
    exact absurd ⟨hp, hn⟩ (lookupRow_eq_none.mp hq r hm)

theorem lookupRow_mem_of_isSome : ∀ {tab : List Row} {p n : List Char},
    (lookupRow tab p n).isSome = true → ∃ r ∈ tab, r.path = p ∧ r.name = n := by
  intro tab
  induction tab with
  | nil => intro p n h; simp [lookupRow] at h
  | cons a t ih =>
    intro p n h
    rw [lookupRow] at h
    by_cases hc : a.path = p ∧ a.name = n
    · exact ⟨a, List.mem_cons_self _ _, hc⟩
    · rw [if_neg hc] at h
      obtain ⟨r', hm, hk⟩ := ih h
      exact ⟨r', List.mem_cons_of_mem _ hm, hk⟩

/-- The loop invariant of the first synchronization pass: the write/read
connection pair, the current row and the remaining cursor rows. -/
structure LoopInv (fs : FS) (dp : List Char) (st : SyncState) (row : Option Row)
    (cursor : List Row) : Prop where
  sorted : List.Pairwise (fun a b => rowlt a b = true) (row.toList ++ cursor)
  smem : ∀ u ∈ row.toList ++ cursor, u ∈ st.table
  sge : ∀ u ∈ row.toList ++ cursor, strLt u.path dp = false
  past : ∀ p, startswith p dp = true → (∃ u ∈ st.table, u.path = p) →
    (∀ r, row = some r → strLt p r.path = true → PostRow fs st.table p)
  pastNone : row = none → ∀ p, startswith p dp = true →
    (∃ u ∈ st.table, u.path = p) → PostRow fs st.table p
  pend : ∀ u ∈ st.table, startswith u.path dp = true →
    ∀ r, row = some r → strLt u.path r.path = false → u ∈ row.toList ++ cursor
  nodup : nodupKeys st.table
  nodupC : nodupKeys st.committed
  wf : ∀ u ∈ st.table, rowWF dp u
  dirRowE : ∀ p, startswith p dp = true → (∃ u ∈ st.table, u.path = p) →
    (∃ d ∈ st.table, d.path = dirnameL p ∧ d.name = basenameL p) ∨ fs.find p = none
  hi : ∀ r, row = some r → ∀ u : Row, strLt r.path u.path = true →
    (u ∈ st.table ↔ u ∈ st.committed)
  root : ∃ d ∈ st.table, d.path = dirnameL dp ∧ d.name = basenameL dp

theorem nodupKeys_symm : Symmetric (fun r s : Row => ¬(r.path = s.path ∧ r.name = s.name)) := by
  intro a b hk
  rintro ⟨hp, hn⟩
  exact hk ⟨hp.symm, hn.symm⟩

theorem nodupKeys_queryGT {tab : List Row} {p : List Char} (h : nodupKeys tab) :
    nodupKeys (queryGT tab p) := by
  unfold queryGT
  have hf : nodupKeys (tab.filter (fun r => strLt p r.path)) :=
    h.sublist (List.filter_sublist _)
  exact (((sortRows_perm _)).pairwise_iff (fun h => nodupKeys_symm h)).mpr hf

theorem nodupKeys_queryGE {tab : List Row} {p : List Char} (h : nodupKeys tab) :
    nodupKeys (queryGE tab p) := by
  unfold queryGE
  have hf : nodupKeys (tab.filter (fun r => !strLt r.path p)) :=
    h.sublist (List.filter_sublist _)
  exact (((sortRows_perm _)).pairwise_iff (fun h => nodupKeys_symm h)).mpr hf

theorem sorted_head_min {q : List Row} {r' : Row}
    (hs : List.Pairwise (fun a b => rowlt a b = true) q)
    (hh : q.head? = some r') : ∀ y ∈ q, strLt y.path r'.path = false := by
  cases q with
  | nil => simp at hh
  | cons a tq =>
    simp only [List.head?_cons, Option.some.injEq] at hh
    subst hh
    rw [List.pairwise_cons] at hs
    intro y hy
    rcases List.mem_cons.mp hy with rfl | hy
    · exact strLt_irrefl _
    · exact rowlt_path_not_lt (hs.1 y hy)

theorem inv_skip (fs : FS) (dp : List Char) (st : SyncState) (r : Row) (cursor : List Row)
    (hinv : LoopInv fs dp st (some r) cursor)
    (hsw : startswith r.path dp = true)
    (t m : Int) (hget : fs.getmtimeMs r.path = .ok t)
    (hlook : lookupMtime st.table (dirnameL r.path) (basenameL r.path) = some m)
    (hle : t ≤ m) :
    LoopInv fs dp st (queryGT st.committed r.path).head? (queryGT st.committed r.path).tail := by
  have hpostr : PostRow fs st.table r.path := ⟨t, m, hget, hlook, hle⟩
  have hqmem : ∀ u ∈ queryGT st.committed r.path, u ∈ st.table ∧ strLt r.path u.path = true := by
    intro u hu
    obtain ⟨hc, hlt⟩ := mem_queryGT.mp hu
    exact ⟨(hinv.hi r rfl u hlt).mpr hc, hlt⟩
  have hqin : ∀ u ∈ st.table, strLt r.path u.path = true → u ∈ queryGT st.committed r.path := by
    intro u hu hlt
    exact mem_queryGT.mpr ⟨(hinv.hi r rfl u hlt).mp hu, hlt⟩
  have hsorted : List.Pairwise (fun a b => rowlt a b = true) (queryGT st.committed r.path) :=
    pairwise_rowlt_of_rowLe (queryGT_pairwise _ _) (nodupKeys_queryGT hinv.nodupC)
  refine ⟨?_, ?_, ?_, ?_, ?_, ?_, hinv.nodup, hinv.nodupC, hinv.wf, hinv.dirRowE, ?_, hinv.root⟩
  · rw [head?_toList_append_tail]
    exact hsorted
  · rw [head?_toList_append_tail]
    exact fun u hu => (hqmem u hu).1
  · rw [head?_toList_append_tail]
    intro u hu
    have hlt := (hqmem u hu).2
    cases hq2 : strLt u.path dp with
    | false => rfl
    | true =>
      have hcontra := strLt_trans hlt hq2
      rw [hinv.sge r (by simp)] at hcontra
      simp at hcontra
  · intro p hpsw hex r' hr' hplt
    have hr'q : r' ∈ queryGT st.committed r.path := by
      have := congrArg (fun o => o.toList) hr'
      cases hqq : queryGT st.committed r.path with
      | nil => rw [hqq] at hr'; simp at hr'
      | cons a tq =>
        rw [hqq] at hr'
        simp only [List.head?_cons, Option.some.injEq] at hr'
        subst hr'
        exact hqq ▸ List.mem_cons_self a tq
    have hrlt : strLt r.path r'.path = true := (hqmem r' hr'q).2
    rcases strLt_or_eq_or_gt p r.path with hc | hc | hc
    · exact hinv.past p hpsw hex r rfl hc
    · rw [hc]
      exact hpostr
    · exfalso
      obtain ⟨u, hu, hup⟩ := hex
      have huq : u ∈ queryGT st.committed r.path :=
        hqin u hu (by rw [hup]; exact hc)
      have hmin := sorted_head_min hsorted hr' u huq
      rw [hup] at hmin
      rw [hmin] at hplt
      simp at hplt
  · intro hnone p hpsw hex
    have hq0 : queryGT st.committed r.path = [] := by
      cases hqq : queryGT st.committed r.path with
      | nil => rfl
      | cons a tq => rw [hqq] at hnone; simp at hnone
    rcases strLt_or_eq_or_gt p r.path with hc | hc | hc
    · exact hinv.past p hpsw hex r rfl hc
    · rw [hc]
      exact hpostr
    · exfalso
      obtain ⟨u, hu, hup⟩ := hex
      have huq := hqin u hu (by rw [hup]; exact hc)
      rw [hq0] at huq
      simp at huq
  · intro u hu husw r' hr' hnlt
    have hr'q : r' ∈ queryGT st.committed r.path := by
      cases hqq : queryGT st.committed r.path with
      | nil => rw [hqq] at hr'; simp at hr'
      | cons a tq =>
        rw [hqq] at hr'
        simp only [List.head?_cons, Option.some.injEq] at hr'
        subst hr'
        exact hqq ▸ List.mem_cons_self a tq
    have hrlt : strLt r.path r'.path = true := (hqmem r' hr'q).2
    have hult : strLt r.path u.path = true := by
      rcases strLt_or_eq_or_gt u.path r.path with hc | hc | hc
      · have := strLt_trans hc hrlt
        simp [this] at hnlt
      · rw [hc] at hnlt
        rw [hrlt] at hnlt
        simp at hnlt
      · exact hc
    rw [head?_toList_append_tail]
    exact hqin u hu hult
  · intro r' hr' u hlt
    have hr'q : r' ∈ queryGT st.committed r.path := by
      cases hqq : queryGT st.committed r.path with
      | nil => rw [hqq] at hr'; simp at hr'
      | cons a tq =>
        rw [hqq] at hr'
        simp only [List.head?_cons, Option.some.injEq] at hr'
        subst hr'
        exact hqq ▸ List.mem_cons_self a tq
    have hrlt : strLt r.path r'.path = true := (hqmem r' hr'q).2
    exact hinv.hi r rfl u (strLt_trans hrlt hlt)

theorem head?_mem {l : List Row} {a : Row} (h : l.head? = some a) : a ∈ l := by
  cases l with
  | nil => simp at h
  | cons x t =>
    simp only [List.head?_cons, Option.some.injEq] at h
    subst h
    exact List.mem_cons_self x t

theorem inv_merge (fs : FS) (dp : List Char) (hdp : dpWF dp) (hfs : fsWF fs dp)
    (st : SyncState) (r : Row) (cursor : List Row)
    (hinv : LoopInv fs dp st (some r) cursor)
    (hsw : startswith r.path dp = true)
    (names : List (List Char)) (w : Int) (mo : MergeOut)
    (halive : (fs.getmtimeMs r.path = .ok w ∧ names = sortNames (fs.childNames r.path)) ∨
              (fs.find r.path = none ∧ names = []))
    (hml : mergeLoop fs r.path (names.length + cursor.length + 2) st.table names
      (some r) cursor false = .ok mo) :
    (mo.refresh = false →
      LoopInv fs dp ⟨updMtime mo.table (basenameL r.path) (dirnameL r.path) w, st.committed⟩
        mo.row mo.cursor) ∧
    (mo.refresh = true →
      LoopInv fs dp
        ⟨updMtime mo.table (basenameL r.path) (dirnameL r.path) w,
         updMtime mo.table (basenameL r.path) (dirnameL r.path) w⟩
        (queryGT (updMtime mo.table (basenameL r.path) (dirnameL r.path) w) r.path).head?
        (queryGT (updMtime mo.table (basenameL r.path) (dirnameL r.path) w) r.path).tail) := by
  have hrtab : r ∈ st.table := hinv.smem r (by simp)
  obtain ⟨hok1, hname1, hns1, hdn1, hod1, hbn1, hbs1, hjoin1⟩ := hinv.wf r hrtab hsw
  have hspne : r.path ≠ [] := hok1.1
  have hdlt : strLt (dirnameL r.path) r.path = true := by
    have h0 := strLt_joinL hdn1 hbn1
    rw [hjoin1] at h0
    exact h0
  have hdne : dirnameL r.path ≠ r.path := strLt_ne hdlt
  have hgesp : ∀ x ∈ (some r).toList ++ cursor, strLt x.path r.path = false :=
    sorted_head_min hinv.sorted rfl
  obtain ⟨pre, post, hsplit, hpre, hpostgt, hspre⟩ :=
    stream_split ((some r).toList ++ cursor) r.path hinv.sorted hgesp
  have hpostne : ∀ x ∈ post, ¬ x.path = r.path := by
    intro x hx he
    have h2 := hpostgt x hx
    rw [he, strLt_irrefl] at h2
    simp at h2
  have hnames_wf : ∀ n ∈ names, n ≠ [] ∧ '/' ∉ n := by
    rcases halive with ⟨-, hn⟩ | ⟨-, hn⟩
    · subst hn
      intro n hn
      rw [mem_sortNames] at hn
      obtain ⟨e, he, hd, hb⟩ := mem_childNames.mp hn
      obtain ⟨-, -, -, hb1, hb2, -, -⟩ := hfs.1 e he
      exact ⟨hb ▸ hb1, hb ▸ hb2⟩
    · subst hn
      intro n hn
      simp at hn
  have hsn : List.Pairwise (fun a b => strLt a b = true) names := by
    rcases halive with ⟨-, hn⟩ | ⟨-, hn⟩
    · subst hn
      exact sortNames_strict (childNames_nodup hfs r.path)
    · subst hn
      exact List.Pairwise.nil
  have hnames_alive : ∀ n ∈ names, (fs.find (joinL r.path n)).isSome = true := by
    rcases halive with ⟨-, hn⟩ | ⟨-, hn⟩
    · subst hn
      intro n hn
      rw [mem_sortNames] at hn
      obtain ⟨e, he, hd, hb⟩ := mem_childNames.mp hn
      obtain ⟨-, -, -, -, -, hj, -⟩ := hfs.1 e he
      refine findEntry_isSome_of_mem ⟨e, he, ?_⟩
      rw [← hj, hd, hb]
    · subst hn
      intro n hn
      simp at hn
  have hdead_name : ∀ nb, nb ≠ [] → '/' ∉ nb → nb ∉ names →
      fs.find (joinL r.path nb) = none := by
    intro nb h1 h2 h3
    cases hfd : fs.find (joinL r.path nb) with
    | none => rfl
    | some e =>
      exfalso
      obtain ⟨hmem, hpath⟩ := findEntry_eq_some hfd
      have hdir : dirnameL e.path = r.path := by
        rw [hpath]
        exact dirnameL_joinL hok1 h1 h2
      have hbase : basenameL e.path = nb := by
        rw [hpath]
        exact basenameL_joinL hok1 h1 h2
      rcases halive with ⟨-, hn⟩ | ⟨hdead, hn⟩
      · apply h3
        rw [hn, mem_sortNames]
        exact mem_childNames.mpr ⟨e, hmem, hdir, hbase⟩
      · have hcl := hfs.2.2 e hmem (by rw [hdir]; exact hsw)
        rw [hdir, hdead] at hcl
        simp at hcl
  have hinS_pre : ∀ u ∈ st.table, u.path = r.path → u ∈ pre := by
    intro u hu hup
    have humem := hinv.pend u hu (by rw [hup]; exact hsw) r rfl
      (by rw [hup, strLt_irrefl])
    rw [hsplit] at humem
    rcases List.mem_append.mp humem with h | h
    · exact h
    · exfalso
      exact hpostne u h hup
  have hfresh : ∀ n ∈ names, (∀ r0 ∈ pre, r0.name ≠ n) →
      ∀ u ∈ st.table, ¬(u.path = r.path ∧ u.name = n) := by
    rintro n hn hfr u hu ⟨hup, hun⟩
    exact hfr u (hinS_pre u hu hup) hun
  have hdum : ∀ n ∈ names, (∀ r0 ∈ pre, r0.name ≠ n) →
      ∀ u ∈ st.table, u.path ≠ joinL r.path n := by
    intro n hn hfr u hu hup
    have hnw := hnames_wf n hn
    have hswj : startswith (joinL r.path n) dp = true :=
      startswith_trans (startswith_joinL hspne) hsw
    rcases hinv.dirRowE (joinL r.path n) hswj ⟨u, hu, hup⟩ with ⟨d, hd, hdp2, hdn2⟩ | hnone
    · rw [dirnameL_joinL hok1 hnw.1 hnw.2] at hdp2
      rw [basenameL_joinL hok1 hnw.1 hnw.2] at hdn2
      exact hfr d (hinS_pre d hd hdp2) hdn2
    · have := hnames_alive n hn
      rw [hnone] at this
      simp at this
  have hfuel : names.length + cursor.length + (some r).toList.length <
      names.length + cursor.length + 2 := by simp
  obtain ⟨⟨hArow, hAcur⟩, hB, hC, hF, hG, hH⟩ := mergeLoop_main fs r.path
    (names.length + cursor.length + 2) st.table names (some r) cursor false
    pre post mo hfuel hsplit (by intro h; simp at h) hpre hpostne hsn hspre hspne
    (fun n hn => (hnames_wf n hn).1) hfresh hdum (nodupSp_of_nodupKeys hinv.nodup)
    hinv.nodup hml
  set table3 := updMtime mo.table (basenameL r.path) (dirnameL r.path) w with htable3
  have hN3 : nodupKeys table3 := nodupKeys_updMtime hH
  have mem_back : ∀ {u : Row}, u ∈ table3 → strLt (dirnameL r.path) u.path = true →
      u ∈ mo.table := by
    intro u hu hlt
    obtain ⟨u0, hu0, hiff⟩ := mem_updMtime.mp hu
    by_cases hk : u0.name = basenameL r.path ∧ u0.path = dirnameL r.path
    · exfalso
      have hupath : u.path = dirnameL r.path := by
        rw [hiff, if_pos hk]
        exact hk.2
      rw [hupath, strLt_irrefl] at hlt
      simp at hlt
    · rw [hiff, if_neg hk]
      exact hu0
  have path_back : ∀ {u : Row}, u ∈ table3 →
      ∃ u0 ∈ mo.table, u.path = u0.path ∧ u.name = u0.name := by
    intro u hu
    obtain ⟨u0, hu0, hn2, hp2⟩ := updMtime_key_eq hu
    exact ⟨u0, hu0, hp2, hn2⟩
  have hdead_empty : fs.find r.path = none → ∀ x ∈ mo.table, ¬ x.path = r.path := by
    intro hdead x hx hxp
    have hnameseq : names = [] := by
      rcases halive with ⟨hget, -⟩ | ⟨-, hn⟩
      · obtain ⟨e, he⟩ := getmtimeMs_find_isSome hget
        rw [hdead] at he
        cases he
      · exact hn
    rcases (hB x).mp hx with ⟨h1, hs⟩ | ⟨n, hn, -, -⟩
    · refine hs ⟨hxp, ?_, ?_⟩
      · obtain hxpre := hinS_pre x h1 hxp
        exact ⟨x, hxpre, rfl⟩
      · rw [hnameseq]
        simp
    · rw [hnameseq] at hn
      simp at hn
  have hdirSp : fs.getmtimeMs r.path = .ok w →
      ∃ d2 ∈ table3, d2.path = dirnameL r.path ∧ d2.name = basenameL r.path ∧
        d2.mtime = w := by
    intro hget
    rcases hinv.dirRowE r.path hsw ⟨r, hrtab, rfl⟩ with ⟨d, hd, hdp2, hdn2⟩ | hnone
    · have hdsurv : d ∈ mo.table := (hB d).mpr (Or.inl ⟨hd, by
        rintro ⟨hq, -⟩
        rw [hdp2] at hq
        exact hdne hq⟩)
      refine ⟨{ d with mtime := w }, mem_updMtime_self hdsurv ⟨hdn2, hdp2⟩, ?_, ?_, rfl⟩
      · simpa using hdp2
      · simpa using hdn2
    · obtain ⟨e, he⟩ := getmtimeMs_find_isSome hget
      rw [hnone] at he
      cases he
  have hPostSp : (∃ x ∈ table3, x.path = r.path) → PostRow fs table3 r.path := by
    rintro ⟨x, hx, hxp⟩
    rcases halive with ⟨hget, -⟩ | ⟨hdead, -⟩
    · obtain ⟨d2, hd2, hd2p, hd2n, hd2m⟩ := hdirSp hget
      refine ⟨w, w, hget, ?_, le_refl w⟩
      have hl := lookupMtime_of_mem hN3 hd2
      rw [hd2p, hd2n, hd2m] at hl
      exact hl
    · exfalso
      obtain ⟨x0, hx0, hxp0, -⟩ := path_back hx
      exact hdead_empty hdead x0 hx0 (by rw [← hxp0, hxp])
  have hPostKeep : ∀ p, strLt p r.path = true →
      dirnameL p ≠ [] → basenameL p ≠ [] →
      joinL (dirnameL p) (basenameL p) = p →
      PostRow fs st.table p → PostRow fs table3 p := by
    rintro p hplt hdnp hbnp hjp ⟨t', m', hget', hlook', hle'⟩
    obtain ⟨d, hd, hdp2, hdn2, hdm⟩ := lookupMtime_eq_some_mem hlook'
    have hdnsp : d.path ≠ r.path := by
      rw [hdp2]
      intro he
      have h2 : strLt (dirnameL p) p = true := by
        have h0 := strLt_joinL hdnp hbnp
        rw [hjp] at h0
        exact h0
      rw [he] at h2
      have h3 := strLt_asymm h2
      rw [h3] at hplt
      simp at hplt
    have hdsurv : d ∈ mo.table := (hB d).mpr (Or.inl ⟨hd, by
      rintro ⟨hq, -⟩
      exact hdnsp hq⟩)
    have hkey : ¬(d.name = basenameL r.path ∧ d.path = dirnameL r.path) := by
      rintro ⟨hk1, hk2⟩
      rw [hdp2] at hk2
      rw [hdn2] at hk1
      have hps : p = r.path := by rw [← hjp, hk2, hk1, hjoin1]
      rw [hps, strLt_irrefl] at hplt
      simp at hplt
    have hd3 : d ∈ table3 := mem_updMtime_of_mem hdsurv hkey
    refine ⟨t', m', hget', ?_, hle'⟩
    have hl := lookupMtime_of_mem hN3 hd3
    rw [hdp2, hdn2, hdm] at hl
    exact hl
  have hwf3 : ∀ u ∈ table3, rowWF dp u := by
    intro u hu
    obtain ⟨u0, hu0, hup, hun⟩ := path_back hu
    have hwf0 : rowWF dp u0 := by
      rcases (hB u0).mp hu0 with ⟨h1, -⟩ | ⟨n, hn, -, hcase⟩
      · exact hinv.wf u0 h1
      · have hnw := hnames_wf n hn
        rcases hcase with ⟨z, mm, -, hsh⟩ | ⟨z, mm, -, hsh⟩
        · rcases hsh with rfl | rfl
          · intro hswu
            exact ⟨hok1, hnw.1, hnw.2, hdn1, hod1, hbn1, hbs1, hjoin1⟩
          · intro hswu
            have hdj : dirnameL (joinL r.path n) = r.path :=
              dirnameL_joinL hok1 hnw.1 hnw.2
            have hbj : basenameL (joinL r.path n) = n :=
              basenameL_joinL hok1 hnw.1 hnw.2
            refine ⟨okDir_joinL hspne hnw.1 hnw.2, by simp, by simp, ?_, ?_, ?_, ?_, ?_⟩
            · show dirnameL (joinL r.path n) ≠ []
              rw [hdj]
              exact hspne
            · show okDir (dirnameL (joinL r.path n))
              rw [hdj]
              exact hok1
            · show basenameL (joinL r.path n) ≠ []
              rw [hbj]
              exact hnw.1
            · show '/' ∉ basenameL (joinL r.path n)
              rw [hbj]
              exact hnw.2
            · show joinL (dirnameL (joinL r.path n)) (basenameL (joinL r.path n)) =
                joinL r.path n
              rw [hdj, hbj]
        · subst hsh
          intro hswu
          exact ⟨hok1, hnw.1, hnw.2, hdn1, hod1, hbn1, hbs1, hjoin1⟩
    intro hswu
    rw [hup] at hswu
    have h2 := hwf0 hswu
    rw [hup, hun]
    exact h2
  have hE3 : ∀ p, startswith p dp = true → (∃ u ∈ table3, u.path = p) →
      (∃ d ∈ table3, d.path = dirnameL p ∧ d.name = basenameL p) ∨ fs.find p = none := by
    rintro p hpsw ⟨u, hu, hup⟩
    obtain ⟨u0, hu0, hup0, -⟩ := path_back hu
    have hu0p : u0.path = p := by rw [← hup0, hup]
    rcases (hB u0).mp hu0 with ⟨h1, -⟩ | ⟨n, hn, hfr, hcase⟩
    · rcases hinv.dirRowE p hpsw ⟨u0, h1, hu0p⟩ with ⟨d, hd, hdp2, hdn2⟩ | hnone
      · by_cases hdsp : d.path = r.path
        · have hdirp : dirnameL p = r.path := by rw [← hdp2, hdsp]
          obtain ⟨-, -, -, -, -, hbnep, hbsp, hjp⟩ :=
            hinv.wf u0 h1 (by rw [hu0p]; exact hpsw)
          rw [hu0p] at hjp hbnep hbsp
          by_cases hnb : basenameL p ∈ names
          · have hdsurv : d ∈ mo.table := (hB d).mpr (Or.inl ⟨hd, by
              rintro ⟨-, -, hnin⟩
              exact hnin (by rw [hdn2]; exact hnb)⟩)
            have hd3 : d ∈ table3 := mem_updMtime_of_mem hdsurv (by
              rintro ⟨-, hk2⟩
              rw [hdsp] at hk2
              exact hdne hk2.symm)
            exact Or.inl ⟨d, hd3, hdp2, hdn2⟩
          · right
            have hpj : p = joinL r.path (basenameL p) := by
              rw [← hdirp]
              exact hjp.symm
            rw [hpj]
            exact hdead_name (basenameL p) hbnep hbsp hnb
        · have hdsurv : d ∈ mo.table := (hB d).mpr (Or.inl ⟨hd, by
            rintro ⟨hq, -⟩
            exact hdsp hq⟩)
          by_cases hk : d.name = basenameL r.path ∧ d.path = dirnameL r.path
          · refine Or.inl ⟨{ d with mtime := w }, mem_updMtime_self hdsurv hk, ?_, ?_⟩
            · simpa using hdp2
            · simpa using hdn2
          · exact Or.inl ⟨d, mem_updMtime_of_mem hdsurv hk, hdp2, hdn2⟩
      · exact Or.inr hnone
    · have halive2 : fs.getmtimeMs r.path = .ok w := by
        rcases halive with ⟨hget, -⟩ | ⟨-, hnil⟩
        · exact hget
        · rw [hnil] at hn
          simp at hn
      have hnw := hnames_wf n hn
      rcases hcase with ⟨z, mm, hstat, hsh⟩ | ⟨z, mm, hstat, hsh⟩
      · rcases hsh with rfl | rfl
        · have hpsp : p = r.path := hu0p.symm
          subst hpsp
          obtain ⟨d2, hd2, hd2p, hd2n, -⟩ := hdirSp halive2
          exact Or.inl ⟨d2, hd2, hd2p, hd2n⟩
        · have hpj : p = joinL r.path n := hu0p.symm
          subst hpj
          have hdj : dirnameL (joinL r.path n) = r.path :=
            dirnameL_joinL hok1 hnw.1 hnw.2
          have hbj : basenameL (joinL r.path n) = n :=
            basenameL_joinL hok1 hnw.1 hnw.2
          have hent : (⟨n, r.path, -1, 0⟩ : Row) ∈ mo.table :=
            (hB _).mpr (Or.inr ⟨n, hn, hfr, Or.inl ⟨z, mm, hstat, Or.inl rfl⟩⟩)
          have hent3 : (⟨n, r.path, -1, 0⟩ : Row) ∈ table3 :=
            mem_updMtime_of_mem hent (by
              rintro ⟨-, hk2⟩
              have : dirnameL r.path = r.path := by simpa using hk2.symm
              exact hdne this)
          refine Or.inl ⟨⟨n, r.path, -1, 0⟩, hent3, ?_, ?_⟩
          · show r.path = dirnameL (joinL r.path n)
            rw [hdj]
          · show n = basenameL (joinL r.path n)
            rw [hbj]
      · subst hsh
        have hpsp : p = r.path := hu0p.symm
        subst hpsp
        obtain ⟨d2, hd2, hd2p, hd2n, -⟩ := hdirSp halive2
        exact Or.inl ⟨d2, hd2, hd2p, hd2n⟩
  have hroot3 : ∃ d ∈ table3, d.path = dirnameL dp ∧ d.name = basenameL dp := by
    obtain ⟨d, hd, hdp2, hdn2⟩ := hinv.root
    have hlen : (dirnameL dp).length < dp.length := by
      have h1 := length_joinL (n := basenameL dp) hdp.2.1
      rw [hdp.2.2.2.2.2] at h1
      have hbl : 0 < (basenameL dp).length := List.length_pos.mpr hdp.2.2.2.1
      omega
    have hsplen : dp.length ≤ r.path.length :=
      (startswith_iff.mp hsw).length_le
    have hdnsp : d.path ≠ r.path := by
      rw [hdp2]
      intro he
      have := congrArg List.length he
      omega
    have hdsurv : d ∈ mo.table := (hB d).mpr (Or.inl ⟨hd, by
      rintro ⟨hq, -⟩
      exact hdnsp hq⟩)
    by_cases hk : d.name = basenameL r.path ∧ d.path = dirnameL r.path
    · refine ⟨{ d with mtime := w }, mem_updMtime_self hdsurv hk, ?_, ?_⟩
      · simpa using hdp2
      · simpa using hdn2
    · exact ⟨d, mem_updMtime_of_mem hdsurv hk, hdp2, hdn2⟩
  have hPastLt : ∀ p, startswith p dp = true → (∃ u ∈ table3, u.path = p) →
      strLt p r.path = true → PostRow fs table3 p := by
    rintro p hpsw ⟨u, hu, hup⟩ hc
    obtain ⟨u0, hu0, hup0, -⟩ := path_back hu
    have hu0p : u0.path = p := by rw [← hup0, hup]
    have hu0tab : u0 ∈ st.table := by
      rcases (hB u0).mp hu0 with ⟨h1, -⟩ | ⟨n, hn, -, hcase⟩
      · exact h1
      · exfalso
        rcases hcase with ⟨z, mm, -, hsh⟩ | ⟨z, mm, -, hsh⟩
        · rcases hsh with rfl | rfl
          · have : p = r.path := hu0p.symm
            rw [this, strLt_irrefl] at hc
            simp at hc
          · have hj : strLt r.path (joinL r.path n) = true :=
              strLt_joinL hspne (hnames_wf n hn).1
            have : p = joinL r.path n := hu0p.symm
            rw [this] at hc
            have h3 := strLt_trans hj hc
            rw [strLt_irrefl] at h3
            simp at h3
        · subst hsh
          have : p = r.path := hu0p.symm
          rw [this, strLt_irrefl] at hc
          simp at hc
    have hpost0 := hinv.past p hpsw ⟨u0, hu0tab, hu0p⟩ r rfl hc
    obtain ⟨-, -, -, hdnp, -, hbnp, -, hjp⟩ := hwf3 u hu (by rw [hup]; exact hpsw)
    rw [hup] at hdnp hbnp hjp
    exact hPostKeep p hc hdnp hbnp hjp hpost0
  constructor
  · -- non-refresh branch
    intro href
    have hmo_hi : ∀ y : Row, strLt r.path y.path = true →
        (y ∈ mo.table ↔ y ∈ st.table) := by
      intro y hlt
      constructor
      · intro hy
        rcases (hB y).mp hy with ⟨h1, -⟩ | ⟨n, hn, hfr, hcase⟩
        · exact h1
        · exfalso
          rcases hcase with ⟨z, mm, hstat, hsh⟩ | ⟨z, mm, hstat, hsh⟩
          · rcases hsh with rfl | rfl
            · rw [show (⟨n, r.path, -1, 0⟩ : Row).path = r.path from rfl,
                strLt_irrefl] at hlt
              simp at hlt
            · have h2 := hC.mpr (Or.inr ⟨n, hn, hfr, z, mm, hstat⟩)
              rw [href] at h2
              simp at h2
          · subst hsh
            rw [show (⟨n, r.path, z, mm⟩ : Row).path = r.path from rfl,
              strLt_irrefl] at hlt
            simp at hlt
      · intro hy
        refine (hB y).mpr (Or.inl ⟨hy, ?_⟩)
        rintro ⟨hq, -⟩
        rw [hq, strLt_irrefl] at hlt
        simp at hlt
    have ht3_hi : ∀ y : Row, strLt r.path y.path = true →
        (y ∈ table3 ↔ y ∈ st.table) := by
      intro y hlt
      constructor
      · intro hy
        exact (hmo_hi y hlt).mp (mem_back hy (strLt_trans hdlt hlt))
      · intro hy
        have hy2 : y ∈ mo.table := (hmo_hi y hlt).mpr hy
        refine mem_updMtime_of_mem hy2 ?_
        rintro ⟨-, hk2⟩
        rw [hk2] at hlt
        have h2 := strLt_trans hdlt hlt
        rw [strLt_irrefl] at h2
        simp at h2
    have hpost_t3 : ∀ x ∈ post, x ∈ table3 := by
      intro x hx
      have hxS : x ∈ (some r).toList ++ cursor := by
        rw [hsplit]
        exact List.mem_append.mpr (Or.inr hx)
      exact (ht3_hi x (hpostgt x hx)).mpr (hinv.smem x hxS)
    have hpost_sorted : List.Pairwise (fun a b => rowlt a b = true) post := by
      have h1 : List.Pairwise (fun a b => rowlt a b = true) (pre ++ post) := by
        rw [← hsplit]
        exact hinv.sorted
      exact h1.sublist (List.sublist_append_right pre post)
    have hnomid : ∀ u ∈ table3, startswith u.path dp = true →
        strLt r.path u.path = true → u ∈ post := by
      intro u hu husw hlt
      have hutab : u ∈ st.table := (ht3_hi u hlt).mp hu
      have humem := hinv.pend u hutab husw r rfl (strLt_asymm hlt)
      rw [hsplit] at humem
      rcases List.mem_append.mp humem with h | h
      · exfalso
        rw [hpre u h, strLt_irrefl] at hlt
        simp at hlt
      · exact h
    refine ⟨?_, ?_, ?_, ?_, ?_, ?_, hN3, hinv.nodupC, hwf3, hE3, ?_, hroot3⟩
    · rw [hArow, hAcur, head?_toList_append_tail]
      exact hpost_sorted
    · rw [hArow, hAcur, head?_toList_append_tail]
      exact hpost_t3
    · rw [hArow, hAcur, head?_toList_append_tail]
      intro u hu
      have hxS : u ∈ (some r).toList ++ cursor := by
        rw [hsplit]
        exact List.mem_append.mpr (Or.inr hu)
      exact hinv.sge u hxS
    · rintro p hpsw hex r' hr' hplt
      rw [hArow] at hr'
      rcases strLt_or_eq_or_gt p r.path with hc | hc | hc
      · exact hPastLt p hpsw hex hc
      · rw [hc]
        exact hPostSp (hc ▸ hex)
      · exfalso
        obtain ⟨u, hu, hup⟩ := hex
        have hupost := hnomid u hu (by rw [hup]; exact hpsw) (by rw [hup]; exact hc)
        have hmin := sorted_head_min hpost_sorted hr' u hupost
        rw [hup] at hmin
        rw [hmin] at hplt
        simp at hplt
    · intro hnone p hpsw hex
      rw [hArow] at hnone
      have hpostnil : post = [] := by
        cases hpq : post with
        | nil => rfl
        | cons a tq => rw [hpq] at hnone; simp at hnone
      rcases strLt_or_eq_or_gt p r.path with hc | hc | hc
      · exact hPastLt p hpsw hex hc
      · rw [hc]
        exact hPostSp (hc ▸ hex)
      · exfalso
        obtain ⟨u, hu, hup⟩ := hex
        have hupost := hnomid u hu (by rw [hup]; exact hpsw) (by rw [hup]; exact hc)
        rw [hpostnil] at hupost
        simp at hupost
    · intro u hu husw r' hr' hnlt
      rw [hArow] at hr'
      have hr'post : r' ∈ post := head?_mem hr'
      have hrplt : strLt r.path r'.path = true := hpostgt r' hr'post
      have hult : strLt r.path u.path = true := by
        rcases strLt_or_eq_or_gt u.path r'.path with hc | hc | hc
        · simp [hnlt] at hc
        · rw [hc]
          exact hrplt
        · exact strLt_trans hrplt hc
      rw [hArow, hAcur, head?_toList_append_tail]
      exact hnomid u hu husw hult
    · intro r' hr' y hlt
      rw [hArow] at hr'
      have hr'post : r' ∈ post := head?_mem hr'
      have hrplt : strLt r.path r'.path = true := hpostgt r' hr'post
      have hylt : strLt r.path y.path = true := strLt_trans hrplt hlt
      exact (ht3_hi y hylt).trans (hinv.hi r rfl y hylt)
  · -- refresh branch
    intro href
    have hq_sorted : List.Pairwise (fun a b => rowlt a b = true)
        (queryGT table3 r.path) :=
      pairwise_rowlt_of_rowLe (queryGT_pairwise _ _) (nodupKeys_queryGT hN3)
    have hq_mem : ∀ u ∈ queryGT table3 r.path, u ∈ table3 ∧ strLt r.path u.path = true :=
      fun u hu => mem_queryGT.mp hu
    have hq_in : ∀ u ∈ table3, strLt r.path u.path = true → u ∈ queryGT table3 r.path :=
      fun u hu hlt => mem_queryGT.mpr ⟨hu, hlt⟩
    refine ⟨?_, ?_, ?_, ?_, ?_, ?_, hN3, hN3, hwf3, hE3, ?_, hroot3⟩
    · rw [head?_toList_append_tail]
      exact hq_sorted
    · rw [head?_toList_append_tail]
      exact fun u hu => (hq_mem u hu).1
    · rw [head?_toList_append_tail]
      intro u hu
      have hlt := (hq_mem u hu).2
      cases hq2 : strLt u.path dp with
      | false => rfl
      | true =>
        have hcontra := strLt_trans hlt hq2
        rw [not_strLt_of_startswith hsw] at hcontra
        simp at hcontra
    · rintro p hpsw hex r' hr' hplt
      have hr'q : r' ∈ queryGT table3 r.path := head?_mem hr'
      rcases strLt_or_eq_or_gt p r.path with hc | hc | hc
      · exact hPastLt p hpsw hex hc
      · rw [hc]
        exact hPostSp (hc ▸ hex)
      · exfalso
        obtain ⟨u, hu, hup⟩ := hex
        have huq : u ∈ queryGT table3 r.path := hq_in u hu (by rw [hup]; exact hc)
        have hmin := sorted_head_min hq_sorted hr' u huq
        rw [hup] at hmin
        rw [hmin] at hplt
        simp at hplt
    · intro hnone p hpsw hex
      have hq0 : queryGT table3 r.path = [] := by
        cases hpq : queryGT table3 r.path with
        | nil => rfl
        | cons a tq => rw [hpq] at hnone; simp at hnone
      rcases strLt_or_eq_or_gt p r.path with hc | hc | hc
      · exact hPastLt p hpsw hex hc
      · rw [hc]
        exact hPostSp (hc ▸ hex)
      · exfalso
        obtain ⟨u, hu, hup⟩ := hex
        have huq := hq_in u hu (by rw [hup]; exact hc)
        rw [hq0] at huq
        simp at huq
    · intro u hu husw r' hr' hnlt
      have hr'q : r' ∈ queryGT table3 r.path := head?_mem hr'
      have hrplt : strLt r.path r'.path = true := (hq_mem r' hr'q).2
      have hult : strLt r.path u.path = true := by
        rcases strLt_or_eq_or_gt u.path r'.path with hc | hc | hc
        · simp [hnlt] at hc
        · rw [hc]
          exact hrplt
        · exact strLt_trans hrplt hc
      rw [head?_toList_append_tail]
      exact hq_in u hu hult
    · intro r' hr' y hlt
      exact Iff.rfl

theorem subdir_step (fs : FS) (dp : List Char) (hdp : dpWF dp) (hfs : fsWF fs dp)
    (st : SyncState) (r : Row) (cursor : List Row) (so : SubOut)
    (hinv : LoopInv fs dp st (some r) cursor)
    (hsw : startswith r.path dp = true)
    (hok : update_db_subdir fs st r.path (some r) cursor = .ok so) :
    LoopInv fs dp so.st so.row so.cursor := by
  unfold update_db_subdir at hok
  dsimp only at hok
  cases hfind : fs.find r.path with
  | none =>
    rw [getmtimeMs_of_find_none hfind] at hok
    simp only [is_enoent_enoentErr, if_true] at hok
    set m0 := (lookupMtime st.table (dirnameL r.path) (basenameL r.path)).getD 0 with hm0
    rw [if_pos (by omega : m0 < m0 + 1)] at hok
    rw [listdir_of_find_none hfind] at hok
    simp only [is_enoent_enoentErr, if_true, List.length_nil] at hok
    cases hml : mergeLoop fs r.path (0 + cursor.length + 2) st.table [] (some r) cursor false with
    | error e => rw [hml] at hok; simp at hok
    | ok mo =>
      rw [hml] at hok
      dsimp only at hok
      have hkey := inv_merge fs dp hdp hfs st r cursor hinv hsw [] (m0 + 1) mo
        (Or.inr ⟨hfind, rfl⟩) (by simpa using hml)
      have hrefresh : mo.refresh = false :=
        (mergeLoop_nil_props fs r.path (0 + cursor.length + 2) st.table (some r)
          cursor false mo hml).2.1
      rw [hrefresh] at hok
      simp only [Bool.false_eq_true, if_false, Except.ok.injEq] at hok
      rw [← hok]
      exact hkey.1 hrefresh
  | some en =>
    have hewf := hfs.1 en (findEntry_eq_some hfind).1
    have hse : en.statErr = none := hewf.2.2.2.2.2.2
    have hget : fs.getmtimeMs r.path = .ok en.mtime := by
      unfold FS.getmtimeMs FS.statE
      rw [show fs.find r.path = some en from hfind]
      dsimp only
      rw [hse]
    rw [hget] at hok
    dsimp only at hok
    set m0 := (lookupMtime st.table (dirnameL r.path) (basenameL r.path)).getD 0 with hm0
    by_cases hmt : m0 < en.mtime
    · rw [if_pos hmt] at hok
      cases hdir : en.isDir with
      | false =>
        have hls : fs.listdir r.path = .error enotdirErr := by
          unfold FS.listdir
          rw [show fs.find r.path = some en from hfind]
          dsimp only
          rw [hse]
          dsimp only
          rw [hdir]
          rfl
        rw [hls] at hok
        dsimp only at hok
        rw [if_neg (by decide : ¬ is_enoent enotdirErr = true)] at hok
        simp at hok
      | true =>
        have hls : fs.listdir r.path = .ok (fs.childNames r.path) := by
          unfold FS.listdir
          rw [show fs.find r.path = some en from hfind]
          dsimp only
          rw [hse]
          dsimp only
          rw [hdir]
          rfl
        rw [hls] at hok
        dsimp only at hok
        cases hml : mergeLoop fs r.path
            ((sortNames (fs.childNames r.path)).length + cursor.length + 2) st.table
            (sortNames (fs.childNames r.path)) (some r) cursor false with
        | error e => rw [hml] at hok; simp at hok
        | ok mo =>
          rw [hml] at hok
          dsimp only at hok
          have hkey := inv_merge fs dp hdp hfs st r cursor hinv hsw
            (sortNames (fs.childNames r.path)) en.mtime mo (Or.inl ⟨hget, rfl⟩) hml
          by_cases hq : mo.refresh = true
          · rw [if_pos hq] at hok
            simp only [Except.ok.injEq] at hok
            rw [← hok]
            exact hkey.2 hq
          · rw [if_neg hq] at hok
            simp only [Except.ok.injEq] at hok
            rw [← hok]
            exact hkey.1 (by simpa using hq)
    · rw [if_neg hmt] at hok
      simp only [Except.ok.injEq] at hok
      rw [← hok]
      have hlook : ∃ m, lookupMtime st.table (dirnameL r.path) (basenameL r.path) = some m := by
        rcases hinv.dirRowE r.path hsw ⟨r, hinv.smem r (by simp), rfl⟩ with
          ⟨d, hd, hdp2, hdn2⟩ | hnone
        · cases hl : lookupMtime st.table (dirnameL r.path) (basenameL r.path) with
          | some m => exact ⟨m, rfl⟩
          | none => exact absurd ⟨hdp2, hdn2⟩ (lookupMtime_eq_none.mp hl d hd)
        · rw [hfind] at hnone
          cases hnone
      obtain ⟨m, hm⟩ := hlook
      have hmeq : m0 = m := by
        rw [hm0, hm]
        rfl
      have hle : en.mtime ≤ m := by omega
      exact inv_skip fs dp st r cursor hinv hsw en.mtime m hget hm hle

theorem update_db_loop_establishes (fs : FS) (dp : List Char) (hdp : dpWF dp)
    (hfs : fsWF fs dp) :
    ∀ (fuel : Nat) (st : SyncState) (row : Option Row) (cursor : List Row)
      (st2 : SyncState) (evs : List Event),
      LoopInv fs dp st row cursor →
      update_db_loop fs dp fuel st row cursor = .ok (some (st2, evs)) →
      (∀ p, startswith p dp = true → (∃ u ∈ st2.table, u.path = p) →
        PostRow fs st2.table p) ∧
      (∃ d ∈ st2.table, d.path = dirnameL dp ∧ d.name = basenameL dp) := by
  intro fuel
  induction fuel with
  | zero =>
    intro st row cursor st2 evs hinv h
    simp [update_db_loop] at h
  | succ fuel ih =>
    intro st row cursor st2 evs hinv h
    rw [update_db_loop.eq_def] at h
    dsimp only at h
    cases row with
    | none =>
      dsimp only at h
      simp only [Except.ok.injEq, Option.some.injEq, Prod.mk.injEq] at h
      obtain ⟨h1, -⟩ := h
      rw [← h1]
      exact ⟨hinv.pastNone rfl, hinv.root⟩
    | some r =>
      dsimp only at h
      by_cases hs : startswith r.path dp = true
      · rw [if_pos hs] at h
        cases hsub : update_db_subdir fs st r.path (some r) cursor with
        | error e => rw [hsub] at h; simp at h
        | ok so =>
          rw [hsub] at h
          dsimp only at h
          cases hrec : update_db_loop fs dp fuel so.st so.row so.cursor with
          | error e => rw [hrec] at h; simp at h
          | ok o =>
            cases o with
            | none => rw [hrec] at h; simp at h
            | some p2 =>
              obtain ⟨st3, evs3⟩ := p2
              rw [hrec] at h
              simp only [Except.ok.injEq, Option.some.injEq, Prod.mk.injEq] at h
              obtain ⟨h1, -⟩ := h
              have hinv2 := subdir_step fs dp hdp hfs st r cursor so hinv hs hsub
              have hres := ih so.st so.row so.cursor st3 evs3 hinv2 hrec
              rw [← h1]
              exact hres
      · rw [if_neg hs] at h
        simp only [Except.ok.injEq, Option.some.injEq, Prod.mk.injEq] at h
        obtain ⟨h1, -⟩ := h
        rw [← h1]
        refine ⟨?_, hinv.root⟩
        intro p hpsw hex
        have hrge : strLt r.path dp = false := hinv.sge r (by simp)
        have hplt : strLt p r.path = true :=
          inside_lt_outside hrge (by simpa using hs) hpsw
        exact hinv.past p hpsw hex r rfl hplt

theorem initial_inv (fs : FS) (dp : List Char) (tab : List Row)
    (hwf : ∀ u ∈ tab, rowWF dp u)
    (hnd : nodupKeys tab)
    (hE : ∀ p, startswith p dp = true → (∃ u ∈ tab, u.path = p) →
      (∃ d ∈ tab, d.path = dirnameL p ∧ d.name = basenameL p) ∨ fs.find p = none)
    (hroot : ∃ d ∈ tab, d.path = dirnameL dp ∧ d.name = basenameL dp) :
    LoopInv fs dp ⟨tab, tab⟩ (queryGE tab dp).head? (queryGE tab dp).tail := by
  have hq : ∀ u ∈ tab, startswith u.path dp = true → u ∈ queryGE tab dp := by
    intro u hu husw
    exact mem_queryGE.mpr ⟨hu, not_strLt_of_startswith husw⟩
  have hq_sorted := pairwise_rowlt_of_rowLe (queryGE_pairwise tab dp) (nodupKeys_queryGE hnd)
  refine ⟨?_, ?_, ?_, ?_, ?_, ?_, hnd, hnd, hwf, hE, ?_, hroot⟩
  · rw [head?_toList_append_tail]
    exact hq_sorted
  · rw [head?_toList_append_tail]
    exact fun u hu => (mem_queryGE.mp hu).1
  · rw [head?_toList_append_tail]
    exact fun u hu => (mem_queryGE.mp hu).2
  · rintro p hpsw ⟨u, hu, hup⟩ r' hr' hplt
    exfalso
    have huq := hq u hu (by rw [hup]; exact hpsw)
    have hmin := sorted_head_min hq_sorted hr' u huq
    rw [hup] at hmin
    rw [hmin] at hplt
    simp at hplt
  · intro hnone p hpsw hex
    exfalso
    have hq0 : queryGE tab dp = [] := by
      cases hpq : queryGE tab dp with
      | nil => rfl
      | cons a tq => rw [hpq] at hnone; simp at hnone
    obtain ⟨u, hu, hup⟩ := hex
    have hm := hq u hu (by rw [hup]; exact hpsw)
    rw [hq0] at hm
    simp at hm
  · intro u hu husw r' hr' hnlt
    rw [head?_toList_append_tail]
    exact hq u hu husw
  · intro r' hr' u hlt
    exact Iff.rfl

/-- C2: running synchronization twice in a row with no filesystem change in
between performs zero store writes (no insert, no delete, no mtime update)
during the second run, for any well-formed root, filesystem and initial
store. -/
theorem C2_second_sync_zero_writes :
    ∀ (fs : FS) (dp : List Char) (db0 : List Row) (fuel1 fuel2 : Nat)
      (db1 : List Row) (tr1 : List Event) (db2 : List Row) (tr2 : List Event),
      dpWF dp →
      fsWF fs dp →
      (∀ u ∈ db0, rowWF dp u) →
      nodupKeys db0 →
      (∀ p, startswith p dp = true → (∃ u ∈ db0, u.path = p) →
        (∃ d ∈ db0, d.path = dirnameL p ∧ d.name = basenameL p) ∨ fs.find p = none) →
      ((lookupRow db0 (dirnameL dp) (basenameL dp)).isSome = true ∨
        ∀ u ∈ db0, startswith u.path dp = false) →
      update_db fs fuel1 db0 dp = .ok (some (db1, tr1)) →
      update_db fs fuel2 db1 dp = .ok (some (db2, tr2)) →
      tr2.filter (fun e => isWrite e) = [] := by
  intro fs dp db0 fuel1 fuel2 db1 tr1 db2 tr2 hdp hfs hwf0 hnd0 hE0 hroot0 hrun1 hrun2
  have hlen : (dirnameL dp).length < dp.length := by
    have h1 := length_joinL (n := basenameL dp) hdp.2.1
    rw [hdp.2.2.2.2.2] at h1
    have hbl : 0 < (basenameL dp).length := List.length_pos.mpr hdp.2.2.2.1
    omega
  unfold update_db at hrun1
  dsimp only at hrun1
  have hmain : (∀ p, startswith p dp = true → (∃ u ∈ db1, u.path = p) →
      PostRow fs db1 p) ∧
      (∃ d ∈ db1, d.path = dirnameL dp ∧ d.name = basenameL dp) := by
    cases hlk : lookupRow db0 (dirnameL dp) (basenameL dp) with
    | some r0 =>
      rw [hlk] at hrun1
      dsimp only at hrun1
      have hrootm : ∃ d ∈ db0, d.path = dirnameL dp ∧ d.name = basenameL dp :=
        lookupRow_mem_of_isSome (by rw [hlk]; rfl)
      have hinv0 := initial_inv fs dp db0 hwf0 hnd0 hE0 hrootm
      cases hloop : update_db_loop fs dp fuel1 ⟨db0, db0⟩ (queryGE db0 dp).head?
          (queryGE db0 dp).tail with
      | error e => rw [hloop] at hrun1; simp at hrun1
      | ok o =>
        cases o with
        | none => rw [hloop] at hrun1; simp at hrun1
        | some p2 =>
          obtain ⟨stF, evsF⟩ := p2
          rw [hloop] at hrun1
          simp only [Except.ok.injEq, Option.some.injEq, Prod.mk.injEq] at hrun1
          obtain ⟨h1, -⟩ := hrun1
          have hres := update_db_loop_establishes fs dp hdp hfs fuel1 ⟨db0, db0⟩
            (queryGE db0 dp).head? (queryGE db0 dp).tail stF evsF hinv0 hloop
          rw [← h1]
          exact hres
    | none =>
      rw [hlk] at hrun1
      dsimp only at hrun1
      have hnoSW : ∀ u ∈ db0, startswith u.path dp = false := by
        rcases hroot0 with hs | hs
        · rw [hlk] at hs
          simp at hs
        · exact hs
      set marker : Row := ⟨basenameL dp, dirnameL dp, -2, 0⟩ with hmarker
      set dummy : Row := ⟨".".data, dp, -3, 0⟩ with hdummy
      have hwfI : ∀ u ∈ db0 ++ [marker, dummy], rowWF dp u := by
        intro u hu
        rcases List.mem_append.mp hu with h | h
        · exact hwf0 u h
        · simp only [List.mem_cons, List.not_mem_nil, or_false] at h
          rcases h with rfl | rfl
          · intro hswm
            exfalso
            have hns := not_startswith_short (p := dirnameL dp) (d := dp) hlen
            rw [show marker.path = dirnameL dp from rfl] at hswm
            rw [hns] at hswm
            exact absurd hswm (by simp)
          · intro hswd
            exact ⟨hdp.1, by show (".".data : List Char) ≠ []; decide,
              by show '/' ∉ (".".data : List Char); decide, hdp.2.1, hdp.2.2.1,
              hdp.2.2.2.1, hdp.2.2.2.2.1, hdp.2.2.2.2.2⟩
      have hndI : nodupKeys (db0 ++ [marker, dummy]) := by
        rw [nodupKeys, List.pairwise_append]
        refine ⟨hnd0, ?_, ?_⟩
        · simp only [List.pairwise_cons, List.Pairwise.nil, List.not_mem_nil]
          refine ⟨fun v hv => ?_, by simp⟩
          simp only [List.mem_cons, List.not_mem_nil, or_false] at hv
          subst hv
          rintro ⟨hp, -⟩
          have h2 : dirnameL dp = dp := by simpa using hp
          have := congrArg List.length h2
          omega
        · intro u hu v hv
          simp only [List.mem_cons, List.not_mem_nil, or_false] at hv
          rcases hv with rfl | rfl
          · rintro ⟨hp, hn⟩
            exact (lookupRow_eq_none.mp hlk u hu) ⟨by simpa using hp, by simpa using hn⟩
          · rintro ⟨hp, -⟩
            have husw := hnoSW u hu
            rw [show u.path = dp by simpa using hp, startswith_refl] at husw
            exact absurd husw (by simp)
      have hEI : ∀ p, startswith p dp = true → (∃ u ∈ db0 ++ [marker, dummy], u.path = p) →
          (∃ d ∈ db0 ++ [marker, dummy], d.path = dirnameL p ∧ d.name = basenameL p) ∨
            fs.find p = none := by
        rintro p hpsw ⟨u, hu, hup⟩
        rcases List.mem_append.mp hu with h | h
        · exfalso
          have hfalse := hnoSW u h
          rw [hup] at hfalse
          rw [hfalse] at hpsw
          exact absurd hpsw (by simp)
        · simp only [List.mem_cons, List.not_mem_nil, or_false] at h
          rcases h with rfl | rfl
          · exfalso
            have hpd : p = dirnameL dp := by
              rw [← hup]
            rw [hpd] at hpsw
            rw [not_startswith_short hlen] at hpsw
            exact absurd hpsw (by simp)
          · left
            have hpd : p = dp := by
              rw [← hup]
            subst hpd
            exact ⟨marker, List.mem_append.mpr (Or.inr (List.mem_cons_self _ _)), rfl, rfl⟩
      have hrootI : ∃ d ∈ db0 ++ [marker, dummy],
          d.path = dirnameL dp ∧ d.name = basenameL dp :=
        ⟨marker, List.mem_append.mpr (Or.inr (List.mem_cons_self _ _)), rfl, rfl⟩
      have hinv0 := initial_inv fs dp (db0 ++ [marker, dummy]) hwfI hndI hEI hrootI
      cases hloop : update_db_loop fs dp fuel1 ⟨db0 ++ [marker, dummy], db0 ++ [marker, dummy]⟩
          (queryGE (db0 ++ [marker, dummy]) dp).head?
          (queryGE (db0 ++ [marker, dummy]) dp).tail with
      | error e => rw [hloop] at hrun1; simp at hrun1
      | ok o =>
        cases o with
        | none => rw [hloop] at hrun1; simp at hrun1
        | some p2 =>
          obtain ⟨stF, evsF⟩ := p2
          rw [hloop] at hrun1
          simp only [Except.ok.injEq, Option.some.injEq, Prod.mk.injEq] at hrun1
          obtain ⟨h1, -⟩ := hrun1
          have hres := update_db_loop_establishes fs dp hdp hfs fuel1 _ _ _ stF evsF
            hinv0 hloop
          rw [← h1]
          exact hres
  have hrootSome : (lookupRow db1 (dirnameL dp) (basenameL dp)).isSome = true :=
    lookupRow_isSome_of_mem hmain.2
  exact (update_db_second_run fs dp db1 hrootSome hmain.1 fuel2 db2 tr2 hrun2).1

def fsC2 : FS := ⟨[⟨"/r".data, true, 0, 5, none⟩, ⟨"/r/a".data, false, 7, 3, none⟩]⟩

def dbC2 : List Row := [⟨"r".data, "/".data, -2, 5⟩, ⟨"a".data, "/r".data, 7, 3⟩]

def trC2a : List Event :=
  [Event.insert ⟨"r".data, "/".data, -2, 0⟩, Event.insert ⟨".".data, "/r".data, -3, 0⟩,
   Event.commit, Event.listing "/r".data, Event.delete ".".data "/r".data,
   Event.insert ⟨"a".data, "/r".data, 7, 3⟩, Event.setMtime "r".data "/".data 5,
   Event.commit]

def trC2b : List Event := [Event.seek "/r".data, Event.commit]

theorem C2_second_sync_zero_writes_witness :
    trC2b.filter (fun e => isWrite e) = [] :=
  C2_second_sync_zero_writes fsC2 "/r".data [] 9 9 dbC2 trC2a dbC2 trC2b
    (by unfold dpWF; decide) (by unfold fsWF entryWF; decide)
    (by intro u hu; simp at hu) List.Pairwise.nil
    (by rintro p - ⟨u, hu, -⟩; simp at hu) (Or.inr (by intro u hu; simp at hu))
    rfl rfl
